import Mathlib

/-!
# Schedulr: the schedule extraction engine of `server.js`

A shallow embedding of the pure parts of `server.js` (the date token parser
`normalizeDateFromMatch`, the heuristic extractor `extractScheduleHeuristic`, the
orchestrator `extractScheduleWithAI`, the aggregation of the upload handler and the
calendar serializer `toICS`), followed by theorems about them.

Conventions of the embedding.

* A JavaScript string is a `List Char` (`Str`).  The classes of the patterns
  (`\d`, `\s`, `\w`, `[A-Z]`, the literal characters) are all within the Basic
  Multilingual Plane, where a character is one code unit; a character outside
  that plane is two code units, neither of which is in any of these classes.  The
  one pattern element that accepts such a code unit is the wildcard `.` of the
  pattern rebuilt for the title, for which see `isDot`.
* A regular expression literal of the source is a value of `Re`, written
  constructor by constructor after the literal.  `Re.run` enumerates the matches
  of a pattern at one position in the priority order of a backtracking matcher
  (greedy quantifiers first, alternatives left to right), so that the head of
  the enumeration is the match JavaScript reports; `searchFrom` tries the
  positions left to right.
* The flag `i` compares ASCII letters without regard to case and leaves every
  other character alone, which is what ECMAScript does for a pattern without the
  flag `u` (a character above U+007F is never identified with an ASCII one).
* `new Date().getFullYear()` is the parameter `cy`, `Date.now()` the parameter
  `now`, both whole numbers; `localeCompare`, the collaborator and `JSON.parse`
  are parameters too.
* The weight of an event is a JavaScript value of any kind, of a type `W` that is
  left open; what the code does with it (test its truthiness, print it) is given
  by the parameters `truthy` and `render`.
* `null` and `undefined` are `none`.
-/

namespace Schedulr

/-- A JavaScript string, as the list of its characters. -/
abbrev Str := List Char

/-! ## Characters -/

/-- The class `\d`. -/
def isDigit (c : Char) : Bool := decide (48 ≤ c.toNat) && decide (c.toNat ≤ 57)

/-- The class `[A-Z]`. -/
def isUpper (c : Char) : Bool := decide (65 ≤ c.toNat) && decide (c.toNat ≤ 90)

/-- The class `[a-z]`. -/
def isLower (c : Char) : Bool := decide (97 ≤ c.toNat) && decide (c.toNat ≤ 122)

/-- The class `[A-Z]` under the flag `i`, which is `[A-Za-z]`. -/
def isAlpha (c : Char) : Bool := isUpper c || isLower c

/-- The class `\w`: letters, digits and the underscore. -/
def isWord (c : Char) : Bool := isAlpha c || isDigit c || decide (c.toNat = 95)

/-- The class `\s`, which is also what `trim` removes: the white space and line
terminator code points of ECMAScript. -/
def isWs (c : Char) : Bool :=
  let n := c.toNat
  decide (9 ≤ n ∧ n ≤ 13) || decide (n = 32) || decide (n = 160) || decide (n = 5760) ||
  decide (8192 ≤ n ∧ n ≤ 8202) || decide (n = 8232) || decide (n = 8233) ||
  decide (n = 8239) || decide (n = 8287) || decide (n = 12288) || decide (n = 65279)

/-- Line terminators, which `.` does not match. -/
def isLineTerm (c : Char) : Bool :=
  let n := c.toNat
  decide (n = 10) || decide (n = 13) || decide (n = 8232) || decide (n = 8233)

/-- Lower-casing of an ASCII letter; other characters are unchanged.  This is how
the flag `i` compares a pattern letter with an input character, and what
`toLowerCase` does to a string of ASCII letters. -/
def lowerChar (c : Char) : Char := if isUpper c then Char.ofNat (c.toNat + 32) else c

/-- Upper-casing of an ASCII letter; other characters are unchanged. -/
def upperChar (c : Char) : Char := if isLower c then Char.ofNat (c.toNat - 32) else c

/-- The method `toLowerCase`, on the ASCII strings the code applies it to. -/
def toLowerCase (s : Str) : Str := s.map lowerChar

/-- The method `toUpperCase`, on the ASCII strings the code applies it to. -/
def toUpperCase (s : Str) : Str := s.map upperChar

/-! ## Regular expressions -/

/-- Capture groups of one match: group number and captured text. -/
abbrev Caps := List (Nat × Str)

/-- The patterns the source uses.  Quantifiers other than `?` are only ever applied
to a single character class, which `many` covers (`\d{1,2}`, `\s*`, `[-:\t]+`). -/
inductive Re where
  /-- One character of a class. -/
  | cls (p : Char → Bool)
  /-- Greedy repetition of a class, between `lo` and `hi` times (`none`: unbounded). -/
  | many (p : Char → Bool) (lo : Nat) (hi : Option Nat)
  /-- The empty pattern. -/
  | eps
  /-- Concatenation. -/
  | seq (a b : Re)
  /-- Alternation `a|b`. -/
  | alt (a b : Re)
  /-- Greedy optional `a?`. -/
  | opt (a : Re)
  /-- Capture group number `n`. -/
  | group (n : Nat) (a : Re)
  /-- The assertion `^`. -/
  | bol
  /-- The assertion `$`. -/
  | eol
  /-- The assertion `\b`. -/
  | wordB

/-- The matches of a greedy class repetition at the start of `s`, longest first:
pairs of the consumed text and the rest. -/
def manyRun (p : Char → Bool) : Nat → Nat → Str → List (Str × Str)
  | lo, 0, s => if lo = 0 then [([], s)] else []
  | lo, _ + 1, [] => if lo = 0 then [([], [])] else []
  | lo, hi + 1, c :: cs =>
    (if p c then (manyRun p (lo - 1) hi cs).map (fun r => (c :: r.1, r.2)) else []) ++
      (if lo = 0 then [([], c :: cs)] else [])

/-- The character before the position reached after consuming `w`. -/
def lastChar (prev : Option Char) (w : Str) : Option Char :=
  match w.getLast? with
  | some c => some c
  | none => prev

/-- A word character, for `\b`; the ends of the input count as non-word. -/
def isWordOpt : Option Char → Bool
  | some c => isWord c
  | none => false

/-- All matches of a pattern at the start of `s`, where `prev` is the character
before that position (`none` at the start of the input), in the priority order of
a backtracking matcher.  A match is the consumed text, the rest and the captures. -/
def Re.run : Re → Option Char → Str → List (Str × Str × Caps)
  | .cls p, _, s =>
    match s with
    | [] => []
    | c :: cs => if p c then [([c], cs, [])] else []
  | .many p lo hi, _, s =>
    (manyRun p lo (hi.getD s.length) s).map (fun r => (r.1, r.2, []))
  | .eps, _, s => [([], s, [])]
  | .seq a b, prev, s =>
    (a.run prev s).flatMap (fun r1 =>
      (b.run (lastChar prev r1.1) r1.2.1).map (fun r2 =>
        (r1.1 ++ r2.1, r2.2.1, r1.2.2 ++ r2.2.2)))
  | .alt a b, prev, s => a.run prev s ++ b.run prev s
  | .opt a, prev, s => (a.run prev s).filter (fun r => !r.1.isEmpty) ++ [([], s, [])]
  | .group n a, prev, s => (a.run prev s).map (fun r => (r.1, r.2.1, (n, r.1) :: r.2.2))
  | .bol, prev, s => if prev.isNone then [([], s, [])] else []
  | .eol, _, s => if s.isEmpty then [([], s, [])] else []
  | .wordB, prev, s => if isWordOpt prev != isWordOpt s.head? then [([], s, [])] else []

/-- A successful search: the text before the match, the matched text, the text
after it, and the capture groups. -/
structure Match where
  pre : Str
  matched : Str
  post : Str
  caps : Caps
  deriving DecidableEq

/-- The text of capture group `n`, `none` when the group did not take part. -/
def Match.cap (m : Match) (n : Nat) : Option Str := m.caps.lookup n

/-- Leftmost match of `re` in `s`, where `prev` is the character before `s`. -/
def searchFrom (re : Re) : Option Char → Str → Option Match
  | prev, [] =>
    match (re.run prev []).head? with
    | some r => some ⟨[], r.1, r.2.1, r.2.2⟩
    | none => none
  | prev, c :: cs =>
    match (re.run prev (c :: cs)).head? with
    | some r => some ⟨[], r.1, r.2.1, r.2.2⟩
    | none => (searchFrom re (some c) cs).map (fun m => { m with pre := c :: m.pre })

/-- The call `s.match(re)` for a pattern without the flag `g`. -/
def search (re : Re) (s : Str) : Option Match := searchFrom re none s

/-- The call `re.test(s)`. -/
def test (re : Re) (s : Str) : Bool := (search re s).isSome

/-- The pattern of a literal character. -/
def Re.chr (c : Char) : Re := .cls (fun x => x == c)

/-- The pattern of a literal character under the flag `i`. -/
def Re.chrI (c : Char) : Re := .cls (fun x => lowerChar x == lowerChar c)

/-- The pattern of a literal text. -/
def Re.lit : Str → Re
  | [] => .eps
  | [c] => .chr c
  | c :: cs => .seq (.chr c) (Re.lit cs)

/-- The pattern of a literal text under the flag `i`. -/
def Re.litI : Str → Re
  | [] => .eps
  | [c] => .chrI c
  | c :: cs => .seq (.chrI c) (Re.litI cs)

/-- Alternation of a non-empty list of patterns, left to right. -/
def Re.alts : List Re → Re
  | [] => .cls (fun _ => false)
  | [a] => a
  | a :: as => .alt a (Re.alts as)

/-- Concatenation of a list of patterns. -/
def Re.seqs : List Re → Re
  | [] => .eps
  | [a] => a
  | a :: as => .seq a (Re.seqs as)

/-- Global replacement `s.replace(re, repl)` for a pattern with the flag `g`: every
match, left to right, each search resuming where the previous match ended (one
character further after an empty match).  `fuel` bounds the number of matches. -/
def replaceAllFrom (re : Re) (repl : Str) : Nat → Option Char → Str → Str
  | 0, _, s => s
  | fuel + 1, prev, s =>
    match searchFrom re prev s with
    | none => s
    | some m =>
      m.pre ++ repl ++
        (match m.matched, m.post with
         | [], [] => []
         | [], c :: cs => c :: replaceAllFrom re repl fuel (some c) cs
         | _ :: _, post =>
           replaceAllFrom re repl fuel (lastChar (lastChar prev m.pre) m.matched) post)

/-- The call `s.replace(re, repl)` for a pattern with the flag `g`. -/
def replaceAll (re : Re) (repl : Str) (s : Str) : Str :=
  replaceAllFrom re repl (s.length + 1) none s

/-- The call `s.replace(re, repl)` for a pattern without the flag `g`: the leftmost
match only. -/
def replaceFirst (re : Re) (repl : Str) (s : Str) : Str :=
  match search re s with
  | none => s
  | some m => m.pre ++ repl ++ m.post

/-- All matched texts of `re` in `s`, left to right, as `s.match(re)` collects them
for a pattern with the flag `g`.  `fuel` bounds the number of matches. -/
def matchAllFrom (re : Re) : Nat → Option Char → Str → List Str
  | 0, _, _ => []
  | fuel + 1, prev, s =>
    match searchFrom re prev s with
    | none => []
    | some m =>
      m.matched ::
        (match m.matched, m.post with
         | [], [] => []
         | [], c :: cs => matchAllFrom re fuel (some c) cs
         | _ :: _, post =>
           matchAllFrom re fuel (lastChar (lastChar prev m.pre) m.matched) post)

/-- The call `s.match(re) || []` for a pattern with the flag `g`. -/
def matchAll (re : Re) (s : Str) : List Str := matchAllFrom re (s.length + 1) none s

/-- Global replacement of every character of a class by `repl`, which is what
`s.replace(/[...]/g, repl)` does for a pattern that is one character class. -/
def replaceClass (p : Char → Bool) (repl : Str) (s : Str) : Str :=
  s.flatMap (fun c => if p c then repl else [c])

/-- Does `pat` start `s`? On success, the rest of `s`. -/
def stripPrefix? : Str → Str → Option Str
  | [], s => some s
  | _ :: _, [] => none
  | p :: ps, c :: cs => if p = c then stripPrefix? ps cs else none

/-- The call `s.replace(pat, repl)` for a string `pat`: the first occurrence only. -/
def replaceStr (pat repl : Str) : Str → Str
  | [] => if pat.isEmpty then repl else []
  | c :: cs =>
    match stripPrefix? pat (c :: cs) with
    | some rest => repl ++ rest
    | none => c :: replaceStr pat repl cs

/-! ## Strings and numbers -/

/-- The method `trim`. -/
def trim (s : Str) : Str := ((s.dropWhile isWs).reverse.dropWhile isWs).reverse

/-- The method `padStart(n, c)`. -/
def padStart (n : Nat) (c : Char) (s : Str) : Str := List.replicate (n - s.length) c ++ s

/-- The decimal digit of a number below ten. -/
def digitChar (d : Nat) : Char := Char.ofNat (48 + d)

/-- Decimal digits of `n`, prepended to `acc`. -/
def toDecimalAux : Nat → Nat → Str → Str
  | 0, _, acc => acc
  | fuel + 1, n, acc =>
    if n < 10 then digitChar n :: acc else toDecimalAux fuel (n / 10) (digitChar (n % 10) :: acc)

/-- The conversion `String(n)` of a whole number `n` below `10 ^ 21`: its decimal
digits.  (From `10 ^ 21` on JavaScript prints an exponent; the numbers printed
here are the current year, the number of a month, a time stamp and an index.) -/
def toDecimal (n : Nat) : Str := toDecimalAux (n + 1) n []

/-- The conversion `Number(s)` of a string of decimal digits. -/
def parseNat (s : Str) : Nat := s.foldl (fun acc c => 10 * acc + (c.toNat - 48)) 0

/-- What a template literal prints for a capture group: its text, or `undefined`
when the group did not take part in the match. -/
def jsString : Option Str → Str
  | some s => s
  | none => "undefined".toList

/-! ## The date token parser -/

/-- The pattern `\d{lo,hi}`. -/
def digitsRe (lo hi : Nat) : Re := .many isDigit lo (some hi)

/-- The pattern `\s+`. -/
def ws1 : Re := .many isWs 1 none

/-- The pattern `\s*`. -/
def ws0 : Re := .many isWs 0 none

/-- The pattern `(\d{4}-\d{2}-\d{2})`. -/
def isoRe : Re :=
  .group 1 (Re.seqs [digitsRe 4 4, .chr '-', digitsRe 2 2, .chr '-', digitsRe 2 2])

/-- The pattern `(\d{1,2})\/(\d{1,2})\/(\d{2,4})`. -/
def mdRe : Re :=
  Re.seqs [.group 1 (digitsRe 1 2), .chr '/', .group 2 (digitsRe 1 2), .chr '/',
    .group 3 (digitsRe 2 4)]

/-- The full month names of the month alternation, in source order. -/
def fullMonths : List String :=
  ["January", "February", "March", "April", "May", "June", "July", "August",
   "September", "October", "November", "December"]

/-- The abbreviations of the month alternation, in source order; each is followed
by `\.?` in the pattern. -/
def abbrMonths : List String :=
  ["Jan", "Feb", "Mar", "Apr", "May", "Jun", "Jul", "Aug", "Sep", "Sept", "Oct", "Nov", "Dec"]

/-- The alternation `January|...|December|Jan\.?|...|Dec\.?` under the flag `i`
(every pattern that contains it has that flag). -/
def monthRe : Re :=
  Re.alts (fullMonths.map (fun n => Re.litI n.toList) ++
    abbrMonths.map (fun n => Re.seq (Re.litI n.toList) (.opt (.chr '.'))))

/-- The pattern `(?:st|nd|rd|th)` under the flag `i`. -/
def ordinalRe : Re :=
  Re.alts [Re.litI "st".toList, Re.litI "nd".toList, Re.litI "rd".toList, Re.litI "th".toList]

/-- The pattern `^(MONTH)\s+(\d{1,2})(?:st|nd|rd|th)?(?:\s+(\d{4}))?$` with the flag `i`. -/
def m1Re : Re :=
  Re.seqs [.bol, .group 1 monthRe, ws1, .group 2 (digitsRe 1 2), .opt ordinalRe,
    .opt (.seq ws1 (.group 3 (digitsRe 4 4))), .eol]

/-- The pattern `^(\d{1,2})(?:st|nd|rd|th)?\s+(MONTH)(?:\s+(\d{4}))?$` with the flag `i`. -/
def m2Re : Re :=
  Re.seqs [.bol, .group 1 (digitsRe 1 2), .opt ordinalRe, ws1, .group 2 monthRe,
    .opt (.seq ws1 (.group 3 (digitsRe 4 4))), .eol]

/-- The table `months`. -/
def months : List (String × Nat) :=
  [("january", 1), ("jan", 1), ("february", 2), ("feb", 2), ("march", 3), ("mar", 3),
   ("april", 4), ("apr", 4), ("may", 5), ("june", 6), ("jun", 6), ("july", 7), ("jul", 7),
   ("august", 8), ("aug", 8), ("september", 9), ("sept", 9), ("sep", 9), ("october", 10),
   ("oct", 10), ("november", 11), ("nov", 11), ("december", 12), ("dec", 12)]

/-- The lookup `months[mon]`. -/
def monthNumber (mon : Str) : Option Nat :=
  (months.find? (fun e => decide (e.1.toList = mon))).map (fun e => e.2)

/-- The common tail of the two month-name branches: look the month up, give up when
it is unknown or zero (`!mnum`), and print the three fields padded. -/
def formatMonthDate (cy : Nat) (monText day : Str) (yearCap : Option Str) : Option Str :=
  let mon := toLowerCase (replaceStr ['.'] [] monText)
  let year := match yearCap with
    | some y => if y.isEmpty then toDecimal cy else y
    | none => toDecimal cy
  match monthNumber mon with
  | none => none
  | some mnum =>
    if mnum = 0 then none
    else some (padStart 4 '0' year ++ '-' :: padStart 2 '0' (toDecimal mnum) ++
      '-' :: padStart 2 '0' day)

/-- The class `[\,\.]`. -/
def isCommaOrPeriod (c : Char) : Bool := c == ',' || c == '.'

/-- The function `normalizeDateFromMatch(raw)`; `cy` is `new Date().getFullYear()`.
`none` is `null`. -/
def normalizeDateFromMatch (cy : Nat) (raw : Str) : Option Str :=
  let raw := trim raw
  match search isoRe raw with
  | some iso => some (jsString (iso.cap 1))
  | none =>
    match search mdRe raw with
    | some md =>
      let m := jsString (md.cap 1)
      let d := jsString (md.cap 2)
      let y := jsString (md.cap 3)
      let y := if y.length = 2 then '2' :: '0' :: y else y
      some (padStart 4 '0' y ++ '-' :: padStart 2 '0' m ++ '-' :: padStart 2 '0' d)
    | none =>
      let raw := trim (replaceClass isCommaOrPeriod [] raw)
      match search m1Re raw with
      | some m1 => formatMonthDate cy (jsString (m1.cap 1)) (jsString (m1.cap 2)) (m1.cap 3)
      | none =>
        match search m2Re raw with
        | some m2 => formatMonthDate cy (jsString (m2.cap 2)) (jsString (m2.cap 1)) (m2.cap 3)
        | none => none

/-! ## The heuristic extractor -/

/-- The four replacements at the head of `extractScheduleHeuristic`: dash variants,
single quotes, double quotes, and the no-break space. -/
def normalizeText (text : Str) : Str :=
  let text := replaceClass
    (fun c => c == Char.ofNat 0x2012 || c == Char.ofNat 0x2013 || c == Char.ofNat 0x2014 ||
      c == Char.ofNat 0x2015) ['-'] text
  let text := replaceClass
    (fun c => c == Char.ofNat 0x2018 || c == Char.ofNat 0x2019 || c == Char.ofNat 0x201A ||
      c == Char.ofNat 0x201B || c == Char.ofNat 0x2032 || c == Char.ofNat 0x2035)
    [Char.ofNat 39] text
  let text := replaceClass
    (fun c => c == Char.ofNat 0x201C || c == Char.ofNat 0x201D || c == Char.ofNat 0x201E ||
      c == Char.ofNat 0x201F || c == Char.ofNat 0x2033 || c == Char.ofNat 0x2036)
    [Char.ofNat 34] text
  replaceClass (fun c => c == Char.ofNat 0x00A0) [' '] text

/-- The call `text.split(/\r?\n/)`: a line ends at each `\n`, and a `\r` right
before that `\n` belongs to the separator. -/
def splitLines : Str → List Str
  | [] => [[]]
  | c :: cs =>
    if c = '\n' then [] :: splitLines cs
    else if c = '\r' ∧ cs.head? = some '\n' then splitLines cs
    else
      match splitLines cs with
      | [] => [[c]]
      | l :: ls => (c :: l) :: ls

/-- The lines of the text: split, trimmed, empty ones dropped (`filter(Boolean)`). -/
def rawLines (text : Str) : List Str :=
  ((splitLines text).map trim).filter (fun l => !l.isEmpty)

/-- The class `[:\s]`. -/
def isColonWs (c : Char) : Bool := c == ':' || isWs c

/-- The pattern `[A-Z]{2,6}\s?\d{3}\w?` of a course code, over the letter class
`letter` (`[A-Z]`, which the flag `i` widens to all ASCII letters). -/
def courseCodeRe (letter : Char → Bool) : Re :=
  Re.seqs [.many letter 2 (some 6), .opt (.cls isWs), digitsRe 3 3, .opt (.cls isWord)]

/-- The pattern `Course[:\s]+([A-Z]{2,6}\s?\d{3}\w?)` with the flag `i`. -/
def p1Re : Re :=
  Re.seqs [Re.litI "Course".toList, .many isColonWs 1 none, .group 1 (courseCodeRe isAlpha)]

/-- The pattern `([A-Z]{2,6}\s?\d{3}\w?)`, case-sensitive. -/
def p2Re : Re := .group 1 (courseCodeRe isUpper)

/-- The pattern `course\s*title|course[:\s]` with the flag `i`. -/
def p3Re : Re :=
  .alt (Re.seqs [Re.litI "course".toList, ws0, Re.litI "title".toList])
    (.seq (Re.litI "course".toList) (.cls isColonWs))

/-- The pattern `course\s*title[:\s]*|course[:\s]*` with the flag `i`. -/
def p3StripRe : Re :=
  .alt (Re.seqs [Re.litI "course".toList, ws0, Re.litI "title".toList, .many isColonWs 0 none])
    (.seq (Re.litI "course".toList) (.many isColonWs 0 none))

/-- The inner function `extractCourseName(lines)`. -/
def extractCourseName (lines : List Str) : Str :=
  let top := List.intercalate ['\n'] (lines.take 40)
  match search p1Re top with
  | some p1 => toUpperCase (jsString (p1.cap 1))
  | none =>
    match search p2Re top with
    | some p2 => toUpperCase (jsString (p2.cap 1))
    | none =>
      match lines.find? (fun l => test p3Re l) with
      | some p3 =>
        if p3.isEmpty then "Unknown Course".toList else trim (replaceFirst p3StripRe [] p3)
      | none => "Unknown Course".toList

/-- One extracted item. -/
structure Item where
  title : Str
  type : String
  date : Str
  time : Str
  weight : Option Nat
  notes : Str
  deriving DecidableEq

/-- The result `{ course_name, term, items }` of the heuristic extractor. -/
structure Extraction where
  course_name : Str
  term : Str
  items : List Item
  deriving DecidableEq

/-- The class `[-–—]` of the range patterns. -/
def isRangeDash (c : Char) : Bool :=
  c == '-' || c == Char.ofNat 0x2013 || c == Char.ofNat 0x2014

/-- The pattern built for `rangeSimple`, flag `i`:
`(MONTH)\s*(\d{1,2})(?:st|nd|rd|th)?(?:\s*[-–—]\s*(\d{1,2})(?:st|nd|rd|th)?)?(?:,?\s*(\d{4}))?`. -/
def rangeSimpleRe : Re :=
  Re.seqs [.group 1 monthRe, ws0, .group 2 (digitsRe 1 2), .opt ordinalRe,
    .opt (Re.seqs [ws0, .cls isRangeDash, ws0, .group 3 (digitsRe 1 2), .opt ordinalRe]),
    .opt (Re.seqs [.opt (.chr ','), ws0, .group 4 (digitsRe 4 4)])]

/-- The pattern `dateGlobal`, flags `gi`:
`(\d{4}-\d{2}-\d{2})|(\d{1,2}\/\d{1,2}\/\d{2,4})|((MONTH)\s*\d{1,2}(?:st|nd|rd|th)?(?:,?\s*\d{4})?)`. -/
def dateGlobalRe : Re :=
  Re.alts
    [.group 1 (Re.seqs [digitsRe 4 4, .chr '-', digitsRe 2 2, .chr '-', digitsRe 2 2]),
     .group 2 (Re.seqs [digitsRe 1 2, .chr '/', digitsRe 1 2, .chr '/', digitsRe 2 4]),
     .group 3 (Re.seqs [.group 4 monthRe, ws0, digitsRe 1 2, .opt ordinalRe,
       .opt (Re.seqs [.opt (.chr ','), ws0, digitsRe 4 4])])]

/-- The pattern `(\d{1,3})\s?%`. -/
def weightRe : Re := Re.seqs [.group 1 (digitsRe 1 3), .opt (.cls isWs), .chr '%']

/-- The pattern `(\d{1,3}\s?%)`. -/
def weightStripRe : Re := .group 1 (Re.seqs [digitsRe 1 3, .opt (.cls isWs), .chr '%'])

/-- The pattern `\b([01]?\d|2[0-3]):([0-5]\d)\b`. -/
def timeRe : Re :=
  Re.seqs [.wordB,
    .group 1 (.alt (.seq (.opt (.cls (fun c => c == '0' || c == '1'))) (.cls isDigit))
      (.seq (.chr '2') (.cls (fun c => c == '0' || c == '1' || c == '2' || c == '3')))),
    .chr ':',
    .group 2 (.seq (.cls (fun c => decide (48 ≤ c.toNat) && decide (c.toNat ≤ 53)))
      (.cls isDigit)),
    .wordB]

/-- The class `[-:\t]`. -/
def isFiller (c : Char) : Bool := c == '-' || c == ':' || c == '\t'

/-- The pattern `[-:\t]+`. -/
def fillerRe : Re := .many isFiller 1 none

/-- The pattern `\b(due date|due on|due)\b[:\s]*` with the flag `i`. -/
def dueRe : Re :=
  Re.seqs [.wordB,
    .group 1 (Re.alts [Re.litI "due date".toList, Re.litI "due on".toList,
      Re.litI "due".toList]),
    .wordB, .many isColonWs 0 none]

/-- The wildcard `.` of a pattern without the flags `s` and `u`, on a text given as
characters: it matches one UTF-16 code unit that is not a line terminator, that is,
a whole character of the Basic Multilingual Plane.  On a character outside that
plane it takes the first of the two code units only, and the pattern goes on in
the middle of the character; the patterns built here go on with `\s*` and a digit,
which the second code unit does not match, so that the wildcard leads to no match
there, as a class that rejects the character does. -/
def isDot (c : Char) : Bool := !isLineTerm c && decide (c.toNat < 65536)

/-- A captured text spliced into the source of a pattern built with the flag `i`.
The captures spliced in hold letters, digits and the period only, and a period can
only be the last character of a month (`Sept.`), which `\s*` and the digits of
the day follow: a period is the wildcard `.` (see `isDot`), any other character
stands for itself. -/
def Re.ofText : Str → Re
  | [] => .eps
  | c :: cs =>
    .seq (if c = '.' then .cls isDot else .chrI c) (Re.ofText cs)

/-- The pattern built for the title of the range branch, flag `i`:
`${month}\s*${day1}(?:st|nd|rd|th)?(?:\s*[-–—]\s*${day2})?(?:,?\s*${yearPart || ''})?`. -/
def rangeTitleRe (month day1 : Str) (day2 yearPart : Option Str) : Re :=
  Re.seqs [Re.ofText month, ws0, Re.ofText day1, .opt ordinalRe,
    .opt (Re.seqs [ws0, .cls isRangeDash, ws0, Re.ofText (jsString day2)]),
    .opt (Re.seqs [.opt (.chr ','), ws0, Re.ofText (yearPart.getD [])])]

/-- The first `\d{1,3}%`-shaped text of the line, as a number. -/
def weightOf (line : Str) : Option Nat :=
  match search weightRe line with
  | some m => some (parseNat (jsString (m.cap 1)))
  | none => none

/-- The first `HH:MM` of the line, or the empty string. -/
def timeOf (line : Str) : Str :=
  match search timeRe line with
  | some m => jsString (m.cap 1) ++ ':' :: jsString (m.cap 2)
  | none => []

/-- The replacements applied to the line once the date has been removed: the
weight, the filler characters (each run becomes one space) and the due label. -/
def stripTitle (withoutDate : Str) : Str :=
  replaceFirst dueRe [] (replaceAll fillerRe [' '] (replaceFirst weightStripRe [] withoutDate))

/-- The tail of the title computation, common to both branches: after the date has
been removed, strip, trim, and default to `Assessment`. -/
def finishTitle (withoutDate : Str) : Str :=
  let title := trim (stripTitle withoutDate)
  if title.isEmpty then "Assessment".toList else title

/-- The keyword cascade that sets `type`. -/
def typeOf (line : Str) : String :=
  if test (Re.litI "final".toList) line then "final"
  else if test (Re.litI "midterm".toList) line then "midterm"
  else if test (Re.litI "quiz".toList) line then "quiz"
  else if test (Re.litI "lab".toList) line then "lab"
  else if test (Re.litI "project".toList) line then "project"
  else if test (Re.alts [Re.litI "work".toList, Re.litI "shift".toList,
      Re.litI "schedule".toList]) line then "work"
  else "assignment"

/-- The line of the range branch with the date removed: the first match of the
pattern rebuilt from the captures of `rangeSimple` is replaced by nothing. -/
def rangeWithoutDate (line : Str) (m : Match) : Str :=
  let month := jsString (m.cap 1)
  let day1 := jsString (m.cap 2)
  let day2 := m.cap 3
  let yearPart := match m.cap 4 with
    | some y => if y.isEmpty then none else some y
    | none => none
  replaceFirst (rangeTitleRe month day1 day2 yearPart) [] line

/-- The range branch for a line on which `rangeSimple` matched as `m`: at most one
item, dated by the month, the second day if there is one (else the first) and the
year. -/
def rangeItems (cy : Nat) (line : Str) (m : Match) : List Item :=
  let month := jsString (m.cap 1)
  let day1 := jsString (m.cap 2)
  let day2 := m.cap 3
  let yearPart := m.cap 4
  let chosenDay := match day2 with
    | some d => if d.isEmpty then day1 else d
    | none => day1
  let year := match yearPart with
    | some y => if y.isEmpty then toDecimal cy else y
    | none => toDecimal cy
  let dateCandidate := month ++ ' ' :: chosenDay ++ ',' :: ' ' :: year
  match normalizeDateFromMatch cy dateCandidate with
  | none => []
  | some dateStr =>
    if dateStr.isEmpty then []
    else
      [{ title := finishTitle (rangeWithoutDate line m),
         type := typeOf line, date := dateStr, time := timeOf line,
         weight := weightOf line, notes := [] }]

/-- The generic branch: one item for each match of `dateGlobal` that normalizes. -/
def genericItems (cy : Nat) (line : Str) : List Item :=
  (matchAll dateGlobalRe line).flatMap (fun rawMatch =>
    match normalizeDateFromMatch cy rawMatch with
    | none => []
    | some dateStr =>
      if dateStr.isEmpty then []
      else
        [{ title := finishTitle (replaceStr rawMatch [] line),
           type := typeOf line, date := dateStr, time := timeOf line,
           weight := weightOf line, notes := [] }])

/-- The body of the loop over the lines: the items one line contributes. -/
def lineItems (cy : Nat) (line : Str) : List Item :=
  match search rangeSimpleRe line with
  | some m => rangeItems cy line m
  | none => genericItems cy line

/-- The function `extractScheduleHeuristic(text)`; `cy` is `new Date().getFullYear()`. -/
def extractScheduleHeuristic (cy : Nat) (text : Str) : Extraction :=
  let lines := rawLines (normalizeText text)
  { course_name := extractCourseName lines, term := [],
    items := lines.flatMap (lineItems cy) }

/-! ## The orchestrator -/

/-- One entry of the `content` of an output item: its `type`, and its `text` when
that is a string. -/
structure ContentBlock where
  type : String
  text : Option Str

/-- One entry of `response.output`; `content` may be missing. -/
structure OutputItem where
  content : Option (List ContentBlock)

/-- The response of the collaborator, as far as the code reads it: the field
`output_parsed` (`none` when it is missing or falsy) and the field `output`. -/
structure Response (J : Type) where
  output_parsed : Option J
  output : Option (List OutputItem)

/-- What the call `openai.responses.create(...)` does: raise an error or return. -/
inductive CallOutcome (J : Type) where
  | raised
  | returned (response : Response J)

/-- The texts pushed to `textBlocks`: those of the `output_text` entries whose
`text` is a string, in order. -/
def textBlocks {J : Type} (response : Response J) : List Str :=
  (response.output.getD []).flatMap (fun item =>
    (item.content.getD []).flatMap (fun c =>
      match c.text with
      | some t => if c.type = "output_text" then [t] else []
      | none => []))

/-- The substring `joined.slice(jstart, jend + 1)` from the first `{` to the last
`}`, when both exist and the last `}` is after the first `{`. -/
def jsonSubstring (joined : Str) : Option Str :=
  match joined.findIdx? (fun c => c == '\x7b'),
        joined.reverse.findIdx? (fun c => c == '\x7d') with
  | some jstart, some k =>
    let jend := joined.length - 1 - k
    if jend > jstart then some ((joined.take (jend + 1)).drop jstart) else none
  | _, _ => none

/-- The function `extractScheduleWithAI(text)`.  `openai` is the collaborator
(`none` when no key is configured) as a function of the document text, around
which the request is built; `jsonParse` is `JSON.parse` (`none` when it throws).
The result is either what the heuristic extractor returns or a parsed value. -/
def extractScheduleWithAI {J : Type} (openai : Option (Str → CallOutcome J))
    (jsonParse : Str → Option J) (cy : Nat) (text : Str) : Extraction ⊕ J :=
  match openai with
  | none => .inl (extractScheduleHeuristic cy text)
  | some create =>
    match create text with
    | .raised => .inl (extractScheduleHeuristic cy text)
    | .returned response =>
      match response.output_parsed with
      | some parsed => .inr parsed
      | none =>
        let blocks := textBlocks response
        if blocks.isEmpty then .inl (extractScheduleHeuristic cy text)
        else
          let joined := List.intercalate ['\n'] blocks
          match jsonParse joined with
          | some parsed => .inr parsed
          | none =>
            match jsonSubstring joined with
            | none => .inl (extractScheduleHeuristic cy text)
            | some substr =>
              match jsonParse substr with
              | some parsed => .inr parsed
              | none => .inl (extractScheduleHeuristic cy text)

/-! ## Aggregation in the upload handler -/

/-- An item as the upload handler receives it from either extractor: any field
but the title and the type may be missing.  `W` is the type of the values a weight
can be: the heuristic extractor gives whole numbers, the collaborator any number
that the schema admits. -/
structure SourceItem (W : Type) where
  title : Str
  type : String
  date : Option Str
  time : Option Str
  weight : Option W
  notes : Option Str
  deriving DecidableEq

/-- A per-document extraction as the upload handler receives it. -/
structure CourseExtraction (W : Type) where
  course_name : Str
  items : List (SourceItem W)
  deriving DecidableEq

/-- An entry of `allEvents`, which is also what `toICS` is given; the weight is
`none` when it is `null` or `undefined`. -/
structure Event (W : Type) where
  course : Str
  title : Str
  type : String
  date : Option Str
  time : Str
  weight : Option W
  notes : Str
  deriving DecidableEq

/-- The expression `x || ""` for an optional string. -/
def orEmpty : Option Str → Str
  | some s => s
  | none => []

/-- The object pushed to `allEvents` for one item of one extraction. -/
def toEvent {W : Type} (course : Str) (item : SourceItem W) : Event W :=
  { course := course, title := item.title, type := item.type, date := item.date,
    time := orEmpty item.time, weight := item.weight, notes := orEmpty item.notes }

/-- The list `allEvents` before it is sorted: documents in order, and the items of
each document in order. -/
def flattenEvents {W : Type} (perCourse : List (CourseExtraction W)) : List (Event W) :=
  perCourse.flatMap (fun extracted => extracted.items.map (toEvent extracted.course_name))

/-- The comparator of the sort: `(a.date || '').localeCompare(b.date || '') <= 0`,
for a given `localeCompare`. -/
def dateBefore {W : Type} (localeCompare : Str → Str → Int) (a b : Event W) : Prop :=
  localeCompare (orEmpty a.date) (orEmpty b.date) ≤ 0

instance {W : Type} (localeCompare : Str → Str → Int) :
    DecidableRel (dateBefore localeCompare : Event W → Event W → Prop) :=
  fun a b => inferInstanceAs (Decidable (localeCompare (orEmpty a.date) (orEmpty b.date) ≤ 0))

/-- The value of `allEvents` in the response.  `Array.prototype.sort` is a stable
sort; on a comparator that is a total preorder every stable sort gives the same
result, here computed by insertion. -/
def uploadEvents {W : Type} (localeCompare : Str → Str → Int)
    (perCourse : List (CourseExtraction W)) : List (Event W) :=
  (flattenEvents perCourse).insertionSort (dateBefore localeCompare)

/-- Code-point lexicographic comparison, as a `localeCompare`: negative, zero or
positive. -/
def lexCompare (x y : Str) : Int :=
  if x < y then -1 else if x = y then 0 else 1

/-! ## The calendar serializer -/

/-- The lines of the block of the event `e` at index `i`; `now` is what `Date.now()`
returns while that block is built.  The weight is any JavaScript value: `truthy`
says whether the condition `e.weight ? ... : ...` holds of it, and `render` is the
text the template literal prints for it.  The course and the title are strings,
which the template prints as they are. -/
def eventLines {W : Type} (truthy : W → Bool) (render : W → Str) (now : Nat) (i : Nat)
    (e : Event W) : List Str :=
  let dt := replaceClass (fun c => c == '-') [] (orEmpty e.date)
  let uid := "event-".toList ++ toDecimal i ++ '-' :: toDecimal now ++ "@enti333.local".toList
  ["BEGIN:VEVENT".toList,
   "UID:".toList ++ uid,
   "DTSTAMP:".toList ++ dt ++ "T000000Z".toList,
   "DTSTART;VALUE=DATE:".toList ++ dt,
   "SUMMARY:".toList ++ e.course ++ " - ".toList ++ e.title,
   (match e.weight with
    | some w =>
      if truthy w then "DESCRIPTION:Weight ".toList ++ render w ++ ['%']
      else "DESCRIPTION:".toList
    | none => "DESCRIPTION:".toList),
   "END:VEVENT".toList]

/-- The blocks of all events, each joined by newlines: the array `body`. -/
def icsBody {W : Type} (truthy : W → Bool) (render : W → Str) (now : Nat → Nat) :
    Nat → List (Event W) → List Str
  | _, [] => []
  | i, e :: es =>
    List.intercalate ['\n'] (eventLines truthy render (now i) i e) ::
      icsBody truthy render now (i + 1) es

/-- The function `toICS(events)`; `now i` is what `Date.now()` returns while the block
of the event at index `i` is built, `truthy` and `render` are the truthiness and
the printed text of a weight. -/
def toICS {W : Type} (truthy : W → Bool) (render : W → Str) (now : Nat → Nat)
    (events : List (Event W)) : Str :=
  List.intercalate ['\n']
    (["BEGIN:VCALENDAR".toList, "VERSION:2.0".toList,
      "PRODID:-//ENTI333 Course Scheduler//EN".toList] ++
     icsBody truthy render now 0 events ++ ["END:VCALENDAR".toList])

/-! ## Notions used to state the properties -/

/-- The canonical shape of a date: four digits, a hyphen, two digits, a hyphen,
two digits. -/
def isCanonicalDate : Str → Bool
  | [y1, y2, y3, y4, h1, m1, m2, h2, d1, d2] =>
    isDigit y1 && isDigit y2 && isDigit y3 && isDigit y4 && h1 == '-' &&
      isDigit m1 && isDigit m2 && h2 == '-' && isDigit d1 && isDigit d2
  | _ => false

/-- The character map that `normalizeText` applies to each character: its four
replacements in sequence. -/
def normalizeChar (c : Char) : Char :=
  let c := if (c == Char.ofNat 0x2012 || c == Char.ofNat 0x2013 || c == Char.ofNat 0x2014 ||
      c == Char.ofNat 0x2015) then '-' else c
  let c := if (c == Char.ofNat 0x2018 || c == Char.ofNat 0x2019 || c == Char.ofNat 0x201A ||
      c == Char.ofNat 0x201B || c == Char.ofNat 0x2032 || c == Char.ofNat 0x2035)
    then Char.ofNat 39 else c
  let c := if (c == Char.ofNat 0x201C || c == Char.ofNat 0x201D || c == Char.ofNat 0x201E ||
      c == Char.ofNat 0x201F || c == Char.ofNat 0x2033 || c == Char.ofNat 0x2036)
    then Char.ofNat 34 else c
  if c == Char.ofNat 0x00A0 then ' ' else c

/-- The key the events are sorted by: the date, or the empty text when the date is
missing. -/
def dateKey {W : Type} (e : Event W) : Str := e.date.getD []

/-- The flattened items as the claim words them: the items of the documents, the
documents in order and the items of each in order, each tagged with the course
name of its document (a missing time or note is the empty text). -/
def taggedItems {W : Type} (perCourse : List (CourseExtraction W)) : List (Event W) :=
  (perCourse.map (fun x => x.items.map (fun it =>
    ({ course := x.course_name, title := it.title, type := it.type, date := it.date,
       time := it.time.getD [], weight := it.weight, notes := it.notes.getD [] } :
      Event W)))).flatten

/-- A date as the aggregation claim admits it: missing, empty or canonical. -/
def isAdmissibleDate (d : Option Str) : Bool :=
  match d with
  | none => true
  | some s => s.isEmpty || isCanonicalDate s

/-- The `output_text` segments of a response, as the claim words them: of all the
content entries of all the output items, in order, the texts of those whose type
is `output_text`. -/
def outputTexts {J : Type} (response : Response J) : List Str :=
  ((response.output.getD []).map (fun item => item.content.getD [])).flatten.filterMap
    (fun c => if c.type = "output_text" then c.text else none)

/-- The text the orchestrator tries to parse first: the `output_text` segments
joined by newlines. -/
def joinedText {J : Type} (response : Response J) : Str :=
  List.intercalate ['\n'] (outputTexts response)

/-- The text `sub` is the part of `joined` from its first opening brace to its last
closing brace, which comes after that opening brace. -/
def IsBraceSpan (joined sub : Str) : Prop :=
  ∃ a m d, joined = a ++ '\x7b' :: (m ++ '\x7d' :: d) ∧ '\x7b' ∉ a ∧ '\x7d' ∉ d ∧
    sub = '\x7b' :: (m ++ ['\x7d'])

/-- The description line as the claim words it: the weight, printed as `render`
prints it, whenever one is present. -/
def descriptionWhenPresent {W : Type} (render : W → Str) (e : Event W) : Str :=
  match e.weight with
  | some w => "DESCRIPTION:Weight ".toList ++ render w ++ ['%']
  | none => "DESCRIPTION:".toList

/-- The truthiness of a weight that is a whole number: every number but zero is
truthy. -/
def wholeTruthy (n : Nat) : Bool := n != 0

/-- The spec example `{course:"CS101", title:"HW1", date:"2026-03-22"}` with the
given weight, a whole number. -/
def sampleEvent (weight : Option Nat) : Event Nat :=
  { course := "CS101".toList, title := "HW1".toList, type := "assignment",
    date := some "2026-03-22".toList, time := [], weight := weight, notes := [] }

/-- A text of forty lines `x` followed by the line `last`. -/
def fortyOneLines (last : String) : Str :=
  (List.replicate 40 ['x', '\n']).flatten ++ last.toList


/-- The spec example of the aggregation: two documents, dated `2026-01-05` and
`2025-12-01`. -/
def sampleBatch : List (CourseExtraction Nat) :=
  [{ course_name := "CS101".toList,
     items := [{ title := "HW1".toList, type := "assignment", date := some "2026-01-05".toList,
                 time := none, weight := some 10, notes := none }] },
   { course_name := "MATH200".toList,
     items := [{ title := "Quiz".toList, type := "quiz", date := some "2025-12-01".toList,
                 time := some "14:00".toList, weight := none, notes := none }] }]

/-- A stand-in for `JSON.parse` that accepts two texts only, `7` and `\x7b"n":7\x7d`,
and reads both as the number seven. -/
def parseSeven (s : Str) : Option Nat :=
  if s = ['7'] ∨ s = "\x7b\"n\":7\x7d".toList then some 7 else none

/-- A collaborator that answers with one text block. -/
def answerWith (t : String) : Str → CallOutcome Nat :=
  fun _ => .returned
    { output_parsed := none,
      output := some [{ content := some [{ type := "output_text", text := some t.toList }] }] }

/-- A text of between `lo` and `hi` decimal digits. -/
def IsDigits (lo hi : Nat) (w : Str) : Prop :=
  (∀ c ∈ w, isDigit c = true) ∧ lo ≤ w.length ∧ w.length ≤ hi

/-- Shape one of the date token parser: a `YYYY-MM-DD` substring. -/
def HasIsoDate (raw : Str) : Prop :=
  ∃ pre w post, raw = pre ++ (w ++ post) ∧ isCanonicalDate w = true

/-- Shape two: a substring `M/D/Y` of one or two digits, a slash, one or two digits,
a slash and two to four digits. -/
def HasSlashDate (raw : Str) : Prop :=
  ∃ pre m d y post, raw = pre ++ (m ++ '/' :: (d ++ '/' :: (y ++ post))) ∧
    IsDigits 1 2 m ∧ IsDigits 1 2 d ∧ IsDigits 2 4 y

/-- A month name, in any letter case: a full name, or an abbreviation with or
without a period after it. -/
def IsMonthWord (w : Str) : Prop :=
  (∃ n ∈ fullMonths ++ abbrMonths, toLowerCase w = toLowerCase n.toList) ∨
  (∃ n ∈ abbrMonths, ∃ u, w = u ++ ['.'] ∧ toLowerCase u = toLowerCase n.toList)

/-- An optional ordinal suffix `st`, `nd`, `rd` or `th`, in any letter case. -/
def IsOrdinalOpt (w : Str) : Prop :=
  w = [] ∨ toLowerCase w ∈ ["st".toList, "nd".toList, "rd".toList, "th".toList]

/-- A non-empty run of white space. -/
def IsSpaces (w : Str) : Prop := w ≠ [] ∧ ∀ c ∈ w, isWs c = true

/-- An optional year: nothing, or white space and four digits. -/
def IsYearOpt (t : Str) : Prop :=
  t = [] ∨ ∃ sp y, t = sp ++ y ∧ IsSpaces sp ∧ IsDigits 4 4 y

/-- Shape three, `MonthName Day[, Year]`, written without a comma: a month name,
white space, a day of one or two digits with an optional ordinal suffix, and
optionally white space and a year of four digits. -/
def IsMonthDay (s : Str) : Prop :=
  ∃ mon sp day suf tail, s = mon ++ (sp ++ (day ++ (suf ++ tail))) ∧ IsMonthWord mon ∧
    IsSpaces sp ∧ IsDigits 1 2 day ∧ IsOrdinalOpt suf ∧ IsYearOpt tail

/-- Shape four, `Day MonthName[, Year]`, written without a comma: a day of one or
two digits with an optional ordinal suffix, white space, a month name, and
optionally white space and a year of four digits. -/
def IsDayMonth (s : Str) : Prop :=
  ∃ day suf sp mon tail, s = day ++ (suf ++ (sp ++ (mon ++ tail))) ∧ IsDigits 1 2 day ∧
    IsOrdinalOpt suf ∧ IsSpaces sp ∧ IsMonthWord mon ∧ IsYearOpt tail

/-- The text the two month-name patterns are applied to: the input trimmed, its
commas and periods removed, trimmed again. -/
def cleanDateText (raw : Str) : Str :=
  trim (replaceClass isCommaOrPeriod [] (trim raw))

/-- Does the keyword occur somewhere in the line, letter case ignored? -/
def occursIn (kw : String) (line : Str) : Prop :=
  toLowerCase kw.toList <:+: toLowerCase line

instance (kw : String) (line : Str) : Decidable (occursIn kw line) :=
  inferInstanceAs (Decidable (toLowerCase kw.toList <:+: toLowerCase line))

/-- The keywords of each type, in the fixed priority order. -/
def keywordTypes : List (List String × String) :=
  [(["final"], "final"), (["midterm"], "midterm"), (["quiz"], "quiz"), (["lab"], "lab"),
   (["project"], "project"), (["work", "shift", "schedule"], "work")]

/-- The type of a line as the specification words it: that of the first row of
`keywordTypes` one of whose keywords occurs in the line, else `assignment`. -/
def typeByKeyword (line : Str) : String :=
  match keywordTypes.find? (fun row => row.1.any (fun kw => decide (occursIn kw line))) with
  | some row => row.2
  | none => "assignment"

/-- The line of the spec example for the heuristic extractor. -/
def finalExamLine : Str := "Final Exam: December 10 2026 50%".toList

/-- The texts a title can be computed from on a line: the line with the date
removed, by the range branch when `rangeSimple` matches and by the generic branch
(once for each date match) when it does not. -/
def IsWithoutDate (line w : Str) : Prop :=
  (∃ m, search rangeSimpleRe line = some m ∧ w = rangeWithoutDate line m) ∨
  (search rangeSimpleRe line = none ∧
    ∃ rawMatch ∈ matchAll dateGlobalRe line, w = replaceStr rawMatch [] line)

/-- The line `Sept?7 Sept. 7` with the character `c` in the place of `?`: the
pattern rebuilt for the title from the month `Sept.` has a wildcard there. -/
def septLine (c : Char) : Str := "Sept".toList ++ c :: "7 Sept. 7".toList

/-- The item the line `HW1 - due: 3/4/26 10%` gives. -/
def hw1Item : Item :=
  { title := "HW1".toList, type := "assignment", date := "2026-03-04".toList,
    time := [], weight := some 10, notes := [] }

/-- Does every character class of the pattern reject `c`, and is the pattern free
of repetitions and assertions?  Such a pattern cannot tell a text that ends from
one that goes on with `c`. -/
def Re.rejects (c : Char) : Re → Bool
  | .cls p => !p c
  | .eps => true
  | .seq a b => a.rejects c && b.rejects c
  | .alt a b => a.rejects c && b.rejects c
  | .opt a => a.rejects c
  | .group _ a => a.rejects c
  | .many _ _ _ => false
  | .bol => false
  | .eol => false
  | .wordB => false

/-- A character that is neither white space nor a digit. -/
def isPlain (c : Char) : Bool := !isWs c && !isDigit c

/-- The month alternation, applied to a text that is exactly the month name `M`,
first proposes texts that stop inside `M` (each followed by a plain character),
then `M` itself. -/
def monthSplits (M : Str) : Bool :=
  ((monthRe.run none M).dropWhile (fun r => !r.2.1.isEmpty)).head? == some (M, [], []) &&
  ((monthRe.run none M).takeWhile (fun r => !r.2.1.isEmpty)).all (fun r =>
    match r.2.1.head? with
    | some c => isPlain c
    | none => false)

/-- The part of `rangeSimpleRe` after the month. -/
def rangeTailRe : Re :=
  Re.seqs [ws0, .group 2 (digitsRe 1 2), .opt ordinalRe,
    .opt (Re.seqs [ws0, .cls isRangeDash, ws0, .group 3 (digitsRe 1 2), .opt ordinalRe]),
    .opt (Re.seqs [.opt (.chr ','), ws0, .group 4 (digitsRe 4 4)])]

/-- The part of `m1Re` after the month. -/
def m1TailRe : Re :=
  Re.seqs [ws1, .group 2 (digitsRe 1 2), .opt ordinalRe,
    .opt (.seq ws1 (.group 3 (digitsRe 4 4))), .eol]

/-- The month names of the pattern with their numbers: the full names, the
abbreviations, and the abbreviations followed by a period. -/
def monthNames : List (String × Nat) :=
  [("January", 1), ("February", 2), ("March", 3), ("April", 4), ("May", 5), ("June", 6),
   ("July", 7), ("August", 8), ("September", 9), ("October", 10), ("November", 11),
   ("December", 12),
   ("Jan", 1), ("Feb", 2), ("Mar", 3), ("Apr", 4), ("Jun", 6), ("Jul", 7), ("Aug", 8),
   ("Sep", 9), ("Sept", 9), ("Oct", 10), ("Nov", 11), ("Dec", 12),
   ("Jan.", 1), ("Feb.", 2), ("Mar.", 3), ("Apr.", 4), ("May.", 5), ("Jun.", 6), ("Jul.", 7),
   ("Aug.", 8), ("Sep.", 9), ("Sept.", 9), ("Oct.", 10), ("Nov.", 11), ("Dec.", 12)]

/-- The month names of the pattern in lower case, with their numbers. -/
def monthLower : List (Str × Nat) :=
  monthNames.map (fun e => (toLowerCase e.1.toList, e.2))

/-- The text `M` is a month name of the pattern (a full name, an abbreviation, or an
abbreviation followed by a period) written in any letter case, and `n` is the
number of that month. -/
def IsMonthName (M : Str) (n : Nat) : Prop := (toLowerCase M, n) ∈ monthLower

instance (M : Str) (n : Nat) : Decidable (IsMonthName M n) :=
  inferInstanceAs (Decidable ((toLowerCase M, n) ∈ monthLower))

/-- What the proofs about a written month name `e.1` use: how the month alternation
splits it, before and after its period is removed; that it starts with a plain
character and has no hyphen or slash; and that the table `months` gives `e.2`. -/
def monthFacts (e : Str × Nat) : Bool :=
  monthSplits e.1 && monthSplits (replaceClass isCommaOrPeriod [] e.1) &&
  (match e.1.head? with
   | some c => isPlain c
   | none => false) &&
  (match (replaceClass isCommaOrPeriod [] e.1).head? with
   | some c => isPlain c
   | none => false) &&
  !e.1.contains '-' && !e.1.contains '/' &&
  (monthNumber (toLowerCase (replaceStr ['.'] [] (replaceClass isCommaOrPeriod [] e.1)))
    == some e.2) &&
  e.2 != 0 && decide (e.2 ≤ 12)

/-- A line of the form `MonthName d1-d2, YYYY`. -/
def rangeLine (month d1 d2 year : Str) : Str :=
  month ++ ' ' :: (d1 ++ '-' :: (d2 ++ ',' :: ' ' :: year))

/-- The later of two days written in digits, read as the larger of the two. -/
def laterDay (d1 d2 : Str) : Str := if parseNat d1 ≤ parseNat d2 then d2 else d1

/-- A match with its texts in lower case. -/
def lowerMatch (r : Str × Str × Caps) : Str × Str × Caps :=
  (toLowerCase r.1, toLowerCase r.2.1, r.2.2.map (fun c => (c.1, toLowerCase c.2)))

/-- Does the pattern treat a letter and its lower case alike?  Every pattern with
the flag `i` does. -/
def Re.caseBlind : Re → Prop
  | .cls p => ∀ c, p (lowerChar c) = p c
  | .many p _ _ => ∀ c, p (lowerChar c) = p c
  | .eps => True
  | .seq a b => a.caseBlind ∧ b.caseBlind
  | .alt a b => a.caseBlind ∧ b.caseBlind
  | .opt a => a.caseBlind
  | .group _ a => a.caseBlind
  | .bol => True
  | .eol => True
  | .wordB => True

/-- The ordinal suffixes a day can be written with, the empty one included. -/
def ordinalSuffixes : List Str := [[], "st".toList, "nd".toList, "rd".toList, "th".toList]

/-- A line of the form `D MonthName YYYY`, the day `D` with its ordinal suffix. -/
def dayFirstLine (day suf month year : Str) : Str :=
  day ++ (suf ++ ' ' :: (month ++ ' ' :: year))

/-- The part of `m2Re` after the month. -/
def m2TailRe : Re := Re.seq (.opt (.seq ws1 (.group 3 (digitsRe 4 4)))) .eol

end Schedulr

/-! # Theorems -/

namespace Schedulr

/-! ## Text normalisation -/

theorem replaceClass_single (p : Char → Bool) (r : Char) (s : Str) :
    replaceClass p [r] s = s.map (fun c => if p c then r else c) := by
  induction s with
  | nil => rfl
  | cons c cs ih =>
    simp only [replaceClass, List.flatMap_cons, List.map_cons] at ih ⊢
    rw [ih]
    by_cases h : p c = true <;> simp [h]

theorem normalizeText_eq_map (t : Str) : normalizeText t = t.map normalizeChar := by
  simp only [normalizeText, replaceClass_single, List.map_map]
  rfl

theorem normalizeChar_cases (c : Char) :
    normalizeChar c = c ∨ normalizeChar c = '-' ∨ normalizeChar c = Char.ofNat 39 ∨
      normalizeChar c = Char.ofNat 34 ∨ normalizeChar c = ' ' := by
  unfold normalizeChar
  simp only
  split_ifs <;> simp_all

theorem normalizeChar_idem (c : Char) : normalizeChar (normalizeChar c) = normalizeChar c := by
  have fix : ∀ k : Char, normalizeChar k = k → normalizeChar c = k →
      normalizeChar (normalizeChar c) = normalizeChar c :=
    fun k hk h => ((congrArg normalizeChar h).trans hk).trans h.symm
  rcases normalizeChar_cases c with h | h | h | h | h
  · exact congrArg normalizeChar h
  · exact fix _ (by decide) h
  · exact fix _ (by decide) h
  · exact fix _ (by decide) h
  · exact fix _ (by decide) h

/-! ## The orchestrator -/

theorem jsonSubstring_nil : jsonSubstring [] = none := rfl

/-- The text blocks the code collects are the `output_text` segments. -/
theorem textBlocks_eq_outputTexts {J : Type} (response : Response J) :
    textBlocks response = outputTexts response := by
  have inner : ∀ l : List ContentBlock,
      l.flatMap (fun c =>
        match c.text with
        | some t => if c.type = "output_text" then [t] else []
        | none => []) =
      l.filterMap (fun c => if c.type = "output_text" then c.text else none) := by
    intro l
    induction l with
    | nil => rfl
    | cons c cs ih =>
      rw [List.flatMap_cons, ih]
      cases ht : c.text with
      | none => by_cases hc : c.type = "output_text" <;> simp [List.filterMap_cons, ht, hc]
      | some t => by_cases hc : c.type = "output_text" <;> simp [List.filterMap_cons, ht, hc]
  unfold textBlocks outputTexts
  generalize response.output.getD [] = items
  induction items with
  | nil => rfl
  | cons x xs ih =>
    rw [List.flatMap_cons, ih, inner, List.map_cons, List.flatten_cons, List.filterMap_append]

theorem findIdx?_of_split {p : Char → Bool} (a : Str) (x : Char) (b : Str)
    (ha : ∀ y ∈ a, p y = false) (hx : p x = true) :
    (a ++ x :: b).findIdx? p = some a.length := by
  induction a with
  | nil => simp [List.findIdx?_cons, hx]
  | cons y ys ih =>
    have hy := ha y (List.mem_cons_self _ _)
    have := ih (fun z hz => ha z (List.mem_cons_of_mem _ hz))
    simp [List.findIdx?_cons, hy, List.findIdx?_succ, this]

theorem split_of_findIdx? {p : Char → Bool} : ∀ (l : Str) (i : Nat), l.findIdx? p = some i →
    ∃ a x b, l = a ++ x :: b ∧ a.length = i ∧ p x = true ∧ ∀ y ∈ a, p y = false := by
  intro l
  induction l with
  | nil => intro i h; simp at h
  | cons y ys ih =>
    intro i h
    by_cases hy : p y = true
    · simp only [List.findIdx?_cons, hy, if_true, Option.some.injEq] at h
      exact ⟨[], y, ys, rfl, by simpa using h, hy, by simp⟩
    · rw [List.findIdx?_cons, if_neg hy, List.findIdx?_succ] at h
      obtain ⟨j, hj, rfl⟩ := Option.map_eq_some'.mp h
      obtain ⟨a, x, b, rfl, hlen, hx, ha⟩ := ih j hj
      refine ⟨y :: a, x, b, rfl, by simp [hlen], hx, ?_⟩
      intro z hz
      rcases List.mem_cons.mp hz with rfl | hz
      · simpa using hy
      · exact ha z hz

theorem not_isBraceSpan {joined sub : Str} (h : '\x7b' ∉ joined) :
    ¬ IsBraceSpan joined sub := by
  rintro ⟨a, m, d, rfl, _⟩
  exact h (by simp)

/-- The substring the code computes is the text from the first opening brace to the
last closing brace. -/
theorem jsonSubstring_eq_some_iff (joined sub : Str) :
    jsonSubstring joined = some sub ↔ IsBraceSpan joined sub := by
  constructor
  · intro h
    unfold jsonSubstring at h
    cases h1 : joined.findIdx? (fun c => c == '\x7b') with
    | none => simp [h1] at h
    | some jstart =>
      cases h2 : joined.reverse.findIdx? (fun c => c == '\x7d') with
      | none => simp [h1, h2] at h
      | some k =>
        simp only [h1, h2] at h
        obtain ⟨a, x, b, e1, hlen1, hx, ha⟩ := split_of_findIdx? _ _ h1
        obtain ⟨r, z, t, e2, hlen2, hz, hr⟩ := split_of_findIdx? _ _ h2
        have hx' : x = '\x7b' := by simpa using hx
        have hz' : z = '\x7d' := by simpa using hz
        subst hx' hz'
        have e3 : joined = t.reverse ++ '\x7d' :: r.reverse := by
          have := congrArg List.reverse e2
          simpa using this
        have hlenj : joined.length = t.length + 1 + r.length := by
          rw [e3]
          simp
          omega
        have hend : joined.length - 1 - k = t.length := by omega
        rw [hend] at h
        split at h
        · rename_i hgt
          simp only [Option.some.injEq] at h
          have e4 : a ++ '\x7b' :: b = t.reverse ++ '\x7d' :: r.reverse := e1.symm.trans e3
          have hlt : a.length < t.reverse.length := by
            rw [List.length_reverse, hlen1]
            exact hgt
          obtain ⟨m, hm⟩ : ∃ m, t.reverse = a ++ '\x7b' :: m := by
            rcases List.append_eq_append_iff.mp e4 with ⟨c, hc1, hc2⟩ | ⟨c, hc1, hc2⟩
            · cases c with
              | nil =>
                rw [List.append_nil] at hc1
                rw [hc1] at hlt
                exact absurd hlt (lt_irrefl _)
              | cons c0 cs =>
                simp only [List.cons_append, List.cons.injEq] at hc2
                exact ⟨cs, by rw [hc1, hc2.1]⟩
            · rw [hc1] at hlt
              simp at hlt
          refine ⟨a, m, r.reverse, ?_, ?_, ?_, ?_⟩
          · rw [e3, hm]
            simp
          · intro hmem
            have := ha _ hmem
            simp at this
          · intro hmem
            have := hr _ (List.mem_reverse.mp hmem)
            simp at this
          · rw [← h, e3, hm]
            have hl : (a ++ '\x7b' :: m).length = t.length := by
              rw [← hm, List.length_reverse]
            have e5 : (a ++ '\x7b' :: m ++ '\x7d' :: r.reverse).take (t.length + 1) =
                a ++ '\x7b' :: m ++ ['\x7d'] := by
              have : a ++ '\x7b' :: m ++ '\x7d' :: r.reverse =
                  (a ++ '\x7b' :: m ++ ['\x7d']) ++ r.reverse := by simp
              rw [this, List.take_left']
              simp only [List.length_append, List.length_cons, List.length_nil] at hl ⊢
              omega
            rw [e5, ← hlen1]
            simp
        · cases h
  · rintro ⟨a, m, d, rfl, ha, hd, rfl⟩
    have h1 : (a ++ '\x7b' :: (m ++ '\x7d' :: d)).findIdx? (fun c => c == '\x7b') =
        some a.length :=
      findIdx?_of_split a _ _ (fun y hy => by
        simp only [beq_eq_false_iff_ne, ne_eq]
        rintro rfl
        exact ha hy) (by simp)
    have h2 : (a ++ '\x7b' :: (m ++ '\x7d' :: d)).reverse.findIdx? (fun c => c == '\x7d') =
        some d.reverse.length := by
      have e : (a ++ '\x7b' :: (m ++ '\x7d' :: d)).reverse =
          d.reverse ++ '\x7d' :: (m.reverse ++ '\x7b' :: a.reverse) := by simp
      rw [e]
      exact findIdx?_of_split _ _ _ (fun y hy => by
        simp only [beq_eq_false_iff_ne, ne_eq]
        rintro rfl
        exact hd (List.mem_reverse.mp hy)) (by simp)
    unfold jsonSubstring
    simp only [h1, h2]
    have hend : (a ++ '\x7b' :: (m ++ '\x7d' :: d)).length - 1 - d.reverse.length =
        a.length + 1 + m.length := by
      simp
      omega
    rw [hend, if_pos (by omega)]
    have e5 : (a ++ '\x7b' :: (m ++ '\x7d' :: d)).take (a.length + 1 + m.length + 1) =
        a ++ '\x7b' :: m ++ ['\x7d'] := by
      have : a ++ '\x7b' :: (m ++ '\x7d' :: d) = (a ++ '\x7b' :: m ++ ['\x7d']) ++ d := by simp
      rw [this, List.take_left']
      simp
      omega
    rw [e5]
    simp

/-! ## Aggregation -/

theorem orEmpty_eq_getD (o : Option Str) : orEmpty o = o.getD [] := by
  cases o <;> rfl

/-- The list the code flattens to is the list of tagged items. -/
theorem flattenEvents_eq_taggedItems {W : Type} (perCourse : List (CourseExtraction W)) :
    flattenEvents perCourse = taggedItems perCourse := by
  unfold flattenEvents taggedItems
  rw [List.flatMap_def]
  congr 1
  refine List.map_congr_left ?_
  intro x _
  refine List.map_congr_left ?_
  intro it _
  simp only [toEvent, orEmpty_eq_getD]

theorem dateBefore_iff {W : Type} (localeCompare : Str → Str → Int) (a b : Event W) :
    dateBefore localeCompare a b ↔ localeCompare (dateKey a) (dateKey b) ≤ 0 := by
  simp only [dateBefore, dateKey, orEmpty_eq_getD]

theorem dateKey_admissible {W : Type} (perCourse : List (CourseExtraction W))
    (hdates : ∀ ex ∈ perCourse, ∀ it ∈ ex.items, isAdmissibleDate it.date = true) :
    ∀ e ∈ taggedItems perCourse,
      ((dateKey e).isEmpty || isCanonicalDate (dateKey e)) = true := by
  intro e he
  simp only [taggedItems, List.mem_flatten, List.mem_map] at he
  obtain ⟨l, ⟨ex, hex, rfl⟩, he⟩ := he
  obtain ⟨it, hit, rfl⟩ := List.mem_map.mp he
  have h := hdates ex hex it hit
  simp only [dateKey]
  cases hd : it.date with
  | none => rfl
  | some s =>
    rw [hd] at h
    exact h

theorem lexCompare_le (x y : Str) : lexCompare x y ≤ 0 ↔ x ≤ y := by
  unfold lexCompare
  split_ifs with h1 h2
  · exact ⟨fun _ => le_of_lt h1, fun _ => by decide⟩
  · exact ⟨fun _ => le_of_eq h2, fun _ => le_refl _⟩
  · refine ⟨fun h => absurd h (by decide), fun h => ?_⟩
    exact absurd (lt_of_le_of_ne h h2) h1

/-! ## The calendar serializer -/

theorem icsBody_getElem? {W : Type} (truthy : W → Bool) (render : W → Str) (now : Nat → Nat)
    (events : List (Event W)) :
    ∀ (k i : Nat) (e : Event W), events[i]? = some e →
      (icsBody truthy render now k events)[i]? =
        some (List.intercalate ['\n'] (eventLines truthy render (now (k + i)) (k + i) e)) := by
  induction events with
  | nil => intro k i e h; simp at h
  | cons x xs ih =>
    intro k i e h
    cases i with
    | zero =>
      simp only [List.getElem?_cons_zero, Option.some.injEq] at h
      subst h
      simp [icsBody]
    | succ j =>
      simp only [List.getElem?_cons_succ] at h
      simp only [icsBody, List.getElem?_cons_succ]
      rw [ih (k + 1) j e h]
      have hk : k + 1 + j = k + (j + 1) := by omega
      rw [hk]

theorem icsBody_length {W : Type} (truthy : W → Bool) (render : W → Str) (now : Nat → Nat)
    (events : List (Event W)) :
    ∀ k : Nat, (icsBody truthy render now k events).length = events.length := by
  induction events with
  | nil => intro k; rfl
  | cons x xs ih =>
    intro k
    simp only [icsBody, List.length_cons, ih (k + 1)]

/-! ## The matcher: what a match is made of -/

theorem mem_manyRun (p : Char → Bool) :
    ∀ (hi lo : Nat) (s w rest : Str), (w, rest) ∈ manyRun p lo hi s →
      s = w ++ rest ∧ (∀ c ∈ w, p c = true) ∧ lo ≤ w.length ∧ w.length ≤ hi := by
  intro hi
  induction hi with
  | zero =>
    intro lo s w rest h
    simp only [manyRun] at h
    split at h
    · simp only [List.mem_singleton, Prod.mk.injEq] at h
      obtain ⟨rfl, rfl⟩ := h
      simp_all
    · simp at h
  | succ hi ih =>
    intro lo s w rest h
    cases s with
    | nil =>
      simp only [manyRun] at h
      split at h
      · simp only [List.mem_singleton, Prod.mk.injEq] at h
        obtain ⟨rfl, rfl⟩ := h
        simp_all
      · simp at h
    | cons c cs =>
      simp only [manyRun, List.mem_append] at h
      rcases h with h | h
      · split at h
        · rename_i hp
          simp only [List.mem_map, Prod.mk.injEq] at h
          obtain ⟨⟨w', rest'⟩, hmem, rfl, rfl⟩ := h
          obtain ⟨h1, h2, h3, h4⟩ := ih (lo - 1) cs w' rest' hmem
          refine ⟨by simp [h1], ?_, ?_, ?_⟩
          · intro x hx
            simp only [List.mem_cons] at hx
            rcases hx with rfl | hx
            · exact hp
            · exact h2 x hx
          · simp only [List.length_cons]; omega
          · simp only [List.length_cons]; omega
        · simp at h
      · split at h
        · simp only [List.mem_singleton, Prod.mk.injEq] at h
          obtain ⟨rfl, rfl⟩ := h
          simp_all
        · simp at h

theorem run_append : ∀ (re : Re) (prev : Option Char) (s : Str) (r : Str × Str × Caps),
    r ∈ re.run prev s → s = r.1 ++ r.2.1 := by
  intro re
  induction re with
  | cls p =>
    intro prev s r h
    cases s with
    | nil => simp [Re.run] at h
    | cons c cs =>
      simp only [Re.run] at h
      split at h
      · simp only [List.mem_singleton] at h
        subst h
        rfl
      · simp at h
  | many p lo hi =>
    intro prev s r h
    simp only [Re.run, List.mem_map] at h
    obtain ⟨⟨w, rest⟩, hmem, rfl⟩ := h
    exact (mem_manyRun p _ _ _ _ _ hmem).1
  | eps =>
    intro prev s r h
    simp only [Re.run, List.mem_singleton] at h
    subst h
    rfl
  | seq a b iha ihb =>
    intro prev s r h
    simp only [Re.run, List.mem_flatMap, List.mem_map] at h
    obtain ⟨r1, h1, r2, h2, rfl⟩ := h
    have e1 := iha prev s r1 h1
    have e2 := ihb _ _ r2 h2
    simp only [List.append_assoc]
    rw [← e2, ← e1]
  | alt a b iha ihb =>
    intro prev s r h
    simp only [Re.run, List.mem_append] at h
    rcases h with h | h
    · exact iha prev s r h
    · exact ihb prev s r h
  | opt a iha =>
    intro prev s r h
    simp only [Re.run, List.mem_append, List.mem_filter, List.mem_singleton] at h
    rcases h with h | h
    · exact iha prev s r h.1
    · subst h
      rfl
  | group n a iha =>
    intro prev s r h
    simp only [Re.run, List.mem_map] at h
    obtain ⟨r1, h1, rfl⟩ := h
    exact iha prev s r1 h1
  | bol =>
    intro prev s r h
    simp only [Re.run] at h
    split at h
    · simp only [List.mem_singleton] at h
      subst h
      rfl
    · simp at h
  | eol =>
    intro prev s r h
    simp only [Re.run] at h
    split at h
    · simp only [List.mem_singleton] at h
      subst h
      rfl
    · simp at h
  | wordB =>
    intro prev s r h
    simp only [Re.run] at h
    split at h
    · simp only [List.mem_singleton] at h
      subst h
      rfl
    · simp at h

theorem lastChar_append (prev : Option Char) (a b : Str) :
    lastChar prev (a ++ b) = lastChar (lastChar prev a) b := by
  unfold lastChar
  cases b using List.reverseRecOn with
  | nil => simp
  | append_singleton l x => simp [← List.append_assoc]

theorem lastChar_cons (prev : Option Char) (c : Char) (a : Str) :
    lastChar prev (c :: a) = lastChar (some c) a := by
  have := lastChar_append prev [c] a
  simpa [lastChar] using this

theorem lastChar_nil (prev : Option Char) : lastChar prev [] = prev := rfl

/-- A successful search splits the text and reports a match of the pattern at the
position it found. -/
theorem searchFrom_some (re : Re) : ∀ (s : Str) (prev : Option Char) (m : Match),
    searchFrom re prev s = some m →
      s = m.pre ++ (m.matched ++ m.post) ∧
      (m.matched, m.post, m.caps) ∈ re.run (lastChar prev m.pre) (m.matched ++ m.post) := by
  intro s
  induction s with
  | nil =>
    intro prev m h
    simp only [searchFrom] at h
    split at h
    · rename_i r hr
      simp only [Option.some.injEq] at h
      subst h
      have hmem := List.mem_of_mem_head? hr
      have := run_append re prev [] r hmem
      simp only [List.nil_append, lastChar_nil]
      exact ⟨this, by rw [← this]; exact hmem⟩
    · cases h
  | cons c cs ih =>
    intro prev m h
    simp only [searchFrom] at h
    split at h
    · rename_i r hr
      simp only [Option.some.injEq] at h
      subst h
      have hmem := List.mem_of_mem_head? hr
      have := run_append re prev (c :: cs) r hmem
      simp only [List.nil_append, lastChar_nil]
      exact ⟨this, by rw [← this]; exact hmem⟩
    · simp only [Option.map_eq_some'] at h
      obtain ⟨m', hm', rfl⟩ := h
      obtain ⟨h1, h2⟩ := ih (some c) m' hm'
      simp only [List.cons_append, lastChar_cons]
      exact ⟨by rw [← h1], h2⟩

/-- A search fails only if the pattern matches at no position. -/
theorem searchFrom_none (re : Re) : ∀ (a b : Str) (prev : Option Char),
    searchFrom re prev (a ++ b) = none → re.run (lastChar prev a) b = [] := by
  intro a
  induction a with
  | nil =>
    intro b prev h
    simp only [List.nil_append, lastChar_nil] at h ⊢
    cases b with
    | nil =>
      simp only [searchFrom] at h
      split at h
      · cases h
      · rename_i hr
        exact List.head?_eq_none_iff.mp hr
    | cons c cs =>
      simp only [searchFrom] at h
      split at h
      · cases h
      · rename_i hr
        exact List.head?_eq_none_iff.mp hr
  | cons c cs ih =>
    intro b prev h
    simp only [List.cons_append, searchFrom] at h
    split at h
    · cases h
    · simp only [Option.map_eq_none'] at h
      rw [lastChar_cons]
      exact ih b (some c) h

/-- A match at the very start of the text is the one the search reports. -/
theorem searchFrom_head (re : Re) (prev : Option Char) (s : Str) (r : Str × Str × Caps)
    (h : (re.run prev s).head? = some r) :
    searchFrom re prev s = some ⟨[], r.1, r.2.1, r.2.2⟩ := by
  cases s with
  | nil => simp only [searchFrom, h]
  | cons c cs => simp only [searchFrom, h]

/-- When the pattern does not match at the first position, the search moves on. -/
theorem searchFrom_skip (re : Re) (prev : Option Char) (c : Char) (cs : Str)
    (h : re.run prev (c :: cs) = []) :
    searchFrom re prev (c :: cs) =
      (searchFrom re (some c) cs).map (fun m => { m with pre := c :: m.pre }) := by
  simp only [searchFrom, h, List.head?_nil]

theorem mem_run_seq {a b : Re} {prev : Option Char} {s : Str} {r : Str × Str × Caps} :
    r ∈ (Re.seq a b).run prev s ↔
      ∃ r1 ∈ a.run prev s, ∃ r2 ∈ b.run (lastChar prev r1.1) r1.2.1,
        r = (r1.1 ++ r2.1, r2.2.1, r1.2.2 ++ r2.2.2) := by
  simp only [Re.run, List.mem_flatMap, List.mem_map]
  constructor
  · rintro ⟨r1, h1, r2, h2, rfl⟩
    exact ⟨r1, h1, r2, h2, rfl⟩
  · rintro ⟨r1, h1, r2, h2, rfl⟩
    exact ⟨r1, h1, r2, h2, rfl⟩

theorem mem_run_group {n : Nat} {a : Re} {prev : Option Char} {s : Str}
    {r : Str × Str × Caps} :
    r ∈ (Re.group n a).run prev s ↔
      ∃ r1 ∈ a.run prev s, r = (r1.1, r1.2.1, (n, r1.1) :: r1.2.2) := by
  simp only [Re.run, List.mem_map]
  constructor
  · rintro ⟨r1, h1, rfl⟩
    exact ⟨r1, h1, rfl⟩
  · rintro ⟨r1, h1, rfl⟩
    exact ⟨r1, h1, rfl⟩

theorem mem_run_many {p : Char → Bool} {lo : Nat} {hi : Option Nat} {prev : Option Char}
    {s : Str} {r : Str × Str × Caps} (h : r ∈ (Re.many p lo hi).run prev s) :
    r.2.2 = [] ∧ (∀ c ∈ r.1, p c = true) ∧ lo ≤ r.1.length ∧
      (∀ n, hi = some n → r.1.length ≤ n) := by
  simp only [Re.run, List.mem_map] at h
  obtain ⟨⟨w, rest⟩, hmem, rfl⟩ := h
  obtain ⟨_, h2, h3, h4⟩ := mem_manyRun p _ _ _ _ _ hmem
  refine ⟨rfl, h2, h3, ?_⟩
  intro n hn
  subst hn
  exact h4

theorem mem_run_digitsRe {lo hi : Nat} {prev : Option Char} {s : Str}
    {r : Str × Str × Caps} (h : r ∈ (digitsRe lo hi).run prev s) :
    r.2.2 = [] ∧ IsDigits lo hi r.1 := by
  obtain ⟨h1, h2, h3, h4⟩ := mem_run_many h
  exact ⟨h1, h2, h3, h4 hi rfl⟩

theorem mem_run_cls {p : Char → Bool} {prev : Option Char} {s : Str}
    {r : Str × Str × Caps} (h : r ∈ (Re.cls p).run prev s) :
    ∃ c, p c = true ∧ r.1 = [c] ∧ r.2.2 = [] := by
  cases s with
  | nil => simp [Re.run] at h
  | cons c cs =>
    simp only [Re.run] at h
    split at h
    · rename_i hp
      simp only [List.mem_singleton] at h
      subst h
      exact ⟨c, hp, rfl, rfl⟩
    · simp at h

theorem mem_run_chr {c : Char} {prev : Option Char} {s : Str} {r : Str × Str × Caps}
    (h : r ∈ (Re.chr c).run prev s) : r.1 = [c] ∧ r.2.2 = [] := by
  obtain ⟨x, hx, h1, h2⟩ := mem_run_cls h
  have : x = c := by simpa using hx
  subst this
  exact ⟨h1, h2⟩

theorem mem_run_opt {a : Re} {prev : Option Char} {s : Str} {r : Str × Str × Caps}
    (h : r ∈ (Re.opt a).run prev s) : r ∈ a.run prev s ∨ r = ([], s, []) := by
  simp only [Re.run, List.mem_append, List.mem_filter, List.mem_singleton] at h
  rcases h with h | h
  · exact Or.inl h.1
  · exact Or.inr h

theorem mem_run_alt {a b : Re} {prev : Option Char} {s : Str} {r : Str × Str × Caps} :
    r ∈ (Re.alt a b).run prev s ↔ r ∈ a.run prev s ∨ r ∈ b.run prev s := by
  simp only [Re.run, List.mem_append]

theorem mem_run_bol {prev : Option Char} {s : Str} {r : Str × Str × Caps}
    (h : r ∈ Re.bol.run prev s) : prev = none ∧ r = ([], s, []) := by
  simp only [Re.run] at h
  split at h
  · rename_i hp
    simp only [List.mem_singleton] at h
    exact ⟨by simpa using hp, h⟩
  · simp at h

theorem mem_run_eol {prev : Option Char} {s : Str} {r : Str × Str × Caps}
    (h : r ∈ Re.eol.run prev s) : s = [] ∧ r = ([], [], []) := by
  simp only [Re.run] at h
  split at h
  · rename_i hp
    simp only [List.mem_singleton] at h
    have hs : s = [] := by simpa using hp
    subst hs
    exact ⟨rfl, h⟩
  · simp at h

theorem mem_run_alts : ∀ (l : List Re) {prev : Option Char} {s : Str}
    {r : Str × Str × Caps}, r ∈ (Re.alts l).run prev s → ∃ a ∈ l, r ∈ a.run prev s := by
  intro l
  induction l with
  | nil =>
    intro prev s r h
    obtain ⟨c, hc, _⟩ := mem_run_cls h
    cases hc
  | cons a as ih =>
    intro prev s r h
    cases as with
    | nil => exact ⟨a, List.mem_singleton_self a, h⟩
    | cons b bs =>
      simp only [Re.alts] at h
      rcases mem_run_alt.mp h with h | h
      · exact ⟨a, List.mem_cons_self _ _, h⟩
      · obtain ⟨x, hx, hr⟩ := ih h
        exact ⟨x, List.mem_cons_of_mem _ hx, hr⟩

theorem mem_run_chrI {c : Char} {prev : Option Char} {s : Str} {r : Str × Str × Caps}
    (h : r ∈ (Re.chrI c).run prev s) : toLowerCase r.1 = [lowerChar c] ∧ r.2.2 = [] := by
  obtain ⟨x, hx, h1, h2⟩ := mem_run_cls h
  have : lowerChar x = lowerChar c := by simpa using hx
  rw [h1]
  exact ⟨by simp [toLowerCase, this], h2⟩

theorem mem_run_litI : ∀ (w : Str) {prev : Option Char} {s : Str} {r : Str × Str × Caps},
    r ∈ (Re.litI w).run prev s → toLowerCase r.1 = toLowerCase w ∧ r.2.2 = [] := by
  intro w
  induction w with
  | nil =>
    intro prev s r h
    simp only [Re.litI, Re.run, List.mem_singleton] at h
    subst h
    exact ⟨rfl, rfl⟩
  | cons c cs ih =>
    intro prev s r h
    cases cs with
    | nil => exact mem_run_chrI h
    | cons d ds =>
      simp only [Re.litI] at h
      obtain ⟨r1, h1, r2, h2, rfl⟩ := mem_run_seq.mp h
      obtain ⟨e1, c1⟩ := mem_run_chrI h1
      obtain ⟨e2, c2⟩ := ih h2
      simp only [toLowerCase, List.map_append, List.map_cons] at e1 e2 ⊢
      rw [e1, e2, c1, c2]
      exact ⟨rfl, rfl⟩

/-! ## Digits, padding and numbers -/

theorem isDigit_zero : isDigit '0' = true := by decide

theorem IsDigits.mono {lo hi lo' hi' : Nat} {w : Str} (h : IsDigits lo hi w)
    (h1 : lo' ≤ lo) (h2 : hi ≤ hi') : IsDigits lo' hi' w :=
  ⟨h.1, le_trans h1 h.2.1, le_trans h.2.2 h2⟩

theorem padStart_isDigits {lo : Nat} (n : Nat) {w : Str} (h : IsDigits lo n w) :
    IsDigits n n (padStart n '0' w) := by
  obtain ⟨h1, _, h3⟩ := h
  refine ⟨?_, ?_, ?_⟩
  · intro c hc
    simp only [padStart, List.mem_append, List.mem_replicate] at hc
    rcases hc with ⟨_, rfl⟩ | hc
    · exact isDigit_zero
    · exact h1 c hc
  · simp only [padStart, List.length_append, List.length_replicate]; omega
  · simp only [padStart, List.length_append, List.length_replicate]; omega

theorem isCanonicalDate_of_parts {y m d : Str} (hy : IsDigits 4 4 y) (hm : IsDigits 2 2 m)
    (hd : IsDigits 2 2 d) : isCanonicalDate (y ++ '-' :: (m ++ '-' :: d)) = true := by
  obtain ⟨hy1, hy2, hy3⟩ := hy
  obtain ⟨hm1, hm2, hm3⟩ := hm
  obtain ⟨hd1, hd2, hd3⟩ := hd
  rcases y with _ | ⟨y1, _ | ⟨y2, _ | ⟨y3, _ | ⟨y4, _ | ⟨y5, yt⟩⟩⟩⟩⟩ <;>
    simp only [List.length_cons, List.length_nil] at hy2 hy3 <;> try omega
  rcases m with _ | ⟨m1, _ | ⟨m2, _ | ⟨m3, mt⟩⟩⟩ <;>
    simp only [List.length_cons, List.length_nil] at hm2 hm3 <;> try omega
  rcases d with _ | ⟨d1, _ | ⟨d2, _ | ⟨d3, dt⟩⟩⟩ <;>
    simp only [List.length_cons, List.length_nil] at hd2 hd3 <;> try omega
  simp only [List.mem_cons, List.mem_singleton, List.not_mem_nil, or_false, forall_eq_or_imp,
    forall_eq] at hy1 hm1 hd1
  simp [isCanonicalDate, hy1, hm1, hd1]

theorem isCanonicalDate_parts {w : Str} (h : isCanonicalDate w = true) :
    ∃ y m d, w = y ++ '-' :: (m ++ '-' :: d) ∧ IsDigits 4 4 y ∧ IsDigits 2 2 m ∧
      IsDigits 2 2 d := by
  unfold isCanonicalDate at h
  split at h
  · rename_i y1 y2 y3 y4 h1 m1 m2 h2 d1 d2
    simp only [Bool.and_eq_true, beq_iff_eq] at h
    obtain ⟨⟨⟨⟨⟨⟨⟨⟨⟨a1, a2⟩, a3⟩, a4⟩, rfl⟩, b1⟩, b2⟩, rfl⟩, c1⟩, c2⟩ := h
    refine ⟨[y1, y2, y3, y4], [m1, m2], [d1, d2], rfl, ?_, ?_, ?_⟩
    · exact ⟨by simp [a1, a2, a3, a4], by simp, by simp⟩
    · exact ⟨by simp [b1, b2], by simp, by simp⟩
    · exact ⟨by simp [c1, c2], by simp, by simp⟩
  · cases h

theorem toDecimal_of_lt_ten {n : Nat} (h : n < 10) : toDecimal n = [digitChar n] := by
  simp [toDecimal, toDecimalAux, h]

theorem isDigit_digitChar {d : Nat} (h : d < 10) : isDigit (digitChar d) = true := by
  interval_cases d <;> decide

theorem toDecimal_month {n : Nat} (h : n ≤ 12) : IsDigits 1 2 (toDecimal n) := by
  interval_cases n <;> exact ⟨by decide, by decide, by decide⟩

theorem toDecimal_four_digits {n : Nat} (h1 : 1000 ≤ n) (h2 : n ≤ 9999) :
    toDecimal n = [digitChar (n / 1000), digitChar (n / 100 % 10), digitChar (n / 10 % 10),
      digitChar (n % 10)] := by
  obtain ⟨k, rfl⟩ : ∃ k, n = k + 3 := ⟨n - 3, by omega⟩
  have e1 : ¬ (k + 3 < 10) := by omega
  have e2 : ¬ ((k + 3) / 10 < 10) := by omega
  have e3 : ¬ ((k + 3) / 10 / 10 < 10) := by omega
  have e4 : (k + 3) / 10 / 10 / 10 < 10 := by omega
  have d1 : (k + 3) / 10 / 10 / 10 = (k + 3) / 1000 := by omega
  have d2 : (k + 3) / 10 / 10 % 10 = (k + 3) / 100 % 10 := by omega
  have e5 : (k + 3) / 1000 < 10 := by omega
  simp only [toDecimal, toDecimalAux, e1, e2, e3, e5, if_false, if_true, d1, d2]

theorem toDecimal_year {cy : Nat} (h1 : 1000 ≤ cy) (h2 : cy ≤ 9999) :
    IsDigits 4 4 (toDecimal cy) := by
  rw [toDecimal_four_digits h1 h2]
  refine ⟨?_, by simp, by simp⟩
  intro c hc
  simp only [List.mem_cons, List.mem_singleton, List.not_mem_nil, or_false] at hc
  rcases hc with rfl | rfl | rfl | rfl <;> apply isDigit_digitChar <;> omega

theorem monthNumber_le {mon : Str} {n : Nat} (h : monthNumber mon = some n) : n ≤ 12 := by
  simp only [monthNumber, Option.map_eq_some'] at h
  obtain ⟨e, he, rfl⟩ := h
  have hmem := List.mem_of_find?_eq_some he
  have hall : ∀ x ∈ months, x.2 ≤ 12 := by decide
  exact hall e hmem

theorem formatMonthDate_canonical {cy : Nat} (h1 : 1000 ≤ cy) (h2 : cy ≤ 9999)
    {monText day : Str} {yearCap : Option Str} (hday : IsDigits 1 2 day)
    (hyear : ∀ y, yearCap = some y → IsDigits 4 4 y) {d : Str}
    (h : formatMonthDate cy monText day yearCap = some d) : isCanonicalDate d = true := by
  simp only [formatMonthDate] at h
  split at h
  · cases h
  · rename_i mnum hm
    split at h
    · cases h
    · simp only [Option.some.injEq] at h
      subst h
      rw [List.append_assoc, List.cons_append]
      refine isCanonicalDate_of_parts ?_ ?_ ?_
      · refine @padStart_isDigits 4 4 _ ?_
        cases yearCap with
        | none => exact toDecimal_year h1 h2
        | some y =>
          simp only
          split
          · exact toDecimal_year h1 h2
          · exact hyear y rfl
      · exact padStart_isDigits 2 (toDecimal_month (monthNumber_le hm))
      · exact padStart_isDigits 2 hday

/-! ## The patterns of the date token parser -/

theorem mem_run_isoRe {prev : Option Char} {s : Str} {r : Str × Str × Caps}
    (h : r ∈ isoRe.run prev s) : isCanonicalDate r.1 = true ∧ r.2.2 = [(1, r.1)] := by
  simp only [isoRe, Re.seqs] at h
  obtain ⟨r0, h0, rfl⟩ := mem_run_group.mp h
  obtain ⟨a, ha, r1, h1, rfl⟩ := mem_run_seq.mp h0
  obtain ⟨b, hb, r2, h2, rfl⟩ := mem_run_seq.mp h1
  obtain ⟨c, hc, r3, h3, rfl⟩ := mem_run_seq.mp h2
  obtain ⟨d, hd, e, he, rfl⟩ := mem_run_seq.mp h3
  obtain ⟨ca, da⟩ := mem_run_digitsRe ha
  obtain ⟨eb, cb⟩ := mem_run_chr hb
  obtain ⟨cc, dc⟩ := mem_run_digitsRe hc
  obtain ⟨ed, cd⟩ := mem_run_chr hd
  obtain ⟨ce, de⟩ := mem_run_digitsRe he
  refine ⟨?_, ?_⟩
  · simp only [eb, ed, List.singleton_append]
    exact isCanonicalDate_of_parts da dc de
  · simp only [ca, cb, cc, cd, ce, List.append_nil]

theorem mem_run_mdRe {prev : Option Char} {s : Str} {r : Str × Str × Caps}
    (h : r ∈ mdRe.run prev s) :
    ∃ m d y, r.1 = m ++ '/' :: (d ++ '/' :: y) ∧ r.2.2 = [(1, m), (2, d), (3, y)] ∧
      IsDigits 1 2 m ∧ IsDigits 1 2 d ∧ IsDigits 2 4 y := by
  simp only [mdRe, Re.seqs] at h
  obtain ⟨a, ha, r1, h1, rfl⟩ := mem_run_seq.mp h
  obtain ⟨b, hb, r2, h2, rfl⟩ := mem_run_seq.mp h1
  obtain ⟨c, hc, r3, h3, rfl⟩ := mem_run_seq.mp h2
  obtain ⟨d, hd, e, he, rfl⟩ := mem_run_seq.mp h3
  obtain ⟨a', ha', rfl⟩ := mem_run_group.mp ha
  obtain ⟨c', hc', rfl⟩ := mem_run_group.mp hc
  obtain ⟨e', he', rfl⟩ := mem_run_group.mp he
  obtain ⟨ca, da⟩ := mem_run_digitsRe ha'
  obtain ⟨eb, cb⟩ := mem_run_chr hb
  obtain ⟨cc, dc⟩ := mem_run_digitsRe hc'
  obtain ⟨ed, cd⟩ := mem_run_chr hd
  obtain ⟨ce, de⟩ := mem_run_digitsRe he'
  refine ⟨a'.1, c'.1, e'.1, ?_, ?_, da, dc, de⟩
  · simp only [eb, ed, List.singleton_append]
  · simp only [ca, cb, cc, cd, ce, List.append_nil, List.singleton_append, List.cons_append,
      List.nil_append]

theorem mem_run_monthRe {prev : Option Char} {s : Str} {r : Str × Str × Caps}
    (h : r ∈ monthRe.run prev s) : IsMonthWord r.1 ∧ r.2.2 = [] := by
  obtain ⟨a, ha, hr⟩ := mem_run_alts _ h
  rcases List.mem_append.mp ha with ha | ha
  · obtain ⟨n, hn, rfl⟩ := List.mem_map.mp ha
    obtain ⟨e, c⟩ := mem_run_litI _ hr
    exact ⟨Or.inl ⟨n, List.mem_append_left _ hn, e⟩, c⟩
  · obtain ⟨n, hn, rfl⟩ := List.mem_map.mp ha
    obtain ⟨r1, h1, r2, h2, rfl⟩ := mem_run_seq.mp hr
    obtain ⟨e, c⟩ := mem_run_litI _ h1
    rcases mem_run_opt h2 with h2 | rfl
    · obtain ⟨e2, c2⟩ := mem_run_chr h2
      exact ⟨Or.inr ⟨n, hn, r1.1, by rw [e2], e⟩, by rw [c, c2]; rfl⟩
    · refine ⟨Or.inl ⟨n, List.mem_append_right _ hn, ?_⟩, by rw [c]; rfl⟩
      simpa using e

theorem mem_run_ordinalRe {prev : Option Char} {s : Str} {r : Str × Str × Caps}
    (h : r ∈ ordinalRe.run prev s) :
    toLowerCase r.1 ∈ ["st".toList, "nd".toList, "rd".toList, "th".toList] ∧ r.2.2 = [] := by
  obtain ⟨a, ha, hr⟩ := mem_run_alts _ h
  simp only [List.mem_cons, List.mem_singleton, List.not_mem_nil, or_false] at ha
  rcases ha with rfl | rfl | rfl | rfl
  · obtain ⟨e, c⟩ := mem_run_litI _ hr
    exact ⟨by rw [e]; decide, c⟩
  · obtain ⟨e, c⟩ := mem_run_litI _ hr
    exact ⟨by rw [e]; decide, c⟩
  · obtain ⟨e, c⟩ := mem_run_litI _ hr
    exact ⟨by rw [e]; decide, c⟩
  · obtain ⟨e, c⟩ := mem_run_litI _ hr
    exact ⟨by rw [e]; decide, c⟩

theorem mem_run_opt_ordinalRe {prev : Option Char} {s : Str} {r : Str × Str × Caps}
    (h : r ∈ (Re.opt ordinalRe).run prev s) : IsOrdinalOpt r.1 ∧ r.2.2 = [] := by
  rcases mem_run_opt h with h | rfl
  · obtain ⟨e, c⟩ := mem_run_ordinalRe h
    exact ⟨Or.inr e, c⟩
  · exact ⟨Or.inl rfl, rfl⟩

theorem mem_run_ws1 {prev : Option Char} {s : Str} {r : Str × Str × Caps}
    (h : r ∈ ws1.run prev s) : IsSpaces r.1 ∧ r.2.2 = [] := by
  obtain ⟨c, hall, hlen, _⟩ := mem_run_many h
  refine ⟨⟨?_, hall⟩, c⟩
  intro h0
  rw [h0] at hlen
  simp at hlen

/-- The optional year `(?:\s+(\d{4}))?` with capture group `n`. -/
theorem mem_run_yearOpt {n : Nat} {prev : Option Char} {s : Str} {r : Str × Str × Caps}
    (h : r ∈ (Re.opt (.seq ws1 (.group n (digitsRe 4 4)))).run prev s) :
    IsYearOpt r.1 ∧ (r.2.2 = [] ∨ ∃ y, r.2.2 = [(n, y)] ∧ IsDigits 4 4 y) := by
  rcases mem_run_opt h with h | rfl
  · obtain ⟨a, ha, b, hb, rfl⟩ := mem_run_seq.mp h
    obtain ⟨b', hb', rfl⟩ := mem_run_group.mp hb
    obtain ⟨sa, ca⟩ := mem_run_ws1 ha
    obtain ⟨cb, db⟩ := mem_run_digitsRe hb'
    exact ⟨Or.inr ⟨a.1, b'.1, rfl, sa, db⟩, Or.inr ⟨b'.1, by simp [ca, cb], db⟩⟩
  · exact ⟨Or.inl rfl, Or.inl rfl⟩

theorem mem_run_m1Re {prev : Option Char} {s : Str} {r : Str × Str × Caps}
    (h : r ∈ m1Re.run prev s) :
    prev = none ∧ r.2.1 = [] ∧ IsMonthDay r.1 ∧
      ∃ mon day, r.2.2.lookup 1 = some mon ∧ r.2.2.lookup 2 = some day ∧ IsDigits 1 2 day ∧
        ∀ y, r.2.2.lookup 3 = some y → IsDigits 4 4 y := by
  simp only [m1Re, Re.seqs] at h
  obtain ⟨a, ha, r1, h1, rfl⟩ := mem_run_seq.mp h
  obtain ⟨b, hb, r2, h2, rfl⟩ := mem_run_seq.mp h1
  obtain ⟨c, hc, r3, h3, rfl⟩ := mem_run_seq.mp h2
  obtain ⟨d, hd, r4, h4, rfl⟩ := mem_run_seq.mp h3
  obtain ⟨e, he, r5, h5, rfl⟩ := mem_run_seq.mp h4
  obtain ⟨f, hf, g, hg, rfl⟩ := mem_run_seq.mp h5
  obtain ⟨hprev, rfl⟩ := mem_run_bol ha
  obtain ⟨b', hb', rfl⟩ := mem_run_group.mp hb
  obtain ⟨d', hd', rfl⟩ := mem_run_group.mp hd
  obtain ⟨wb, cb⟩ := mem_run_monthRe hb'
  obtain ⟨wc, cc⟩ := mem_run_ws1 hc
  obtain ⟨cd, dd⟩ := mem_run_digitsRe hd'
  obtain ⟨we, ce⟩ := mem_run_opt_ordinalRe he
  obtain ⟨wf, cf⟩ := mem_run_yearOpt hf
  obtain ⟨_, rfl⟩ := mem_run_eol hg
  refine ⟨hprev, rfl, ⟨b'.1, c.1, d'.1, e.1, f.1, by simp, wb, wc, dd, we, wf⟩, b'.1, d'.1, ?_,
    ?_, dd, ?_⟩
  · simp [List.lookup]
  · simp [List.lookup, cb, cc]
  · intro y hy
    rcases cf with cf | ⟨y', cf, dy⟩
    · simp [List.lookup, cb, cc, cd, ce, cf] at hy
    · simp [List.lookup, cb, cc, cd, ce, cf] at hy
      subst hy
      exact dy

theorem mem_run_m2Re {prev : Option Char} {s : Str} {r : Str × Str × Caps}
    (h : r ∈ m2Re.run prev s) :
    prev = none ∧ r.2.1 = [] ∧ IsDayMonth r.1 ∧
      ∃ day mon, r.2.2.lookup 1 = some day ∧ r.2.2.lookup 2 = some mon ∧ IsDigits 1 2 day ∧
        ∀ y, r.2.2.lookup 3 = some y → IsDigits 4 4 y := by
  simp only [m2Re, Re.seqs] at h
  obtain ⟨a, ha, r1, h1, rfl⟩ := mem_run_seq.mp h
  obtain ⟨b, hb, r2, h2, rfl⟩ := mem_run_seq.mp h1
  obtain ⟨c, hc, r3, h3, rfl⟩ := mem_run_seq.mp h2
  obtain ⟨d, hd, r4, h4, rfl⟩ := mem_run_seq.mp h3
  obtain ⟨e, he, r5, h5, rfl⟩ := mem_run_seq.mp h4
  obtain ⟨f, hf, g, hg, rfl⟩ := mem_run_seq.mp h5
  obtain ⟨hprev, rfl⟩ := mem_run_bol ha
  obtain ⟨b', hb', rfl⟩ := mem_run_group.mp hb
  obtain ⟨e', he', rfl⟩ := mem_run_group.mp he
  obtain ⟨cb, db⟩ := mem_run_digitsRe hb'
  obtain ⟨wc, cc⟩ := mem_run_opt_ordinalRe hc
  obtain ⟨wd, cd⟩ := mem_run_ws1 hd
  obtain ⟨we, ce⟩ := mem_run_monthRe he'
  obtain ⟨wf, cf⟩ := mem_run_yearOpt hf
  obtain ⟨_, rfl⟩ := mem_run_eol hg
  refine ⟨hprev, rfl, ⟨b'.1, c.1, d.1, e'.1, f.1, by simp, db, wc, wd, we, wf⟩, b'.1, e'.1, ?_,
    ?_, db, ?_⟩
  · simp [List.lookup]
  · simp [List.lookup, cb, cc, cd]
  · intro y hy
    rcases cf with cf | ⟨y', cf, dy⟩
    · simp [List.lookup, cb, cc, cd, ce, cf] at hy
    · simp [List.lookup, cb, cc, cd, ce, cf] at hy
      subst hy
      exact dy

theorem trim_infix (s : Str) : ∃ a b, s = a ++ (trim s ++ b) := by
  refine ⟨s.takeWhile isWs, ((s.dropWhile isWs).reverse.takeWhile isWs).reverse, ?_⟩
  have h1 := (List.takeWhile_append_dropWhile isWs s).symm
  have h2 := (List.takeWhile_append_dropWhile isWs (s.dropWhile isWs).reverse).symm
  have h3 := congrArg List.reverse h2
  rw [List.reverse_reverse, List.reverse_append] at h3
  unfold trim
  rw [← h3]
  exact h1

theorem lastChar_none_eq_none {w : Str} (h : lastChar none w = none) : w = [] := by
  unfold lastChar at h
  cases hw : w.getLast? with
  | none => exact List.getLast?_eq_none_iff.mp hw
  | some c =>
    rw [hw] at h
    cases h

/-! ## Keyword tests -/

theorem test_iff (re : Re) (s : Str) :
    test re s = true ↔ ∃ a b, s = a ++ b ∧ re.run (lastChar none a) b ≠ [] := by
  constructor
  · intro h
    simp only [test, search, Option.isSome_iff_exists] at h
    obtain ⟨m, hm⟩ := h
    obtain ⟨e, hmem⟩ := searchFrom_some re _ _ _ hm
    exact ⟨m.pre, m.matched ++ m.post, e, List.ne_nil_of_mem hmem⟩
  · rintro ⟨a, b, rfl, hne⟩
    by_contra hc
    simp only [test, search, Bool.not_eq_true, Option.not_isSome,
      Option.isNone_iff_eq_none] at hc
    exact hne (searchFrom_none re a b none hc)

theorem run_chrI_cons (c x : Char) (prev : Option Char) (xs : Str) :
    (Re.chrI c).run prev (x :: xs) =
      if lowerChar x = lowerChar c then [([x], xs, [])] else [] := by
  simp only [Re.chrI, Re.run, beq_iff_eq]

theorem run_litI_of : ∀ (w u : Str) (prev : Option Char) (v : Str),
    toLowerCase u = toLowerCase w → (Re.litI w).run prev (u ++ v) = [(u, v, [])] := by
  intro w
  induction w with
  | nil =>
    intro u prev v h
    have : u = [] := by simpa [toLowerCase] using h
    subst this
    rfl
  | cons c cs ih =>
    intro u prev v h
    cases u with
    | nil => simp [toLowerCase] at h
    | cons x xs =>
      simp only [toLowerCase, List.map_cons, List.cons.injEq] at h
      obtain ⟨hx, hxs⟩ := h
      cases cs with
      | nil =>
        have : xs = [] := by simpa using hxs
        subst this
        simp only [Re.litI, List.cons_append, List.nil_append, run_chrI_cons, hx, if_true]
      | cons d ds =>
        have := ih xs (lastChar prev [x]) v hxs
        simp only [Re.litI, Re.run, List.cons_append] at this ⊢
        simp only [Re.litI, Re.chrI, Re.run, beq_iff_eq, hx, if_true, List.flatMap_cons,
          List.flatMap_nil, List.append_nil, this, List.map_cons, List.map_nil,
          List.singleton_append, List.nil_append]

theorem test_litI_iff (w line : Str) :
    test (Re.litI w) line = true ↔ toLowerCase w <:+: toLowerCase line := by
  rw [test_iff]
  constructor
  · rintro ⟨a, b, rfl, hne⟩
    obtain ⟨r, hr⟩ := List.exists_mem_of_ne_nil _ hne
    have e := run_append _ _ _ _ hr
    obtain ⟨hl, _⟩ := mem_run_litI w hr
    refine ⟨toLowerCase a, toLowerCase r.2.1, ?_⟩
    rw [e, ← hl]
    simp only [toLowerCase, List.map_append, List.append_assoc]
  · rintro ⟨x, y, hxy⟩
    simp only [toLowerCase] at hxy
    obtain ⟨l12, l3, e1, h12, _⟩ := List.map_eq_append_iff.mp hxy.symm
    obtain ⟨l1, l2, e2, _, h2⟩ := List.map_eq_append_iff.mp h12
    refine ⟨l1, l2 ++ l3, by rw [e1, e2, List.append_assoc], ?_⟩
    rw [run_litI_of w l2 _ l3 h2]
    exact List.cons_ne_nil _ _

theorem test_alt (a b : Re) (s : Str) : test (Re.alt a b) s = (test a s || test b s) := by
  rw [Bool.eq_iff_iff, Bool.or_eq_true, test_iff, test_iff, test_iff]
  constructor
  · rintro ⟨x, y, e, hne⟩
    simp only [Re.run, ne_eq, List.append_eq_nil, not_and_or] at hne
    rcases hne with hne | hne
    · exact Or.inl ⟨x, y, e, hne⟩
    · exact Or.inr ⟨x, y, e, hne⟩
  · rintro (⟨x, y, e, hne⟩ | ⟨x, y, e, hne⟩)
    · exact ⟨x, y, e, by simp only [Re.run, ne_eq, List.append_eq_nil, not_and_or]; exact Or.inl hne⟩
    · exact ⟨x, y, e, by simp only [Re.run, ne_eq, List.append_eq_nil, not_and_or]; exact Or.inr hne⟩

theorem test_keyword (kw : String) (line : Str) :
    test (Re.litI kw.toList) line = decide (occursIn kw line) := by
  rw [Bool.eq_iff_iff, test_litI_iff, decide_eq_true_iff, occursIn]

/-- The keyword cascade of the code computes the type the specification words. -/
theorem typeOf_eq_typeByKeyword (line : Str) : typeOf line = typeByKeyword line := by
  simp only [typeOf, typeByKeyword, keywordTypes, Re.alts, test_alt, test_keyword,
    List.find?, List.any, Bool.or_false, Bool.or_eq_true, decide_eq_true_eq]
  by_cases h1 : occursIn "final" line
  · simp [h1]
  by_cases h2 : occursIn "midterm" line
  · simp [h1, h2]
  by_cases h3 : occursIn "quiz" line
  · simp [h1, h2, h3]
  by_cases h4 : occursIn "lab" line
  · simp [h1, h2, h3, h4]
  by_cases h5 : occursIn "project" line
  · simp [h1, h2, h3, h4, h5]
  by_cases h6 : occursIn "work" line
  · simp [h1, h2, h3, h4, h5, h6]
  by_cases h7 : occursIn "shift" line
  · simp [h1, h2, h3, h4, h5, h6, h7]
  by_cases h8 : occursIn "schedule" line
  · simp [h1, h2, h3, h4, h5, h6, h7, h8]
  · simp [h1, h2, h3, h4, h5, h6, h7, h8]

/-! ## Trimming -/

theorem mem_trim {s : Str} {c : Char} (h : c ∈ trim s) : c ∈ s := by
  obtain ⟨a, b, e⟩ := trim_infix s
  rw [e]
  exact List.mem_append_right _ (List.mem_append_left _ h)

theorem trim_head (s : Str) (c : Char) (h : (trim s).head? = some c) : isWs c = false := by
  unfold trim at h
  rw [List.head?_reverse] at h
  have hmem : c ∈ List.dropWhile isWs (List.dropWhile isWs s).reverse :=
    List.mem_of_getLast?_eq_some h
  have hsuf : List.dropWhile isWs (List.dropWhile isWs s).reverse <:+
      (List.dropWhile isWs s).reverse := List.dropWhile_suffix _
  obtain ⟨t, ht⟩ := hsuf
  have hne : List.dropWhile isWs (List.dropWhile isWs s).reverse ≠ [] :=
    List.ne_nil_of_mem hmem
  have hlast : (List.dropWhile isWs s).reverse.getLast? = some c := by
    rw [← ht, List.getLast?_append_of_ne_nil _ hne]
    exact h
  rw [List.getLast?_reverse] at hlast
  have := List.head?_dropWhile_not isWs s
  rw [hlast] at this
  simpa using this

theorem trim_last (s : Str) (c : Char) (h : (trim s).getLast? = some c) : isWs c = false := by
  unfold trim at h
  rw [List.getLast?_reverse] at h
  have := List.head?_dropWhile_not isWs (List.dropWhile isWs s).reverse
  rw [h] at this
  simpa using this

theorem trim_eq_nil_iff (s : Str) : trim s = [] ↔ s.all isWs = true := by
  unfold trim
  rw [List.reverse_eq_nil_iff, List.dropWhile_eq_nil_iff, List.all_eq_true]
  constructor
  · intro h c hc
    by_cases hw : isWs c = true
    · exact hw
    · have hmem : c ∈ List.dropWhile isWs s := by
        have e := (List.takeWhile_append_dropWhile isWs s).symm
        rw [e] at hc
        rcases List.mem_append.mp hc with hc | hc
        · exact absurd (List.mem_takeWhile_imp hc) hw
        · exact hc
      exact h c (List.mem_reverse.mpr hmem)
  · intro h c hc
    have : c ∈ s := (List.dropWhile_sublist isWs).subset (List.mem_reverse.mp hc)
    exact h c this

/-! ## Replacement -/

theorem mem_replaceFirst_nil {re : Re} {s : Str} {c : Char}
    (h : c ∈ replaceFirst re [] s) : c ∈ s := by
  unfold replaceFirst at h
  split at h
  · exact h
  · rename_i m hm
    obtain ⟨e, _⟩ := searchFrom_some re _ _ _ hm
    rw [e]
    simp only [List.append_nil, List.mem_append] at h ⊢
    rcases h with h | h
    · exact Or.inl h
    · exact Or.inr (Or.inr h)

theorem manyRun_zero_ne_nil (p : Char → Bool) (hi : Nat) (s : Str) :
    manyRun p 0 hi s ≠ [] := by
  cases hi with
  | zero => simp [manyRun]
  | succ n =>
    cases s with
    | nil => simp [manyRun]
    | cons c cs => simp [manyRun]

theorem run_fillerRe_ne_nil (prev : Option Char) (c : Char) (cs : Str)
    (h : isFiller c = true) : fillerRe.run prev (c :: cs) ≠ [] := by
  simp only [fillerRe, Re.run, Option.getD_none, List.length_cons, manyRun, h, if_true]
  simpa using manyRun_zero_ne_nil isFiller cs.length cs

/-- Before the leftmost run of filler characters there is no filler character, and
when there is no such run there is none at all. -/
theorem searchFrom_fillerRe (s : Str) : ∀ (prev : Option Char),
    match searchFrom fillerRe prev s with
    | some m => (∀ c ∈ m.pre, isFiller c = false) ∧ m.matched ≠ []
    | none => ∀ c ∈ s, isFiller c = false := by
  induction s with
  | nil =>
    intro prev
    simp [searchFrom, fillerRe, Re.run, manyRun]
  | cons x xs ih =>
    intro prev
    cases hrun : (fillerRe.run prev (x :: xs)).head? with
    | some r =>
      rw [searchFrom_head _ _ _ _ hrun]
      refine ⟨by simp, ?_⟩
      have hmem := List.mem_of_mem_head? hrun
      obtain ⟨_, _, hlen, _⟩ := mem_run_many hmem
      intro h0
      simp only at h0
      rw [h0] at hlen
      simp at hlen
    | none =>
      have hnil := List.head?_eq_none_iff.mp hrun
      have hx : isFiller x = false := by
        by_contra hx
        exact run_fillerRe_ne_nil prev x xs (by simpa using hx) hnil
      rw [searchFrom_skip _ _ _ _ hnil]
      have := ih (some x)
      cases hs : searchFrom fillerRe (some x) xs with
      | some m =>
        rw [hs] at this
        simp only [Option.map_some']
        refine ⟨?_, this.2⟩
        intro c hc
        simp only [List.mem_cons] at hc
        rcases hc with rfl | hc
        · exact hx
        · exact this.1 c hc
      | none =>
        rw [hs] at this
        simp only [Option.map_none']
        intro c hc
        simp only [List.mem_cons] at hc
        rcases hc with rfl | hc
        · exact hx
        · exact this c hc

theorem replaceAllFrom_fillerRe : ∀ (fuel : Nat) (prev : Option Char) (s : Str),
    s.length < fuel → ∀ c ∈ replaceAllFrom fillerRe [' '] fuel prev s, isFiller c = false := by
  intro fuel
  induction fuel with
  | zero => intro prev s h; omega
  | succ fuel ih =>
    intro prev s hlen c hc
    simp only [replaceAllFrom] at hc
    have hsearch := searchFrom_fillerRe s prev
    cases hs : searchFrom fillerRe prev s with
    | none =>
      rw [hs] at hsearch hc
      exact hsearch c hc
    | some m =>
      rw [hs] at hsearch hc
      simp only at hsearch hc
      obtain ⟨e, _⟩ := searchFrom_some fillerRe _ _ _ hs
      have hl : m.post.length < fuel := by
        have := congrArg List.length e
        simp only [List.length_append] at this
        have : 0 < m.matched.length := List.length_pos.mpr hsearch.2
        omega
      simp only [List.mem_append, List.mem_singleton] at hc
      rcases hc with (hc | rfl) | hc
      · exact hsearch.1 c hc
      · decide
      · split at hc
        · simp at hc
        · rename_i hm _
          exact absurd hm hsearch.2
        · exact ih _ _ hl c hc

theorem mem_replaceAll_fillerRe {s : Str} {c : Char} (h : c ∈ replaceAll fillerRe [' '] s) :
    isFiller c = false :=
  replaceAllFrom_fillerRe _ _ _ (Nat.lt_succ_self _) c h

/-! ## Titles -/

theorem mem_stripTitle {w : Str} {c : Char} (h : c ∈ stripTitle w) : isFiller c = false :=
  mem_replaceAll_fillerRe (mem_replaceFirst_nil h)

/-- The title computed by `finishTitle`: never empty, without white space at
either end, without hyphen, colon or tab; it is `Assessment` when the stripped
line is white space only, and the trimmed stripped line otherwise. -/
theorem finishTitle_spec (w : Str) :
    finishTitle w ≠ [] ∧
    (∀ c, (finishTitle w).head? = some c → isWs c = false) ∧
    (∀ c, (finishTitle w).getLast? = some c → isWs c = false) ∧
    (∀ c ∈ finishTitle w, c ≠ '-' ∧ c ≠ ':' ∧ c ≠ '\t') ∧
    ((stripTitle w).all isWs = true → finishTitle w = "Assessment".toList) ∧
    ((stripTitle w).all isWs = false → finishTitle w = trim (stripTitle w)) := by
  have hkey : ∀ c : Char, isFiller c = false → c ≠ '-' ∧ c ≠ ':' ∧ c ≠ '\t' := by
    intro c hc
    simp only [isFiller, Bool.or_eq_false_iff, beq_eq_false_iff_ne, ne_eq] at hc
    exact ⟨hc.1.1, hc.1.2, hc.2⟩
  unfold finishTitle
  simp only
  by_cases hempty : trim (stripTitle w) = []
  · have hall := (trim_eq_nil_iff _).mp hempty
    simp only [hempty, List.isEmpty_nil, if_true]
    refine ⟨by decide, ?_, ?_, ?_, by simp, ?_⟩
    · intro c hc
      have : c = 'A' := by
        have h2 : ("Assessment".toList).head? = some 'A' := rfl
        rw [h2] at hc
        exact (Option.some.inj hc).symm
      subst this
      decide
    · intro c hc
      have : c = 't' := by
        have h2 : ("Assessment".toList).getLast? = some 't' := rfl
        rw [h2] at hc
        exact (Option.some.inj hc).symm
      subst this
      decide
    · intro c hc
      have hall : ∀ x ∈ "Assessment".toList, isFiller x = false := by decide
      exact hkey c (hall c hc)
    · intro h
      rw [hall] at h
      cases h
  · have hne : (trim (stripTitle w)).isEmpty = false := by
      cases ht : trim (stripTitle w) with
      | nil => exact absurd ht hempty
      | cons _ _ => rfl
    simp only [hne, Bool.false_eq_true, if_false]
    refine ⟨hempty, trim_head _, trim_last _, ?_, ?_, by simp⟩
    · intro c hc
      exact hkey c (mem_stripTitle (mem_trim hc))
    · intro h
      exact absurd ((trim_eq_nil_iff _).mpr h) hempty

theorem stripPrefix?_some : ∀ (pat s rest : Str), stripPrefix? pat s = some rest →
    s = pat ++ rest := by
  intro pat
  induction pat with
  | nil =>
    intro s rest h
    simp only [stripPrefix?, Option.some.injEq] at h
    rw [h, List.nil_append]
  | cons p ps ih =>
    intro s rest h
    cases s with
    | nil => simp [stripPrefix?] at h
    | cons c cs =>
      simp only [stripPrefix?] at h
      split at h
      · rename_i hpc
        rw [hpc, ih cs rest h]
        rfl
      · cases h

/-- Removing the first match of a pattern removes one contiguous part of the text
(nothing when the pattern does not match). -/
theorem replaceFirst_nil_split (re : Re) (s : Str) :
    ∃ pre span post, s = pre ++ (span ++ post) ∧ replaceFirst re [] s = pre ++ post := by
  unfold replaceFirst
  cases hm : search re s with
  | none => exact ⟨s, [], [], by simp, by simp⟩
  | some m =>
    obtain ⟨e, _⟩ := searchFrom_some re _ _ _ hm
    exact ⟨m.pre, m.matched, m.post, e, by simp⟩

/-- Removing the first occurrence of a text removes one contiguous part of the text
(nothing when it does not occur). -/
theorem replaceStr_nil_split (pat : Str) : ∀ s : Str,
    ∃ pre span post, s = pre ++ (span ++ post) ∧ replaceStr pat [] s = pre ++ post := by
  intro s
  induction s with
  | nil =>
    refine ⟨[], [], [], rfl, ?_⟩
    simp only [replaceStr]
    split <;> rfl
  | cons c cs ih =>
    simp only [replaceStr]
    cases hp : stripPrefix? pat (c :: cs) with
    | some rest =>
      exact ⟨[], pat, rest, by rw [List.nil_append]; exact stripPrefix?_some _ _ _ hp, rfl⟩
    | none =>
      obtain ⟨pre, span, post, e, h⟩ := ih
      refine ⟨c :: pre, span, post, by rw [e]; rfl, ?_⟩
      simp only [h, List.cons_append]

/-- The line with its date removed is the line without one contiguous part. -/
theorem isWithoutDate_split {line w : Str} (h : IsWithoutDate line w) :
    ∃ pre span post, line = pre ++ (span ++ post) ∧ w = pre ++ post := by
  rcases h with ⟨m, _, rfl⟩ | ⟨_, rawMatch, _, rfl⟩
  · exact replaceFirst_nil_split _ _
  · exact replaceStr_nil_split _ _

/-! ## Items of a line -/

theorem type_of_mem_rangeItems {cy : Nat} {line : Str} {m : Match} {it : Item}
    (h : it ∈ rangeItems cy line m) :
    it.type = typeOf line ∧ it.title = finishTitle (rangeWithoutDate line m) := by
  unfold rangeItems at h
  simp only at h
  split at h
  · simp at h
  · split at h
    · simp at h
    · simp only [List.mem_singleton] at h
      rw [h]
      exact ⟨rfl, rfl⟩

theorem type_of_mem_genericItems {cy : Nat} {line : Str} {it : Item}
    (h : it ∈ genericItems cy line) :
    it.type = typeOf line ∧
      ∃ rawMatch ∈ matchAll dateGlobalRe line,
        it.title = finishTitle (replaceStr rawMatch [] line) := by
  unfold genericItems at h
  simp only [List.mem_flatMap] at h
  obtain ⟨rawMatch, hr, h⟩ := h
  split at h
  · simp at h
  · split at h
    · simp at h
    · simp only [List.mem_singleton] at h
      rw [h]
      exact ⟨rfl, rawMatch, hr, rfl⟩

theorem of_mem_lineItems {cy : Nat} {line : Str} {it : Item} (h : it ∈ lineItems cy line) :
    it.type = typeOf line ∧ ∃ w, IsWithoutDate line w ∧ it.title = finishTitle w := by
  unfold lineItems at h
  split at h
  · rename_i m hm
    obtain ⟨h1, h2⟩ := type_of_mem_rangeItems h
    exact ⟨h1, _, Or.inl ⟨m, hm, rfl⟩, h2⟩
  · rename_i hm
    obtain ⟨h1, rawMatch, hr, h2⟩ := type_of_mem_genericItems h
    exact ⟨h1, _, Or.inr ⟨hm, rawMatch, hr, rfl⟩, h2⟩

theorem mem_items_iff {cy : Nat} {text : Str} {it : Item} :
    it ∈ (extractScheduleHeuristic cy text).items ↔
      ∃ line ∈ rawLines (normalizeText text), it ∈ lineItems cy line := by
  simp only [extractScheduleHeuristic, List.mem_flatMap]

/-! ## The matcher: the first match -/

theorem head?_flatMap_of_head {α β : Type} {l : List α} {f : α → List β} {x : α} {y : β}
    (h1 : l.head? = some x) (h2 : (f x).head? = some y) : (l.flatMap f).head? = some y := by
  cases l with
  | nil => cases h1
  | cons a as =>
    simp only [List.head?_cons, Option.some.injEq] at h1
    subst h1
    cases hf : f a with
    | nil => rw [hf] at h2; cases h2
    | cons b bs =>
      rw [hf] at h2
      simp only [List.flatMap_cons, hf, List.cons_append, List.head?_cons] at h2 ⊢
      exact h2

theorem run_seq_head {a b : Re} {prev : Option Char} {s w1 rest1 w2 rest2 : Str}
    {c1 c2 : Caps} (h1 : (a.run prev s).head? = some (w1, rest1, c1))
    (h2 : (b.run (lastChar prev w1) rest1).head? = some (w2, rest2, c2)) :
    ((Re.seq a b).run prev s).head? = some (w1 ++ w2, rest2, c1 ++ c2) := by
  simp only [Re.run]
  refine head?_flatMap_of_head h1 ?_
  simp only [List.head?_map, h2, Option.map_some']

theorem run_group_head {n : Nat} {a : Re} {prev : Option Char} {s w rest : Str} {c : Caps}
    (h : (a.run prev s).head? = some (w, rest, c)) :
    ((Re.group n a).run prev s).head? = some (w, rest, (n, w) :: c) := by
  simp only [Re.run, List.head?_map, h, Option.map_some']

theorem run_chr_head (c : Char) (prev : Option Char) (cs : Str) :
    ((Re.chr c).run prev (c :: cs)).head? = some ([c], cs, []) := by
  simp [Re.chr, Re.run]

/-- A greedy repetition takes all of `w` when `w` is made of the class, has an
admissible length, and is followed by nothing of the class (or fills the bound). -/
theorem manyRun_head (p : Char → Bool) : ∀ (w : Str) (lo hi : Nat) (rest : Str),
    (∀ c ∈ w, p c = true) → lo ≤ w.length → w.length ≤ hi →
    (w.length = hi ∨ ∀ c, rest.head? = some c → p c = false) →
    (manyRun p lo hi (w ++ rest)).head? = some (w, rest) := by
  intro w
  induction w with
  | nil =>
    intro lo hi rest _ hlo _ hstop
    have hlo0 : lo = 0 := by simpa using hlo
    subst hlo0
    cases hi with
    | zero => simp [manyRun]
    | succ n =>
      cases rest with
      | nil => simp [manyRun]
      | cons c cs =>
        have hp : p c = false := by
          rcases hstop with h | h
          · simp at h
          · exact h c rfl
        simp [manyRun, hp]
  | cons x xs ih =>
    intro lo hi rest hall hlo hhi hstop
    cases hi with
    | zero => simp at hhi
    | succ n =>
      have hx : p x = true := hall x (List.mem_cons_self _ _)
      have hrec := ih (lo - 1) n rest (fun c hc => hall c (List.mem_cons_of_mem _ hc))
        (by simp only [List.length_cons] at hlo; omega)
        (by simp only [List.length_cons] at hhi; omega)
        (by
          rcases hstop with h | h
          · left
            simp only [List.length_cons] at h
            omega
          · right
            exact h)
      simp only [List.cons_append, manyRun, hx, if_true]
      cases hm : manyRun p (lo - 1) n (xs ++ rest) with
      | nil => rw [hm] at hrec; cases hrec
      | cons r rs =>
        rw [hm] at hrec
        simp only [List.head?_cons, Option.some.injEq] at hrec
        subst hrec
        simp

theorem run_many_head {p : Char → Bool} {lo : Nat} {hi : Option Nat} (prev : Option Char)
    {w : Str} (rest : Str) (hall : ∀ c ∈ w, p c = true) (hlo : lo ≤ w.length)
    (hhi : ∀ n, hi = some n → w.length ≤ n)
    (hstop : (∀ c, rest.head? = some c → p c = false) ∨ hi = some w.length) :
    ((Re.many p lo hi).run prev (w ++ rest)).head? = some (w, rest, []) := by
  simp only [Re.run, List.head?_map]
  have : (manyRun p lo (hi.getD (w ++ rest).length) (w ++ rest)).head? = some (w, rest) := by
    refine manyRun_head p w lo _ rest hall hlo ?_ ?_
    · cases hi with
      | none => simp
      | some n => exact hhi n rfl
    · rcases hstop with h | h
      · exact Or.inr h
      · left
        rw [h]
        rfl
  rw [this]
  rfl

theorem run_digitsRe_head {lo hi : Nat} (prev : Option Char) {w : Str} (rest : Str)
    (hw : IsDigits lo hi w)
    (hstop : (∀ c, rest.head? = some c → isDigit c = false) ∨ w.length = hi) :
    ((digitsRe lo hi).run prev (w ++ rest)).head? = some (w, rest, []) := by
  refine run_many_head prev rest hw.1 hw.2.1 ?_ ?_
  · intro n hn
    cases hn
    exact hw.2.2
  · rcases hstop with h | h
    · exact Or.inl h
    · exact Or.inr (by rw [h])

theorem search_of_head {re : Re} {s w rest : Str} {c : Caps}
    (h : (re.run none s).head? = some (w, rest, c)) :
    search re s = some ⟨[], w, rest, c⟩ :=
  searchFrom_head re none s _ h

theorem trim_eq_self {s : Str} (h1 : ∀ c, s.head? = some c → isWs c = false)
    (h2 : ∀ c, s.getLast? = some c → isWs c = false) : trim s = s := by
  unfold trim
  have e1 : s.dropWhile isWs = s := by
    cases s with
    | nil => rfl
    | cons x xs =>
      have := h1 x rfl
      simp [List.dropWhile, this]
  rw [e1]
  have e2 : s.reverse.dropWhile isWs = s.reverse := by
    cases hr : s.reverse with
    | nil => rfl
    | cons x xs =>
      have hl : s.getLast? = some x := by
        rw [← List.head?_reverse, hr]
        rfl
      have := h2 x hl
      simp [List.dropWhile, this]
  rw [e2, List.reverse_reverse]

/-! ## Numeric dates -/

theorem isDigit_not_isWs {c : Char} (h : isDigit c = true) : isWs c = false := by
  simp only [isDigit, Bool.and_eq_true, decide_eq_true_eq] at h
  simp only [isWs, Bool.or_eq_false_iff, decide_eq_false_iff_not]
  omega

theorem IsDigits.head_not_ws {lo hi : Nat} {w : Str} (h : IsDigits lo hi w) (rest : Str)
    (hlo : 1 ≤ lo) : ∀ c, (w ++ rest).head? = some c → isWs c = false := by
  intro c hc
  cases w with
  | nil =>
    have := h.2.1
    simp only [List.length_nil] at this
    omega
  | cons x xs =>
    simp only [List.cons_append, List.head?_cons, Option.some.injEq] at hc
    subst hc
    exact isDigit_not_isWs (h.1 _ (List.mem_cons_self _ _))

theorem IsDigits.last_not_ws {lo hi : Nat} {w : Str} (h : IsDigits lo hi w) (pre : Str)
    (hlo : 1 ≤ lo) : ∀ c, (pre ++ w).getLast? = some c → isWs c = false := by
  intro c hc
  have hne : w ≠ [] := by
    intro h0
    have := h.2.1
    rw [h0] at this
    simp only [List.length_nil] at this
    omega
  rw [List.getLast?_append_of_ne_nil _ hne] at hc
  exact isDigit_not_isWs (h.1 _ (List.mem_of_getLast?_eq_some hc))

theorem isCanonicalDate_length {w : Str} (h : isCanonicalDate w = true) : w.length = 10 := by
  obtain ⟨y, m, d, rfl, hy, hm, hd⟩ := isCanonicalDate_parts h
  have := hy.2.1
  have := hy.2.2
  have := hm.2.1
  have := hm.2.2
  have := hd.2.1
  have := hd.2.2
  simp only [List.length_append, List.length_cons]
  omega

theorem mem_of_isCanonicalDate {w : Str} (h : isCanonicalDate w = true) : '-' ∈ w := by
  obtain ⟨y, m, d, rfl, _⟩ := isCanonicalDate_parts h
  simp

/-- The pattern `(\d{1,2})\/(\d{1,2})\/(\d{2,4})` on a text that is exactly
`m/d/y`. -/
theorem run_mdRe_head (prev : Option Char) {m d y : Str} (hm : IsDigits 1 2 m)
    (hd : IsDigits 1 2 d) (hy : IsDigits 2 4 y) :
    (mdRe.run prev (m ++ '/' :: (d ++ '/' :: y))).head? =
      some (m ++ '/' :: (d ++ '/' :: y), [], [(1, m), (2, d), (3, y)]) := by
  have hslash : ∀ (rest : Str) (c : Char), ('/' :: rest).head? = some c → isDigit c = false := by
    intro rest c hc
    simp only [List.head?_cons, Option.some.injEq] at hc
    subst hc
    decide
  have k5 : ∀ p, ((Re.group 3 (digitsRe 2 4)).run p y).head? = some (y, [], [(3, y)]) := by
    intro p
    have := run_digitsRe_head p [] hy (Or.inl (fun c hc => by cases hc))
    rw [List.append_nil] at this
    exact run_group_head this
  have k4 : ∀ p, ((Re.seq (.chr '/') (.group 3 (digitsRe 2 4))).run p ('/' :: y)).head? =
      some ('/' :: y, [], [(3, y)]) :=
    fun p => run_seq_head (run_chr_head '/' p y) (k5 _)
  have k3 : ∀ p, ((Re.seq (.group 2 (digitsRe 1 2))
      (.seq (.chr '/') (.group 3 (digitsRe 2 4)))).run p (d ++ '/' :: y)).head? =
      some (d ++ '/' :: y, [], [(2, d), (3, y)]) :=
    fun p => run_seq_head (run_group_head (run_digitsRe_head p _ hd (Or.inl (hslash _))))
      (k4 _)
  have k2 : ∀ p, ((Re.seq (.chr '/') (.seq (.group 2 (digitsRe 1 2))
      (.seq (.chr '/') (.group 3 (digitsRe 2 4))))).run p ('/' :: (d ++ '/' :: y))).head? =
      some ('/' :: (d ++ '/' :: y), [], [(2, d), (3, y)]) :=
    fun p => run_seq_head (run_chr_head '/' p _) (k3 _)
  exact run_seq_head (run_group_head (run_digitsRe_head prev _ hm (Or.inl (hslash _)))) (k2 _)

/-! ## The matcher: patterns that look at no more than their own text -/

theorem run_rejects (c : Char) (t : Str) : ∀ (re : Re), re.rejects c = true →
    ∀ (prev : Option Char) (s : Str),
      re.run prev (s ++ c :: t) = (re.run prev s).map (fun r => (r.1, r.2.1 ++ c :: t, r.2.2)) := by
  intro re
  induction re with
  | cls p =>
    intro h prev s
    simp only [Re.rejects, Bool.not_eq_true'] at h
    cases s with
    | nil => simp [Re.run, h]
    | cons x xs =>
      simp only [List.cons_append, Re.run]
      split <;> simp
  | eps =>
    intro _ prev s
    simp [Re.run]
  | seq a b iha ihb =>
    intro h prev s
    simp only [Re.rejects, Bool.and_eq_true] at h
    simp only [Re.run, iha h.1, List.flatMap_map, List.map_flatMap, ihb h.2, List.map_map]
    rfl
  | alt a b iha ihb =>
    intro h prev s
    simp only [Re.rejects, Bool.and_eq_true] at h
    simp only [Re.run, iha h.1, ihb h.2, List.map_append]
  | opt a iha =>
    intro h prev s
    simp only [Re.rejects] at h
    simp only [Re.run, iha h, List.map_append, List.filter_map, List.map_cons, List.map_nil]
    rfl
  | group n a iha =>
    intro h prev s
    simp only [Re.rejects] at h
    simp only [Re.run, iha h, List.map_map]
    rfl
  | many p lo hi => intro h; cases h
  | bol => intro h; cases h
  | eol => intro h; cases h
  | wordB => intro h; cases h

theorem run_seq_eq (a b : Re) (prev : Option Char) (s : Str) :
    (Re.seq a b).run prev s =
      (a.run prev s).flatMap (fun r1 =>
        (b.run (lastChar prev r1.1) r1.2.1).map (fun r2 =>
          (r1.1 ++ r2.1, r2.2.1, r1.2.2 ++ r2.2.2))) := by
  simp only [Re.run]

theorem run_group_eq (n : Nat) (a : Re) (prev : Option Char) (s : Str) :
    (Re.group n a).run prev s =
      (a.run prev s).map (fun r => (r.1, r.2.1, (n, r.1) :: r.2.2)) := by
  simp only [Re.run]

theorem head?_flatMap_append {α β : Type} (l1 : List α) (x : α) (l2 : List α)
    (f : α → List β) (y : β) (hskip : ∀ a ∈ l1, f a = []) (hx : (f x).head? = some y) :
    ((l1 ++ x :: l2).flatMap f).head? = some y := by
  induction l1 with
  | nil =>
    simp only [List.nil_append]
    exact head?_flatMap_of_head rfl hx
  | cons a as ih =>
    simp only [List.cons_append, List.flatMap_cons, hskip a (List.mem_cons_self _ _),
      List.nil_append]
    exact ih (fun b hb => hskip b (List.mem_cons_of_mem _ hb))

/-- The month alternation followed by a continuation `k`, on a month name followed
by a space: when `k` fails on every text that starts with a plain character and
succeeds after the whole name, the first match takes the whole name. -/
theorem run_month_seq_head (n : Nat) (k : Re) {M : Str} (hM : monthSplits M = true)
    (t : Str) {w rest : Str} {c : Caps}
    (hfail : ∀ (p : Option Char) (x : Char) (xs : Str), isPlain x = true →
      k.run p (x :: xs) = [])
    (hk : (k.run (lastChar none M) (' ' :: t)).head? = some (w, rest, c)) :
    ((Re.seq (.group n monthRe) k).run none (M ++ ' ' :: t)).head? =
      some (M ++ w, rest, (n, M) :: c) := by
  simp only [monthSplits, Bool.and_eq_true, beq_iff_eq, List.all_eq_true] at hM
  obtain ⟨hhead, hall⟩ := hM
  have hsplit := (List.takeWhile_append_dropWhile (fun r : Str × Str × Caps => !r.2.1.isEmpty)
    (monthRe.run none M)).symm
  cases hd : (monthRe.run none M).dropWhile (fun r => !r.2.1.isEmpty) with
  | nil => rw [hd] at hhead; cases hhead
  | cons r rs =>
    rw [hd] at hhead hsplit
    simp only [List.head?_cons, Option.some.injEq] at hhead
    subst hhead
    have hrej : monthRe.rejects ' ' = true := by decide
    rw [run_seq_eq, run_group_eq, run_rejects ' ' t monthRe hrej none M, hsplit]
    simp only [List.map_append, List.map_cons, List.map_map]
    refine head?_flatMap_append _ _ _ _ _ ?_ ?_
    · intro a ha
      obtain ⟨r, hr, rfl⟩ := List.mem_map.mp ha
      have hp := hall r hr
      cases hrest : r.2.1 with
      | nil => rw [hrest] at hp; cases hp
      | cons x xs =>
        rw [hrest] at hp
        simp only [List.head?_cons] at hp
        simp only [Function.comp_apply, hrest, List.cons_append, hfail _ x _ hp, List.map_nil]
    · simp only [Function.comp_apply, List.nil_append, List.head?_map, hk, Option.map_some']
      rfl

/-! ## The matcher: failing and optional parts -/

theorem run_many_nil_of_not {p : Char → Bool} {lo : Nat} (hi : Option Nat)
    (prev : Option Char) {x : Char} (xs : Str) (hx : p x = false) (hlo : 1 ≤ lo) :
    (Re.many p lo hi).run prev (x :: xs) = [] := by
  have hlo0 : lo ≠ 0 := by omega
  simp only [Re.run]
  generalize hi.getD (x :: xs).length = n
  cases n with
  | zero => simp [manyRun, hlo0]
  | succ n => simp [manyRun, hx, hlo0]

theorem run_seq_nil {a b : Re} {prev : Option Char} {s : Str} (h : a.run prev s = []) :
    (Re.seq a b).run prev s = [] := by
  rw [run_seq_eq, h]
  rfl

theorem run_seq_single {a b : Re} {prev : Option Char} {s w rest : Str}
    (h1 : a.run prev s = [(w, rest, [])]) (h2 : b.run (lastChar prev w) rest = []) :
    (Re.seq a b).run prev s = [] := by
  rw [run_seq_eq, h1]
  simp [h2]

theorem run_group_nil {n : Nat} {a : Re} {prev : Option Char} {s : Str}
    (h : a.run prev s = []) : (Re.group n a).run prev s = [] := by
  rw [run_group_eq, h]
  rfl

theorem run_many_zero_of_not {p : Char → Bool} (hi : Option Nat) (prev : Option Char)
    {x : Char} (xs : Str) (hx : p x = false) :
    (Re.many p 0 hi).run prev (x :: xs) = [([], x :: xs, [])] := by
  simp only [Re.run]
  generalize hi.getD (x :: xs).length = n
  cases n with
  | zero => simp [manyRun]
  | succ n => simp [manyRun, hx]

theorem run_opt_head_some {a : Re} {prev : Option Char} {s w rest : Str} {c : Caps}
    (h : (a.run prev s).head? = some (w, rest, c)) (hw : w ≠ []) :
    ((Re.opt a).run prev s).head? = some (w, rest, c) := by
  cases hr : a.run prev s with
  | nil => rw [hr] at h; cases h
  | cons r rs =>
    rw [hr] at h
    simp only [List.head?_cons, Option.some.injEq] at h
    subst h
    have : (!(w.isEmpty)) = true := by
      cases w with
      | nil => exact absurd rfl hw
      | cons _ _ => rfl
    simp [Re.run, hr, List.filter_cons, this]

theorem run_opt_head_none {a : Re} {prev : Option Char} {s : Str} (h : a.run prev s = []) :
    ((Re.opt a).run prev s).head? = some ([], s, []) := by
  simp [Re.run, h]

theorem run_nil_of_rejects {re : Re} {c : Char} (hrej : re.rejects c = true)
    (hnil : ∀ prev, re.run prev [] = []) (prev : Option Char) (t : Str) :
    re.run prev (c :: t) = [] := by
  have := run_rejects c t re hrej prev []
  rw [List.nil_append] at this
  rw [this, hnil prev]
  rfl

theorem run_ordinalRe_nil (prev : Option Char) : ordinalRe.run prev [] = [] := rfl

theorem run_cls_head {p : Char → Bool} (prev : Option Char) {x : Char} (xs : Str)
    (hx : p x = true) : ((Re.cls p).run prev (x :: xs)).head? = some ([x], xs, []) := by
  simp [Re.run, hx]

theorem stop_cons {p : Char → Bool} {x : Char} (xs : Str) (hx : p x = false) :
    ∀ c, (x :: xs).head? = some c → p c = false := by
  intro c hc
  simp only [List.head?_cons, Option.some.injEq] at hc
  subst hc
  exact hx

theorem run_ws0_skip (prev : Option Char) {rest : Str}
    (hstop : ∀ c, rest.head? = some c → isWs c = false) :
    (ws0.run prev rest).head? = some ([], rest, []) := by
  have := @run_many_head isWs 0 none prev [] rest
    (by simp) (by simp) (by simp) (Or.inl hstop)
  simpa using this

theorem run_ws_space {lo : Nat} (hlo : lo ≤ 1) (prev : Option Char) {rest : Str}
    (hstop : ∀ c, rest.head? = some c → isWs c = false) :
    ((Re.many isWs lo none).run prev (' ' :: rest)).head? = some ([' '], rest, []) := by
  have := @run_many_head isWs lo none prev [' '] rest
    (by simp; decide) (by simpa using hlo) (by simp) (Or.inl hstop)
  simpa using this

theorem run_group_digits_head (n : Nat) {lo hi : Nat} (prev : Option Char) {w : Str}
    (rest : Str) (hw : IsDigits lo hi w)
    (hstop : ∀ c, rest.head? = some c → isDigit c = false) :
    ((Re.group n (digitsRe lo hi)).run prev (w ++ rest)).head? = some (w, rest, [(n, w)]) :=
  run_group_head (run_digitsRe_head prev rest hw (Or.inl hstop))

theorem run_group_digits_end (n : Nat) {lo hi : Nat} (prev : Option Char) {w : Str}
    (hw : IsDigits lo hi w) :
    ((Re.group n (digitsRe lo hi)).run prev w).head? = some (w, [], [(n, w)]) := by
  have := run_group_digits_head n prev [] hw (fun c hc => by cases hc)
  rwa [List.append_nil] at this

theorem run_opt_ordinalRe_skip (prev : Option Char) {c : Char} (t : Str)
    (hc : ordinalRe.rejects c = true) :
    ((Re.opt ordinalRe).run prev (c :: t)).head? = some ([], c :: t, []) :=
  run_opt_head_none (run_nil_of_rejects hc run_ordinalRe_nil prev t)

/-! ## Letter case -/

theorem forall_isUpper {P : Char → Prop} (h : ∀ n, 65 ≤ n → n ≤ 90 → P (Char.ofNat n))
    (c : Char) (hc : isUpper c = true) : P c := by
  simp only [isUpper, Bool.and_eq_true, decide_eq_true_eq] at hc
  have := h c.toNat hc.1 hc.2
  rwa [Char.ofNat_toNat] at this

theorem lowerChar_of_not_isUpper {c : Char} (h : isUpper c = false) : lowerChar c = c := by
  simp [lowerChar, h]

/-- A property of characters is blind to letter case when it holds alike of every
upper-case letter and its lower case. -/
theorem caseBlind_of_upper {p : Char → Bool}
    (h : ∀ n, 65 ≤ n → n ≤ 90 → p (lowerChar (Char.ofNat n)) = p (Char.ofNat n)) (c : Char) :
    p (lowerChar c) = p c := by
  cases hu : isUpper c with
  | false => rw [lowerChar_of_not_isUpper hu]
  | true => exact @forall_isUpper (fun c => p (lowerChar c) = p c) h c hu

theorem lowerChar_idem (c : Char) : lowerChar (lowerChar c) = lowerChar c := by
  cases hu : isUpper c with
  | false => rw [lowerChar_of_not_isUpper hu, lowerChar_of_not_isUpper hu]
  | true =>
    refine @forall_isUpper (fun c => lowerChar (lowerChar c) = lowerChar c) ?_ c hu
    intro n h1 h2
    interval_cases n <;> decide

theorem isWs_lowerChar (c : Char) : isWs (lowerChar c) = isWs c :=
  caseBlind_of_upper (by intro n h1 h2; interval_cases n <;> decide) c

theorem isDigit_lowerChar (c : Char) : isDigit (lowerChar c) = isDigit c :=
  caseBlind_of_upper (by intro n h1 h2; interval_cases n <;> decide) c

theorem isWord_lowerChar (c : Char) : isWord (lowerChar c) = isWord c :=
  caseBlind_of_upper (by intro n h1 h2; interval_cases n <;> decide) c

theorem isPlain_lowerChar (c : Char) : isPlain (lowerChar c) = isPlain c := by
  simp only [isPlain, isWs_lowerChar, isDigit_lowerChar]

/-- Lower-casing never produces, and never removes, a character that is not a
letter. -/
theorem lowerChar_eq_iff {c k : Char} (hk : isAlpha k = false) : lowerChar c = k ↔ c = k := by
  cases hu : isUpper c with
  | false => rw [lowerChar_of_not_isUpper hu]
  | true =>
    have h1 : lowerChar c ≠ k := by
      intro h
      have : isAlpha (lowerChar c) = true := by
        refine @forall_isUpper (fun c => isAlpha (lowerChar c) = true) ?_ c hu
        intro n h1 h2
        interval_cases n <;> decide
      rw [h] at this
      rw [this] at hk
      cases hk
    have h2 : c ≠ k := by
      rintro rfl
      simp only [isAlpha, Bool.or_eq_false_iff] at hk
      rw [hk.1] at hu
      cases hu
    exact ⟨fun h => absurd h h1, fun h => absurd h h2⟩

theorem beq_lowerChar {c k : Char} (hk : isAlpha k = false) :
    (lowerChar c == k) = (c == k) := by
  rw [Bool.eq_iff_iff, beq_iff_eq, beq_iff_eq]
  exact lowerChar_eq_iff hk

theorem toLowerCase_idem (s : Str) : toLowerCase (toLowerCase s) = toLowerCase s := by
  simp only [toLowerCase, List.map_map]
  refine List.map_congr_left ?_
  intro c _
  rw [Function.comp_apply]
  exact lowerChar_idem c

theorem toLowerCase_append (a b : Str) :
    toLowerCase (a ++ b) = toLowerCase a ++ toLowerCase b := by
  simp only [toLowerCase, List.map_append]

theorem lastChar_toLowerCase (prev : Option Char) (w : Str) :
    lastChar (prev.map lowerChar) (toLowerCase w) = (lastChar prev w).map lowerChar := by
  unfold lastChar toLowerCase
  rw [List.getLast?_map]
  cases w.getLast? <;> rfl

theorem manyRun_toLowerCase {p : Char → Bool} (hp : ∀ c, p (lowerChar c) = p c) :
    ∀ (hi lo : Nat) (s : Str),
      manyRun p lo hi (toLowerCase s) =
        (manyRun p lo hi s).map (fun r => (toLowerCase r.1, toLowerCase r.2)) := by
  intro hi
  induction hi with
  | zero =>
    intro lo s
    simp only [manyRun]
    split <;> rfl
  | succ n ih =>
    intro lo s
    cases s with
    | nil =>
      simp only [toLowerCase, List.map_nil, manyRun]
      split <;> rfl
    | cons c cs =>
      have e : toLowerCase (c :: cs) = lowerChar c :: toLowerCase cs := rfl
      rw [e]
      simp only [manyRun, hp c, ih, List.map_append]
      congr 1
      · split
        · simp only [List.map_map]
          rfl
        · rfl
      · split <;> rfl

/-- A case-blind pattern matches a text and its lower case in the same way. -/
theorem run_toLowerCase : ∀ (re : Re), re.caseBlind → ∀ (prev : Option Char) (s : Str),
    re.run (prev.map lowerChar) (toLowerCase s) = (re.run prev s).map lowerMatch := by
  intro re
  induction re with
  | cls p =>
    intro h prev s
    simp only [Re.caseBlind] at h
    cases s with
    | nil => rfl
    | cons c cs =>
      have e : toLowerCase (c :: cs) = lowerChar c :: toLowerCase cs := rfl
      rw [e]
      simp only [Re.run, h c]
      split <;> rfl
  | many p lo hi =>
    intro h prev s
    simp only [Re.caseBlind] at h
    have hl : (toLowerCase s).length = s.length := by simp [toLowerCase]
    simp only [Re.run, hl, manyRun_toLowerCase h, List.map_map]
    rfl
  | eps =>
    intro _ prev s
    rfl
  | seq a b iha ihb =>
    intro h prev s
    simp only [Re.caseBlind] at h
    rw [run_seq_eq, run_seq_eq, iha h.1, List.flatMap_map, List.map_flatMap]
    refine List.flatMap_congr ?_
    intro r1 _
    have e1 : lastChar (prev.map lowerChar) (lowerMatch r1).1 =
        (lastChar prev r1.1).map lowerChar := lastChar_toLowerCase prev r1.1
    have e2 := ihb h.2 (lastChar prev r1.1) r1.2.1
    rw [e1]
    have e3 : (lowerMatch r1).2.1 = toLowerCase r1.2.1 := rfl
    rw [e3, e2, List.map_map, List.map_map]
    refine List.map_congr_left ?_
    intro r2 _
    simp only [Function.comp_apply, lowerMatch, toLowerCase_append, List.map_append]
  | alt a b iha ihb =>
    intro h prev s
    simp only [Re.caseBlind] at h
    simp only [Re.run, iha h.1, ihb h.2, List.map_append]
  | opt a iha =>
    intro h prev s
    simp only [Re.caseBlind] at h
    simp only [Re.run, iha h, List.map_append, List.filter_map, List.map_cons, List.map_nil]
    congr 1
    congr 1
    refine List.filter_congr ?_
    intro r _
    simp only [Function.comp_apply, lowerMatch, toLowerCase]
    cases r.1 <;> rfl
  | group n a iha =>
    intro h prev s
    simp only [Re.caseBlind] at h
    simp only [Re.run, iha h, List.map_map]
    rfl
  | bol =>
    intro _ prev s
    simp only [Re.run, Option.isNone_map']
    split <;> rfl
  | eol =>
    intro _ prev s
    cases s <;> rfl
  | wordB =>
    intro _ prev s
    have e1 : isWordOpt (prev.map lowerChar) = isWordOpt prev := by
      cases prev with
      | none => rfl
      | some c => exact isWord_lowerChar c
    have e2 : isWordOpt (toLowerCase s).head? = isWordOpt s.head? := by
      cases s with
      | nil => rfl
      | cons c cs => exact isWord_lowerChar c
    simp only [Re.run, e1, e2]
    split <;> rfl

theorem caseBlind_chrI (c : Char) : (Re.chrI c).caseBlind := by
  intro x
  simp only [lowerChar_idem]

theorem caseBlind_litI : ∀ (w : Str), (Re.litI w).caseBlind := by
  intro w
  induction w with
  | nil => exact trivial
  | cons c cs ih =>
    cases cs with
    | nil => exact caseBlind_chrI c
    | cons d ds => exact ⟨caseBlind_chrI c, ih⟩

theorem caseBlind_alts : ∀ (l : List Re), (∀ re ∈ l, re.caseBlind) → (Re.alts l).caseBlind := by
  intro l
  induction l with
  | nil => intro _ c; rfl
  | cons a as ih =>
    intro h
    cases as with
    | nil => exact h a (List.mem_cons_self _ _)
    | cons b bs =>
      exact ⟨h a (List.mem_cons_self _ _), ih (fun re hre => h re (List.mem_cons_of_mem _ hre))⟩

theorem caseBlind_chr {k : Char} (hk : isAlpha k = false) : (Re.chr k).caseBlind := by
  intro x
  exact beq_lowerChar hk

theorem monthRe_caseBlind : monthRe.caseBlind := by
  refine caseBlind_alts _ ?_
  intro re hre
  rcases List.mem_append.mp hre with h | h
  · obtain ⟨n, _, rfl⟩ := List.mem_map.mp h
    exact caseBlind_litI _
  · obtain ⟨n, _, rfl⟩ := List.mem_map.mp h
    exact ⟨caseBlind_litI _, caseBlind_chr (by decide)⟩

theorem toLowerCase_eq_nil {s : Str} (h : toLowerCase s = []) : s = [] := by
  cases s with
  | nil => rfl
  | cons _ _ => cases h

theorem monthSplits_of_lower {M : Str} (h : monthSplits (toLowerCase M) = true) :
    monthSplits M = true := by
  have hrun : monthRe.run none (toLowerCase M) = (monthRe.run none M).map lowerMatch :=
    run_toLowerCase monthRe monthRe_caseBlind none M
  have hq : ((fun r : Str × Str × Caps => !r.2.1.isEmpty) ∘ lowerMatch) =
      (fun r : Str × Str × Caps => !r.2.1.isEmpty) := by
    funext r
    simp only [Function.comp_apply, lowerMatch, toLowerCase]
    cases r.2.1 <;> rfl
  simp only [monthSplits, hrun, List.dropWhile_map, List.takeWhile_map, hq, List.head?_map,
    Bool.and_eq_true, beq_iff_eq, List.all_eq_true, List.mem_map, forall_exists_index,
    and_imp] at h ⊢
  obtain ⟨h1, h2⟩ := h
  refine ⟨?_, ?_⟩
  · cases hd : ((monthRe.run none M).dropWhile (fun r => !r.2.1.isEmpty)).head? with
    | none => rw [hd] at h1; cases h1
    | some r =>
      rw [hd] at h1
      simp only [Option.map_some', Option.some.injEq, lowerMatch, Prod.mk.injEq] at h1
      obtain ⟨_, e2, e3⟩ := h1
      have hmem : r ∈ monthRe.run none M :=
        (List.dropWhile_sublist _).subset (List.mem_of_mem_head? hd)
      have happ := run_append _ _ _ _ hmem
      have r2 : r.2.1 = [] := toLowerCase_eq_nil e2
      have r3 : r.2.2 = [] := by simpa using e3
      rw [r2, List.append_nil] at happ
      obtain ⟨w, rest, caps⟩ := r
      simp only at r2 r3 happ
      rw [r2, r3, ← happ]
  · intro r hr
    have := h2 (lowerMatch r) r hr rfl
    simp only [lowerMatch, toLowerCase] at this
    cases hrest : r.2.1 with
    | nil => rw [hrest] at this; cases this
    | cons x xs =>
      rw [hrest] at this
      simp only [List.map_cons, List.head?_cons, isPlain_lowerChar] at this
      exact this

theorem replaceClass_toLowerCase {p : Char → Bool} (hp : ∀ c, p (lowerChar c) = p c)
    (s : Str) :
    replaceClass p [] (toLowerCase s) = toLowerCase (replaceClass p [] s) := by
  induction s with
  | nil => rfl
  | cons c cs ih =>
    have e : toLowerCase (c :: cs) = lowerChar c :: toLowerCase cs := rfl
    rw [e]
    simp only [replaceClass, List.flatMap_cons, hp c] at ih ⊢
    rw [ih]
    cases p c <;> rfl

theorem isCommaOrPeriod_lowerChar (c : Char) :
    isCommaOrPeriod (lowerChar c) = isCommaOrPeriod c := by
  simp only [isCommaOrPeriod, beq_lowerChar (by decide : isAlpha ',' = false),
    beq_lowerChar (by decide : isAlpha '.' = false)]

theorem replaceStr_period_toLowerCase (s : Str) :
    replaceStr ['.'] [] (toLowerCase s) = toLowerCase (replaceStr ['.'] [] s) := by
  induction s with
  | nil => rfl
  | cons c cs ih =>
    have e : toLowerCase (c :: cs) = lowerChar c :: toLowerCase cs := rfl
    rw [e]
    by_cases hc : c = '.'
    · subst hc
      rfl
    · have hl : lowerChar c ≠ '.' := fun h => hc ((lowerChar_eq_iff (by decide)).mp h)
      have h1 : ('.' = c) = False := by simp [Ne.symm hc]
      have h2 : ('.' = lowerChar c) = False := by simp [Ne.symm hl]
      simp only [replaceStr, stripPrefix?, h1, h2, if_false, ih]
      rfl

theorem head?_toLowerCase (s : Str) : (toLowerCase s).head? = s.head?.map lowerChar := by
  cases s <;> rfl

theorem contains_toLowerCase {k : Char} (hk : isAlpha k = false) (s : Str) :
    (toLowerCase s).contains k = s.contains k := by
  induction s with
  | nil => rfl
  | cons c cs ih =>
    have e : toLowerCase (c :: cs) = lowerChar c :: toLowerCase cs := rfl
    rw [e]
    simp only [List.contains_cons, ih]
    congr 1
    rw [Bool.eq_iff_iff, beq_iff_eq, beq_iff_eq]
    constructor
    · intro h
      exact ((lowerChar_eq_iff hk).mp h.symm).symm
    · intro h
      exact ((lowerChar_eq_iff hk).mpr h.symm).symm

theorem monthFacts_of_lower {M : Str} {n : Nat} (h : monthFacts (toLowerCase M, n) = true) :
    monthFacts (M, n) = true := by
  have hclean := replaceClass_toLowerCase isCommaOrPeriod_lowerChar M
  simp only [monthFacts, Bool.and_eq_true, hclean, head?_toLowerCase,
    contains_toLowerCase (by decide : isAlpha '-' = false),
    contains_toLowerCase (by decide : isAlpha '/' = false),
    replaceStr_period_toLowerCase, toLowerCase_idem] at h ⊢
  obtain ⟨⟨⟨⟨⟨⟨⟨⟨a1, a2⟩, a3⟩, a4⟩, a5⟩, a6⟩, a7⟩, a8⟩, a9⟩ := h
  refine ⟨⟨⟨⟨⟨⟨⟨⟨monthSplits_of_lower a1, monthSplits_of_lower a2⟩, ?_⟩, ?_⟩, a5⟩, a6⟩, a7⟩,
    a8⟩, a9⟩
  · cases hh : M.head? with
    | none => rw [hh] at a3; cases a3
    | some c =>
      rw [hh] at a3
      simpa [isPlain_lowerChar] using a3
  · cases hh : (replaceClass isCommaOrPeriod [] M).head? with
    | none => rw [hh] at a4; cases a4
    | some c =>
      rw [hh] at a4
      simpa [isPlain_lowerChar] using a4

set_option maxRecDepth 100000 in
theorem monthLower_facts : ∀ e ∈ monthLower, monthFacts e = true := by decide

theorem monthFacts_of_isMonthName {M : Str} {n : Nat} (h : IsMonthName M n) :
    monthFacts (M, n) = true :=
  monthFacts_of_lower (monthLower_facts _ h)

/-! ## Month and day ranges -/

theorem IsDigits.head_digit {lo hi : Nat} {w : Str} (h : IsDigits lo hi w) (rest : Str)
    (hlo : 1 ≤ lo) : ∀ c, (w ++ rest).head? = some c → isDigit c = true := by
  intro c hc
  cases w with
  | nil =>
    have := h.2.1
    simp only [List.length_nil] at this
    omega
  | cons x xs =>
    simp only [List.cons_append, List.head?_cons, Option.some.injEq] at hc
    subst hc
    exact h.1 _ (List.mem_cons_self _ _)

theorem run_rangeTailRe_head (prev : Option Char) {d1 d2 y : Str} (h1 : IsDigits 1 2 d1)
    (h2 : IsDigits 1 2 d2) (hy : IsDigits 4 4 y) :
    (rangeTailRe.run prev (' ' :: (d1 ++ '-' :: (d2 ++ ',' :: ' ' :: y)))).head? =
      some (' ' :: (d1 ++ '-' :: (d2 ++ ',' :: ' ' :: y)), [], [(2, d1), (3, d2), (4, y)]) := by
  have wsY : ∀ c, y.head? = some c → isWs c = false := by
    have := hy.head_not_ws [] (by decide)
    simpa using this
  have fF : ∀ p, ((Re.opt (Re.seqs [.opt (.chr ','), ws0, .group 4 (digitsRe 4 4)])).run p
      (',' :: ' ' :: y)).head? = some (',' :: ' ' :: y, [], [(4, y)]) := by
    intro p
    refine run_opt_head_some ?_ (List.cons_ne_nil _ _)
    exact run_seq_head (run_opt_head_some (run_chr_head ',' p _) (List.cons_ne_nil _ _))
      (run_seq_head (run_ws_space (Nat.zero_le _) _ wsY) (run_group_digits_end 4 _ hy))
  have fE : ∀ p, ((Re.opt (Re.seqs [ws0, .cls isRangeDash, ws0, .group 3 (digitsRe 1 2),
      .opt ordinalRe])).run p ('-' :: (d2 ++ ',' :: ' ' :: y))).head? =
      some ('-' :: d2, ',' :: ' ' :: y, [(3, d2)]) := by
    intro p
    refine run_opt_head_some ?_ (List.cons_ne_nil _ _)
    have e := run_seq_head (run_ws0_skip p (stop_cons _ (by decide : isWs '-' = false)))
      (run_seq_head (run_cls_head _ _ (by decide : isRangeDash '-' = true))
        (run_seq_head (run_ws0_skip _ (h2.head_not_ws _ (le_refl _)))
          (run_seq_head
            (run_group_digits_head 3 _ _ h2 (stop_cons _ (by decide : isDigit ',' = false)))
            (run_opt_ordinalRe_skip _ (' ' :: y) (by decide : ordinalRe.rejects ',' = true)))))
    simpa using e
  have e := run_seq_head (run_ws_space (Nat.zero_le _) prev (h1.head_not_ws _ (le_refl _)))
    (run_seq_head
      (run_group_digits_head 2 _ _ h1 (stop_cons _ (by decide : isDigit '-' = false)))
      (run_seq_head (run_opt_ordinalRe_skip _ (d2 ++ ',' :: ' ' :: y) (by decide : ordinalRe.rejects '-' = true))
        (run_seq_head (fE _) (fF _))))
  simpa using e

theorem run_m1TailRe_head (prev : Option Char) {d y : Str} (hd : IsDigits 1 2 d)
    (hy : IsDigits 4 4 y) :
    (m1TailRe.run prev (' ' :: (d ++ ' ' :: y))).head? =
      some (' ' :: (d ++ ' ' :: y), [], [(2, d), (3, y)]) := by
  have wsY : ∀ c, y.head? = some c → isWs c = false := by
    have := hy.head_not_ws [] (by decide)
    simpa using this
  have fY : ∀ p, ((Re.opt (.seq ws1 (.group 3 (digitsRe 4 4)))).run p (' ' :: y)).head? =
      some (' ' :: y, [], [(3, y)]) := by
    intro p
    refine run_opt_head_some ?_ (List.cons_ne_nil _ _)
    exact run_seq_head (run_ws_space (le_refl _) p wsY) (run_group_digits_end 3 _ hy)
  have fEnd : ∀ p, (Re.eol.run p []).head? = some ([], [], []) := fun _ => rfl
  have e := run_seq_head (run_ws_space (le_refl _) prev (hd.head_not_ws _ (le_refl _)))
    (run_seq_head
      (run_group_digits_head 2 _ _ hd (stop_cons _ (by decide : isDigit ' ' = false)))
      (run_seq_head (run_opt_ordinalRe_skip _ y (by decide : ordinalRe.rejects ' ' = true))
        (run_seq_head (fY _) (fEnd _))))
  simpa using e

theorem run_rangeTailRe_nil (prev : Option Char) (x : Char) (xs : Str)
    (hx : isPlain x = true) : rangeTailRe.run prev (x :: xs) = [] := by
  simp only [isPlain, Bool.and_eq_true, Bool.not_eq_true'] at hx
  refine run_seq_single (run_many_zero_of_not none prev xs hx.1) ?_
  exact run_seq_nil (run_group_nil (run_many_nil_of_not _ _ xs hx.2 (le_refl _)))

theorem run_m1TailRe_nil (prev : Option Char) (x : Char) (xs : Str)
    (hx : isPlain x = true) : m1TailRe.run prev (x :: xs) = [] := by
  simp only [isPlain, Bool.and_eq_true, Bool.not_eq_true'] at hx
  exact run_seq_nil (run_many_nil_of_not _ _ xs hx.1 (le_refl _))

theorem replaceClass_append (p : Char → Bool) (r a b : Str) :
    replaceClass p r (a ++ b) = replaceClass p r a ++ replaceClass p r b := by
  simp only [replaceClass, List.flatMap_append]

theorem replaceClass_of_not {p : Char → Bool} (r : Str) {w : Str}
    (h : ∀ c ∈ w, p c = false) : replaceClass p r w = w := by
  induction w with
  | nil => rfl
  | cons x xs ih =>
    have hx := h x (List.mem_cons_self _ _)
    have := ih (fun c hc => h c (List.mem_cons_of_mem _ hc))
    simp only [replaceClass, List.flatMap_cons, hx] at this ⊢
    rw [this]
    rfl

theorem isDigit_props {c : Char} (h : isDigit c = true) :
    isCommaOrPeriod c = false ∧ c ≠ '-' ∧ c ≠ '/' := by
  refine ⟨?_, ?_, ?_⟩
  · by_contra hc
    simp only [isCommaOrPeriod, Bool.not_eq_false, Bool.or_eq_true, beq_iff_eq] at hc
    rcases hc with rfl | rfl <;> exact absurd h (by decide)
  · rintro rfl
    exact absurd h (by decide)
  · rintro rfl
    exact absurd h (by decide)

theorem head?_append_of_head? {w : Str} {c : Char} (rest : Str) (h : w.head? = some c) :
    (w ++ rest).head? = some c := by
  cases w with
  | nil => cases h
  | cons x xs => exact h

theorem isPlain_not_isWs {c : Char} (h : isPlain c = true) : isWs c = false := by
  simp only [isPlain, Bool.and_eq_true, Bool.not_eq_true'] at h
  exact h.1

theorem run_bol_head (s : Str) : (Re.bol.run none s).head? = some ([], s, []) := rfl

/-- The date token parser on `MonthName d, YYYY`. -/
theorem normalizeDateFromMatch_month_day (cy : Nat) {M : Str} {n : Nat} (he : IsMonthName M n)
    {d y : Str} (hd : IsDigits 1 2 d) (hy : IsDigits 4 4 y) :
    normalizeDateFromMatch cy (M ++ ' ' :: (d ++ ',' :: ' ' :: y)) =
      some (y ++ '-' :: (padStart 2 '0' (toDecimal n) ++ '-' :: padStart 2 '0' d)) := by
  have hf := monthFacts_of_isMonthName he
  simp only [monthFacts, Bool.and_eq_true, Bool.not_eq_true', bne_iff_ne, ne_eq,
    decide_eq_true_eq, beq_iff_eq] at hf
  obtain ⟨⟨⟨⟨⟨⟨⟨⟨_, hsplit⟩, hhead⟩, hhead'⟩, hdash⟩, hslash⟩, hnum⟩, hnz⟩, _⟩ := hf
  have hdash' : '-' ∉ M := by simpa using hdash
  have hslash' : '/' ∉ M := by simpa using hslash
  -- the raw text is already trimmed
  have htrim : trim (M ++ ' ' :: (d ++ ',' :: ' ' :: y)) =
      M ++ ' ' :: (d ++ ',' :: ' ' :: y) := by
    refine trim_eq_self ?_ ?_
    · intro c hc
      cases h0 : M.head? with
      | none => rw [h0] at hhead; cases hhead
      | some x =>
        rw [h0] at hhead
        rw [head?_append_of_head? _ h0] at hc
        cases hc
        exact isPlain_not_isWs hhead
    · have := hy.last_not_ws (M ++ ' ' :: (d ++ [',', ' '])) (by decide)
      simpa using this
  -- no ISO date and no slash date in it
  have hmemraw : ∀ c ∈ M ++ ' ' :: (d ++ ',' :: ' ' :: y), c ≠ '-' ∧ c ≠ '/' := by
    intro c hc
    simp only [List.mem_append, List.mem_cons] at hc
    rcases hc with hc | rfl | hc | rfl | rfl | hc
    · exact ⟨fun h => hdash' (h ▸ hc), fun h => hslash' (h ▸ hc)⟩
    · exact ⟨by decide, by decide⟩
    · exact (isDigit_props (hd.1 c hc)).2
    · exact ⟨by decide, by decide⟩
    · exact ⟨by decide, by decide⟩
    · exact (isDigit_props (hy.1 c hc)).2
  have hiso : search isoRe (M ++ ' ' :: (d ++ ',' :: ' ' :: y)) = none := by
    cases h : search isoRe (M ++ ' ' :: (d ++ ',' :: ' ' :: y)) with
    | none => rfl
    | some iso =>
      obtain ⟨e1, hmem⟩ := searchFrom_some isoRe _ _ _ h
      have hin : '-' ∈ iso.matched := mem_of_isCanonicalDate (mem_run_isoRe hmem).1
      have : '-' ∈ M ++ ' ' :: (d ++ ',' :: ' ' :: y) := by
        rw [e1]
        exact List.mem_append_right _ (List.mem_append_left _ hin)
      exact absurd rfl (hmemraw _ this).1
  have hmd : search mdRe (M ++ ' ' :: (d ++ ',' :: ' ' :: y)) = none := by
    cases h : search mdRe (M ++ ' ' :: (d ++ ',' :: ' ' :: y)) with
    | none => rfl
    | some md =>
      obtain ⟨e1, hmem⟩ := searchFrom_some mdRe _ _ _ h
      obtain ⟨m', d', y', hw, _⟩ := mem_run_mdRe hmem
      simp only at hw
      have hin : '/' ∈ md.matched := by
        rw [hw]
        simp
      have : '/' ∈ M ++ ' ' :: (d ++ ',' :: ' ' :: y) := by
        rw [e1]
        exact List.mem_append_right _ (List.mem_append_left _ hin)
      exact absurd rfl (hmemraw _ this).2
  -- commas and periods are removed
  have hclean : replaceClass isCommaOrPeriod [] (M ++ ' ' :: (d ++ ',' :: ' ' :: y)) =
      replaceClass isCommaOrPeriod [] M ++ ' ' :: (d ++ ' ' :: y) := by
    have hd' : replaceClass isCommaOrPeriod [] d = d :=
      replaceClass_of_not [] (fun c hc => (isDigit_props (hd.1 c hc)).1)
    have hy' : replaceClass isCommaOrPeriod [] y = y :=
      replaceClass_of_not [] (fun c hc => (isDigit_props (hy.1 c hc)).1)
    have e1 : ∀ t, replaceClass isCommaOrPeriod [] (' ' :: t) =
        ' ' :: replaceClass isCommaOrPeriod [] t := fun t => rfl
    have e2 : ∀ t, replaceClass isCommaOrPeriod [] (',' :: t) =
        replaceClass isCommaOrPeriod [] t := fun t => rfl
    rw [replaceClass_append, e1, replaceClass_append, e2, e1, hd', hy']
  have htrim2 : trim (replaceClass isCommaOrPeriod [] M ++ ' ' :: (d ++ ' ' :: y)) =
      replaceClass isCommaOrPeriod [] M ++ ' ' :: (d ++ ' ' :: y) := by
    refine trim_eq_self ?_ ?_
    · intro c hc
      cases h0 : (replaceClass isCommaOrPeriod [] M).head? with
      | none => rw [h0] at hhead'; cases hhead'
      | some x =>
        rw [h0] at hhead'
        rw [head?_append_of_head? _ h0] at hc
        cases hc
        exact isPlain_not_isWs hhead'
    · have := hy.last_not_ws (replaceClass isCommaOrPeriod [] M ++ ' ' :: (d ++ [' ']))
        (by decide)
      simpa using this
  -- the month-first pattern matches all of it
  have hm1 : search m1Re (replaceClass isCommaOrPeriod [] M ++ ' ' :: (d ++ ' ' :: y)) =
      some ⟨[], replaceClass isCommaOrPeriod [] M ++ ' ' :: (d ++ ' ' :: y), [],
        [(1, replaceClass isCommaOrPeriod [] M), (2, d), (3, y)]⟩ := by
    have hrun := run_month_seq_head 1 m1TailRe hsplit (d ++ ' ' :: y) run_m1TailRe_nil
      (run_m1TailRe_head _ hd hy)
    have hfull : (m1Re.run none
        (replaceClass isCommaOrPeriod [] M ++ ' ' :: (d ++ ' ' :: y))).head? = _ :=
      run_seq_head (run_bol_head _) hrun
    exact search_of_head hfull
  have hylen : y.length = 4 := le_antisymm hy.2.2 hy.2.1
  have hyne : y.isEmpty = false := by
    cases y with
    | nil => simp at hylen
    | cons _ _ => rfl
  have hpad : padStart 4 '0' y = y := by simp [padStart, hylen]
  unfold normalizeDateFromMatch
  simp only [htrim, hiso, hmd, hclean, htrim2, hm1, Match.cap, List.lookup, jsString]
  simp [formatMonthDate, hnum, hnz, hyne, hpad]

theorem search_rangeSimpleRe_rangeLine {M : Str} {n : Nat} (he : IsMonthName M n)
    {d1 d2 y : Str}
    (h1 : IsDigits 1 2 d1) (h2 : IsDigits 1 2 d2) (hy : IsDigits 4 4 y) :
    search rangeSimpleRe (rangeLine M d1 d2 y) =
      some ⟨[], rangeLine M d1 d2 y, [], [(1, M), (2, d1), (3, d2), (4, y)]⟩ := by
  have hf := monthFacts_of_isMonthName he
  simp only [monthFacts, Bool.and_eq_true] at hf
  have hsplit := hf.1.1.1.1.1.1.1.1
  have hrun := run_month_seq_head 1 rangeTailRe hsplit (d1 ++ '-' :: (d2 ++ ',' :: ' ' :: y))
    run_rangeTailRe_nil (run_rangeTailRe_head _ h1 h2 hy)
  have hfull : (rangeSimpleRe.run none (rangeLine M d1 d2 y)).head? = _ := hrun
  exact search_of_head hfull

/-! ## Day-first lines -/

theorem forall_isDigit {P : Char → Prop} (h : ∀ n, 48 ≤ n → n ≤ 57 → P (Char.ofNat n))
    (c : Char) (hc : isDigit c = true) : P c := by
  simp only [isDigit, Bool.and_eq_true, decide_eq_true_eq] at hc
  have := h c.toNat hc.1 hc.2
  rwa [Char.ofNat_toNat] at this

/-- No month name starts with a digit. -/
theorem run_monthRe_digit (prev : Option Char) {c : Char} (rest : Str)
    (hc : isDigit c = true) : monthRe.run prev (c :: rest) = [] := by
  refine @forall_isDigit (fun c => monthRe.run prev (c :: rest) = []) ?_ c hc
  intro n h1 h2
  interval_cases n <;> rfl

theorem run_rangeSimpleRe_nil {prev : Option Char} {s : Str} (h : monthRe.run prev s = []) :
    rangeSimpleRe.run prev s = [] :=
  run_seq_nil (run_group_nil h)

/-- The search moves past a text at none of whose positions the pattern matches. -/
theorem searchFrom_skip_all (re : Re) {p : Char → Bool}
    (hp : ∀ (prev : Option Char) (c : Char) (cs : Str), p c = true → re.run prev (c :: cs) = []) :
    ∀ (w : Str), (∀ c ∈ w, p c = true) → ∀ (prev : Option Char) (rest : Str),
      searchFrom re prev (w ++ rest) =
        (searchFrom re (lastChar prev w) rest).map (fun m => { m with pre := w ++ m.pre }) := by
  intro w
  induction w with
  | nil =>
    intro _ prev rest
    cases h : searchFrom re prev rest <;> simp [lastChar, h]
  | cons x xs ih =>
    intro hw prev rest
    have hx := hw x (List.mem_cons_self _ _)
    rw [List.cons_append, searchFrom_skip re prev x _ (hp prev x _ hx),
      ih (fun c hc => hw c (List.mem_cons_of_mem _ hc)), lastChar_cons, Option.map_map]
    rfl

/-- A pattern without repetitions and assertions does not look at the character
before the text. -/
theorem run_prev_of_rejects (c : Char) : ∀ (re : Re), re.rejects c = true →
    ∀ (p q : Option Char) (s : Str), re.run p s = re.run q s := by
  intro re
  induction re with
  | cls f => intro _ p q s; rfl
  | eps => intro _ p q s; rfl
  | seq a b iha ihb =>
    intro h p q s
    simp only [Re.rejects, Bool.and_eq_true] at h
    rw [run_seq_eq, run_seq_eq, iha h.1 p q]
    refine List.flatMap_congr ?_
    intro r _
    rw [ihb h.2 (lastChar p r.1) (lastChar q r.1)]
  | alt a b iha ihb =>
    intro h p q s
    simp only [Re.rejects, Bool.and_eq_true] at h
    simp only [Re.run, iha h.1 p q, ihb h.2 p q]
  | opt a iha =>
    intro h p q s
    simp only [Re.rejects] at h
    simp only [Re.run, iha h p q]
  | group n a iha =>
    intro h p q s
    simp only [Re.rejects] at h
    simp only [Re.run, iha h p q]
  | many f lo hi => intro h; cases h
  | bol => intro h; cases h
  | eol => intro h; cases h
  | wordB => intro h; cases h

/-- The lemma `run_month_seq_head` at any position of a text. -/
theorem run_month_seq_head_at (prev : Option Char) (n : Nat) (k : Re) {M : Str}
    (hM : monthSplits M = true) (t : Str) {w rest : Str} {c : Caps}
    (hfail : ∀ (p : Option Char) (x : Char) (xs : Str), isPlain x = true →
      k.run p (x :: xs) = [])
    (hk : (k.run (lastChar prev M) (' ' :: t)).head? = some (w, rest, c)) :
    ((Re.seq (.group n monthRe) k).run prev (M ++ ' ' :: t)).head? =
      some (M ++ w, rest, (n, M) :: c) := by
  simp only [monthSplits, Bool.and_eq_true, beq_iff_eq, List.all_eq_true] at hM
  obtain ⟨hhead, hall⟩ := hM
  have hsplit := (List.takeWhile_append_dropWhile (fun r : Str × Str × Caps => !r.2.1.isEmpty)
    (monthRe.run none M)).symm
  cases hd : (monthRe.run none M).dropWhile (fun r => !r.2.1.isEmpty) with
  | nil => rw [hd] at hhead; cases hhead
  | cons r rs =>
    rw [hd] at hhead hsplit
    simp only [List.head?_cons, Option.some.injEq] at hhead
    subst hhead
    have hrej : monthRe.rejects ' ' = true := by decide
    rw [run_seq_eq, run_group_eq, run_rejects ' ' t monthRe hrej prev M,
      run_prev_of_rejects ' ' monthRe hrej prev none M, hsplit]
    simp only [List.map_append, List.map_cons, List.map_map]
    refine head?_flatMap_append _ _ _ _ _ ?_ ?_
    · intro a ha
      obtain ⟨r, hr, rfl⟩ := List.mem_map.mp ha
      have hp := hall r hr
      cases hrest : r.2.1 with
      | nil => rw [hrest] at hp; cases hp
      | cons x xs =>
        rw [hrest] at hp
        simp only [List.head?_cons] at hp
        simp only [Function.comp_apply, hrest, List.cons_append, hfail _ x _ hp, List.map_nil]
    · simp only [Function.comp_apply, List.nil_append, List.head?_map, hk, Option.map_some']
      rfl

/-- The search for a month moves past an ordinal suffix and the space after it. -/
theorem searchFrom_ordinal_skip {suf : Str} (hs : suf ∈ ordinalSuffixes) (prev : Option Char)
    (rest : Str) :
    searchFrom rangeSimpleRe prev (suf ++ ' ' :: rest) =
      (searchFrom rangeSimpleRe (some ' ') rest).map
        (fun m => { m with pre := suf ++ ' ' :: m.pre }) := by
  have two : ∀ a b : Char,
      (∀ p t, monthRe.run p (a :: b :: t) = []) →
      (∀ p t, monthRe.run p (b :: ' ' :: t) = []) →
      searchFrom rangeSimpleRe prev ([a, b] ++ ' ' :: rest) =
        (searchFrom rangeSimpleRe (some ' ') rest).map
          (fun m => { m with pre := [a, b] ++ ' ' :: m.pre }) := by
    intro a b h1 h2
    rw [List.cons_append, List.cons_append, List.nil_append,
      searchFrom_skip _ _ _ _ (run_rangeSimpleRe_nil (h1 _ _)),
      searchFrom_skip _ _ _ _ (run_rangeSimpleRe_nil (h2 _ _)),
      searchFrom_skip _ _ _ _ (run_rangeSimpleRe_nil (rfl : monthRe.run _ (' ' :: rest) = [])),
      Option.map_map, Option.map_map]
    rfl
  simp only [ordinalSuffixes, List.mem_cons, List.mem_singleton, List.not_mem_nil,
    or_false] at hs
  rcases hs with rfl | rfl | rfl | rfl | rfl
  · rw [List.nil_append,
      searchFrom_skip _ _ _ _ (run_rangeSimpleRe_nil (rfl : monthRe.run _ (' ' :: rest) = []))]
    rfl
  · exact two 's' 't' (fun _ _ => rfl) (fun _ _ => rfl)
  · exact two 'n' 'd' (fun _ _ => rfl) (fun _ _ => rfl)
  · exact two 'r' 'd' (fun _ _ => rfl) (fun _ _ => rfl)
  · exact two 't' 'h' (fun _ _ => rfl) (fun _ _ => rfl)

theorem isDigit_not_dash {c : Char} (hc : isDigit c = true) :
    isRangeDash c = false ∧ ordinalRe.rejects c = true ∧ (c == ',') = false := by
  refine @forall_isDigit
    (fun c => isRangeDash c = false ∧ ordinalRe.rejects c = true ∧ (c == ',') = false) ?_ c hc
  intro n h1 h2
  interval_cases n <;> decide

theorem run_cls_nil {p : Char → Bool} (prev : Option Char) {x : Char} (xs : Str)
    (hx : p x = false) : (Re.cls p).run prev (x :: xs) = [] := by
  simp [Re.run, hx]

theorem IsDigits.four {y : Str} (hy : IsDigits 4 4 y) :
    ∃ a b c e, y = [a, b, c, e] ∧ isDigit a = true ∧ isDigit b = true ∧ isDigit c = true ∧
      isDigit e = true := by
  obtain ⟨hall, h1, h2⟩ := hy
  match y, hall, h1, h2 with
  | [a, b, c, e], hall, _, _ =>
    exact ⟨a, b, c, e, rfl, hall a (by simp), hall b (by simp), hall c (by simp),
      hall e (by simp)⟩
  | [], _, h1, _ => simp at h1
  | [_], _, h1, _ => simp at h1
  | [_, _], _, h1, _ => simp at h1
  | [_, _, _], _, h1, _ => simp at h1
  | _ :: _ :: _ :: _ :: _ :: _, _, _, h2 => simp at h2

/-- After a month and a space, the pattern of `rangeSimple` reads the first two
digits of a four-digit year as the day and leaves the other two. -/
theorem run_rangeTailRe_year (prev : Option Char) {a b c e : Char} (ha : isDigit a = true)
    (hb : isDigit b = true) (hc : isDigit c = true) :
    (rangeTailRe.run prev (' ' :: [a, b, c, e])).head? =
      some (' ' :: [a, b], [c, e], [(2, [a, b])]) := by
  have hab : IsDigits 1 2 [a, b] := by
    refine ⟨?_, by simp, by simp⟩
    intro x hx
    simp only [List.mem_cons, List.mem_singleton, List.not_mem_nil, or_false] at hx
    rcases hx with rfl | rfl <;> assumption
  have hcw := isDigit_not_isWs hc
  obtain ⟨hdash, hord, hcomma⟩ := isDigit_not_dash hc
  have fD : ∀ p, ((Re.group 2 (digitsRe 1 2)).run p ([a, b] ++ [c, e])).head? =
      some ([a, b], [c, e], [(2, [a, b])]) :=
    fun p => run_group_head (run_digitsRe_head p _ hab (Or.inr rfl))
  have fE : ∀ p, ((Re.opt (Re.seqs [ws0, .cls isRangeDash, ws0, .group 3 (digitsRe 1 2),
      .opt ordinalRe])).run p [c, e]).head? = some ([], [c, e], []) := by
    intro p
    refine run_opt_head_none ?_
    exact run_seq_single (run_many_zero_of_not none p [e] hcw)
      (run_seq_nil (run_cls_nil _ [e] hdash))
  have fF : ∀ p, ((Re.opt (Re.seqs [.opt (.chr ','), ws0, .group 4 (digitsRe 4 4)])).run p
      [c, e]).head? = some ([], [c, e], []) := by
    intro p
    refine run_opt_head_none ?_
    have h1 : (Re.opt (Re.chr ',')).run p [c, e] = [([], [c, e], [])] := by
      simp [Re.run, Re.chr, hcomma]
    refine run_seq_single h1 (run_seq_single (run_many_zero_of_not none _ [e] hcw) ?_)
    refine run_group_nil ?_
    simp [digitsRe, Re.run, manyRun]
  have e := run_seq_head (run_ws_space (Nat.zero_le _) prev
      (stop_cons [b, c, e] (isDigit_not_isWs ha)))
    (run_seq_head (fD _)
      (run_seq_head (run_opt_ordinalRe_skip _ [e] hord) (run_seq_head (fE _) (fF _))))
  simpa using e

/-- On a day-first line the pattern of `rangeSimple` matches at the month, and
takes the first two digits of the year for the day. -/
theorem search_rangeSimpleRe_dayFirstLine {M : Str} {n : Nat} (he : IsMonthName M n)
    {d suf : Str} (hd : IsDigits 1 2 d) (hs : suf ∈ ordinalSuffixes) {a b c e : Char}
    (ha : isDigit a = true) (hb : isDigit b = true) (hc : isDigit c = true) :
    search rangeSimpleRe (dayFirstLine d suf M [a, b, c, e]) =
      some ⟨d ++ (suf ++ [' ']), M ++ ' ' :: [a, b], [c, e], [(1, M), (2, [a, b])]⟩ := by
  have hf := monthFacts_of_isMonthName he
  simp only [monthFacts, Bool.and_eq_true] at hf
  have hsplit := hf.1.1.1.1.1.1.1.1
  have hrun : (rangeSimpleRe.run (some ' ') (M ++ ' ' :: [a, b, c, e])).head? = _ :=
    run_month_seq_head_at (some ' ') 1 rangeTailRe hsplit [a, b, c, e] run_rangeTailRe_nil
      (run_rangeTailRe_year _ ha hb hc)
  have hskip := searchFrom_skip_all rangeSimpleRe
    (fun prev c cs h => run_rangeSimpleRe_nil (run_monthRe_digit prev cs h)) d hd.1 none
    (suf ++ ' ' :: (M ++ ' ' :: [a, b, c, e]))
  unfold search dayFirstLine
  rw [hskip, searchFrom_ordinal_skip hs, searchFrom_head _ _ _ _ hrun]
  simp

/-- What the proofs use about an ordinal suffix: it has no punctuation, the optional
ordinal pattern takes all of it, and it does not go on with a digit. -/
theorem ordinalSuffixes_facts {suf : Str} (hs : suf ∈ ordinalSuffixes) :
    (∀ c ∈ suf, isCommaOrPeriod c = false ∧ c ≠ '-' ∧ c ≠ '/') ∧
    (∀ (p : Option Char) (rest : Str),
      ((Re.opt ordinalRe).run p (suf ++ ' ' :: rest)).head? = some (suf, ' ' :: rest, [])) ∧
    (∀ (rest : Str) (c : Char), (suf ++ ' ' :: rest).head? = some c → isDigit c = false) := by
  simp only [ordinalSuffixes, List.mem_cons, List.mem_singleton, List.not_mem_nil,
    or_false] at hs
  rcases hs with rfl | rfl | rfl | rfl | rfl <;>
  · refine ⟨by decide, fun p rest => rfl, ?_⟩
    intro rest c h
    cases h
    decide

/-- A pattern that starts with `^` matches nowhere after the start of the input. -/
theorem searchFrom_bol_none (k : Re) : ∀ (s : Str) (c : Char),
    searchFrom (Re.seq .bol k) (some c) s = none := by
  intro s
  induction s with
  | nil => intro c; rfl
  | cons x xs ih =>
    intro c
    have h : (Re.seq Re.bol k).run (some c) (x :: xs) = [] := run_seq_nil rfl
    rw [searchFrom_skip _ _ _ _ h, ih x]
    rfl

theorem run_m2TailRe_head (prev : Option Char) {y : Str} (hy : IsDigits 4 4 y) :
    (m2TailRe.run prev (' ' :: y)).head? = some (' ' :: y, [], [(3, y)]) := by
  have wsY : ∀ c, y.head? = some c → isWs c = false := by
    have := hy.head_not_ws [] (by decide)
    simpa using this
  have fY : ∀ p, ((Re.opt (.seq ws1 (.group 3 (digitsRe 4 4)))).run p (' ' :: y)).head? =
      some (' ' :: y, [], [(3, y)]) := by
    intro p
    refine run_opt_head_some ?_ (List.cons_ne_nil _ _)
    exact run_seq_head (run_ws_space (le_refl _) p wsY) (run_group_digits_end 3 _ hy)
  have fEnd : ∀ p, (Re.eol.run p []).head? = some ([], [], []) := fun _ => rfl
  have e := run_seq_head (fY prev) (fEnd _)
  simpa [m2TailRe] using e

theorem run_m2TailRe_nil (prev : Option Char) (x : Char) (xs : Str)
    (hx : isPlain x = true) : m2TailRe.run prev (x :: xs) = [] := by
  simp only [isPlain, Bool.and_eq_true, Bool.not_eq_true'] at hx
  have h0 : (Re.seq ws1 (.group 3 (digitsRe 4 4))).run prev (x :: xs) = [] :=
    run_seq_nil (run_many_nil_of_not _ _ xs hx.1 (le_refl _))
  have h1 : (Re.opt (.seq ws1 (.group 3 (digitsRe 4 4)))).run prev (x :: xs) =
      [([], x :: xs, [])] := by
    have e : (Re.opt (.seq ws1 (.group 3 (digitsRe 4 4)))).run prev (x :: xs) =
        ((Re.seq ws1 (.group 3 (digitsRe 4 4))).run prev (x :: xs)).filter
          (fun r => !r.1.isEmpty) ++ [([], x :: xs, [])] := by
      simp only [Re.run]
    rw [e, h0]
    rfl
  exact run_seq_single h1 rfl

/-- The date token parser on `D MonthName YYYY`. -/
theorem normalizeDateFromMatch_day_month (cy : Nat) {M : Str} {n : Nat} (he : IsMonthName M n)
    {d suf y : Str} (hd : IsDigits 1 2 d) (hs : suf ∈ ordinalSuffixes) (hy : IsDigits 4 4 y) :
    normalizeDateFromMatch cy (dayFirstLine d suf M y) =
      some (y ++ '-' :: (padStart 2 '0' (toDecimal n) ++ '-' :: padStart 2 '0' d)) := by
  have hf := monthFacts_of_isMonthName he
  simp only [monthFacts, Bool.and_eq_true, Bool.not_eq_true', bne_iff_ne, ne_eq,
    decide_eq_true_eq, beq_iff_eq] at hf
  obtain ⟨⟨⟨⟨⟨⟨⟨⟨_, hsplit⟩, hhead⟩, hhead'⟩, hdash⟩, hslash⟩, hnum⟩, hnz⟩, _⟩ := hf
  have hdash' : '-' ∉ M := by simpa using hdash
  have hslash' : '/' ∉ M := by simpa using hslash
  obtain ⟨hsuf, hord, hstop⟩ := ordinalSuffixes_facts hs
  unfold dayFirstLine
  -- the raw text is already trimmed
  have htrim : trim (d ++ (suf ++ ' ' :: (M ++ ' ' :: y))) =
      d ++ (suf ++ ' ' :: (M ++ ' ' :: y)) := by
    refine trim_eq_self (hd.head_not_ws _ (le_refl _)) ?_
    have := hy.last_not_ws (d ++ (suf ++ ' ' :: (M ++ [' ']))) (by decide)
    simpa using this
  -- no ISO date and no slash date in it
  have hmemraw : ∀ c ∈ d ++ (suf ++ ' ' :: (M ++ ' ' :: y)), c ≠ '-' ∧ c ≠ '/' := by
    intro c hc
    simp only [List.mem_append, List.mem_cons] at hc
    rcases hc with hc | hc | rfl | hc | rfl | hc
    · exact (isDigit_props (hd.1 c hc)).2
    · exact (hsuf c hc).2
    · exact ⟨by decide, by decide⟩
    · exact ⟨fun h => hdash' (h ▸ hc), fun h => hslash' (h ▸ hc)⟩
    · exact ⟨by decide, by decide⟩
    · exact (isDigit_props (hy.1 c hc)).2
  have hiso : search isoRe (d ++ (suf ++ ' ' :: (M ++ ' ' :: y))) = none := by
    cases h : search isoRe (d ++ (suf ++ ' ' :: (M ++ ' ' :: y))) with
    | none => rfl
    | some iso =>
      obtain ⟨e1, hmem⟩ := searchFrom_some isoRe _ _ _ h
      have hin : '-' ∈ iso.matched := mem_of_isCanonicalDate (mem_run_isoRe hmem).1
      have : '-' ∈ d ++ (suf ++ ' ' :: (M ++ ' ' :: y)) := by
        rw [e1]
        exact List.mem_append_right _ (List.mem_append_left _ hin)
      exact absurd rfl (hmemraw _ this).1
  have hmd : search mdRe (d ++ (suf ++ ' ' :: (M ++ ' ' :: y))) = none := by
    cases h : search mdRe (d ++ (suf ++ ' ' :: (M ++ ' ' :: y))) with
    | none => rfl
    | some md =>
      obtain ⟨e1, hmem⟩ := searchFrom_some mdRe _ _ _ h
      obtain ⟨m', d', y', hw, _⟩ := mem_run_mdRe hmem
      simp only at hw
      have hin : '/' ∈ md.matched := by
        rw [hw]
        simp
      have : '/' ∈ d ++ (suf ++ ' ' :: (M ++ ' ' :: y)) := by
        rw [e1]
        exact List.mem_append_right _ (List.mem_append_left _ hin)
      exact absurd rfl (hmemraw _ this).2
  -- commas and periods are removed
  have hclean : replaceClass isCommaOrPeriod [] (d ++ (suf ++ ' ' :: (M ++ ' ' :: y))) =
      d ++ (suf ++ ' ' :: (replaceClass isCommaOrPeriod [] M ++ ' ' :: y)) := by
    have hd' : replaceClass isCommaOrPeriod [] d = d :=
      replaceClass_of_not [] (fun c hc => (isDigit_props (hd.1 c hc)).1)
    have hs' : replaceClass isCommaOrPeriod [] suf = suf :=
      replaceClass_of_not [] (fun c hc => (hsuf c hc).1)
    have hy' : replaceClass isCommaOrPeriod [] y = y :=
      replaceClass_of_not [] (fun c hc => (isDigit_props (hy.1 c hc)).1)
    have e1 : ∀ t, replaceClass isCommaOrPeriod [] (' ' :: t) =
        ' ' :: replaceClass isCommaOrPeriod [] t := fun t => rfl
    rw [replaceClass_append, replaceClass_append, e1, replaceClass_append, e1, hd', hs', hy']
  have htrim2 : trim (d ++ (suf ++ ' ' :: (replaceClass isCommaOrPeriod [] M ++ ' ' :: y))) =
      d ++ (suf ++ ' ' :: (replaceClass isCommaOrPeriod [] M ++ ' ' :: y)) := by
    refine trim_eq_self (hd.head_not_ws _ (le_refl _)) ?_
    have := hy.last_not_ws (d ++ (suf ++ ' ' :: (replaceClass isCommaOrPeriod [] M ++ [' '])))
      (by decide)
    simpa using this
  -- the month-first pattern matches nowhere
  have hm1 : search m1Re (d ++ (suf ++ ' ' :: (replaceClass isCommaOrPeriod [] M ++ ' ' :: y)))
      = none := by
    cases hd0 : d with
    | nil =>
      have := hd.2.1
      rw [hd0] at this
      simp at this
    | cons x xs =>
      have hx : isDigit x = true := hd.1 x (by rw [hd0]; exact List.mem_cons_self _ _)
      have hnil : m1Re.run none (x :: (xs ++ (suf ++ ' ' ::
          (replaceClass isCommaOrPeriod [] M ++ ' ' :: y)))) = [] := by
        refine run_seq_single (rfl : Re.bol.run none _ = [([], _, [])]) ?_
        exact run_seq_nil (run_group_nil (run_monthRe_digit _ _ hx))
      unfold search
      rw [List.cons_append, searchFrom_skip _ _ _ _ hnil]
      have hb : ∀ (s : Str) (c : Char), searchFrom m1Re (some c) s = none :=
        fun s c => searchFrom_bol_none (Re.seq (.group 1 monthRe) m1TailRe) s c
      rw [hb]
      rfl
  -- the day-first pattern matches all of it
  have hm2 : search m2Re (d ++ (suf ++ ' ' :: (replaceClass isCommaOrPeriod [] M ++ ' ' :: y)))
      = some ⟨[], d ++ (suf ++ ' ' :: (replaceClass isCommaOrPeriod [] M ++ ' ' :: y)), [],
        [(1, d), (2, replaceClass isCommaOrPeriod [] M), (3, y)]⟩ := by
    have hMws : ∀ c, (replaceClass isCommaOrPeriod [] M ++ ' ' :: y).head? = some c →
        isWs c = false := by
      intro c hc
      cases h0 : (replaceClass isCommaOrPeriod [] M).head? with
      | none => rw [h0] at hhead'; cases hhead'
      | some x =>
        rw [h0] at hhead'
        rw [head?_append_of_head? _ h0] at hc
        cases hc
        exact isPlain_not_isWs hhead'
    have hmonth : ∀ p, ((Re.seq (.group 2 monthRe) m2TailRe).run p
        (replaceClass isCommaOrPeriod [] M ++ ' ' :: y)).head? =
        some (replaceClass isCommaOrPeriod [] M ++ ' ' :: y, [],
          [(2, replaceClass isCommaOrPeriod [] M), (3, y)]) :=
      fun p => run_month_seq_head_at p 2 m2TailRe hsplit y run_m2TailRe_nil
        (run_m2TailRe_head _ hy)
    have e := run_seq_head (run_bol_head _)
      (run_seq_head (run_group_digits_head 1 _ _ hd (hstop _))
        (run_seq_head (hord _ _)
          (run_seq_head (run_ws_space (le_refl _) _ hMws) (hmonth _))))
    have hfull : (m2Re.run none
        (d ++ (suf ++ ' ' :: (replaceClass isCommaOrPeriod [] M ++ ' ' :: y)))).head? =
        some (d ++ (suf ++ ' ' :: (replaceClass isCommaOrPeriod [] M ++ ' ' :: y)), [],
          [(1, d), (2, replaceClass isCommaOrPeriod [] M), (3, y)]) := by
      simpa using e
    exact search_of_head hfull
  have hylen : y.length = 4 := le_antisymm hy.2.2 hy.2.1
  have hyne : y.isEmpty = false := by
    cases y with
    | nil => simp at hylen
    | cons _ _ => rfl
  have hpad : padStart 4 '0' y = y := by simp [padStart, hylen]
  unfold normalizeDateFromMatch
  simp only [htrim, hiso, hmd, hclean, htrim2, hm1, hm2, Match.cap, List.lookup, jsString]
  simp [formatMonthDate, hnum, hnz, hyne, hpad]

/-! ## What the date token parser returns -/

/-- With a four-digit current year, `normalizeDateFromMatch` returns `null` or a text
of the canonical shape (four digits, hyphen, two digits, hyphen, two digits); and
it returns `null` for every input that has no ISO date and no slash date in it and
that, once trimmed and rid of ALL its commas and periods, has neither of the two
month-name shapes. -/
theorem normalizeDateFromMatch_shape (cy : Nat) (h1 : 1000 ≤ cy) (h2 : cy ≤ 9999)
    (raw : Str) :
    (∀ d, normalizeDateFromMatch cy raw = some d → isCanonicalDate d = true) ∧
    (¬ HasIsoDate raw → ¬ HasSlashDate raw → ¬ IsMonthDay (cleanDateText raw) →
      ¬ IsDayMonth (cleanDateText raw) → normalizeDateFromMatch cy raw = none) := by
  obtain ⟨ta, tb, htrim⟩ := trim_infix raw
  unfold normalizeDateFromMatch
  simp only
  cases hiso : search isoRe (trim raw) with
  | some iso =>
    obtain ⟨e, hm⟩ := searchFrom_some isoRe _ _ _ hiso
    obtain ⟨hc, hcaps⟩ := mem_run_isoRe hm
    simp only at hc hcaps
    refine ⟨?_, ?_⟩
    · intro d hd
      simp only [Option.some.injEq] at hd
      subst hd
      simp only [Match.cap, hcaps, List.lookup, beq_self_eq_true, jsString]
      exact hc
    · intro hno
      refine absurd ⟨ta ++ iso.pre, iso.matched, iso.post ++ tb, ?_, hc⟩ hno
      rw [htrim, e]
      simp only [List.append_assoc]
  | none =>
    simp only
    cases hmd : search mdRe (trim raw) with
    | some md =>
      obtain ⟨e, hm⟩ := searchFrom_some mdRe _ _ _ hmd
      obtain ⟨m, d, y, hw, hcaps, dm, dd, dy⟩ := mem_run_mdRe hm
      simp only at hw hcaps
      refine ⟨?_, ?_⟩
      · intro r hr
        simp only [Option.some.injEq] at hr
        subst hr
        have k1 : md.cap 1 = some m := by rw [Match.cap, hcaps]; rfl
        have k2 : md.cap 2 = some d := by rw [Match.cap, hcaps]; rfl
        have k3 : md.cap 3 = some y := by rw [Match.cap, hcaps]; rfl
        simp only [k1, k2, k3, jsString]
        rw [List.append_assoc, List.cons_append]
        refine isCanonicalDate_of_parts ?_ (padStart_isDigits 2 dm) (padStart_isDigits 2 dd)
        refine @padStart_isDigits 3 4 _ ?_
        obtain ⟨dy1, dy2, dy3⟩ := dy
        split
        · rename_i hlen
          refine ⟨?_, by simp only [List.length_cons]; omega, by simp only [List.length_cons]; omega⟩
          intro c hc
          simp only [List.mem_cons] at hc
          rcases hc with rfl | rfl | hc
          · decide
          · decide
          · exact dy1 c hc
        · rename_i hlen
          exact ⟨dy1, by omega, dy3⟩
      · intro _ hno
        refine absurd ⟨ta ++ md.pre, m, d, y, md.post ++ tb, ?_, dm, dd, dy⟩ hno
        rw [htrim, e, hw]
        simp only [List.append_assoc, List.cons_append]
    | none =>
      simp only
      cases hm1 : search m1Re (trim (replaceClass isCommaOrPeriod []
          (trim raw))) with
      | some m1 =>
        obtain ⟨e, hm⟩ := searchFrom_some m1Re _ _ _ hm1
        obtain ⟨hprev, hpost, hshape, mon, day, c1, c2, dday, dyear⟩ := mem_run_m1Re hm
        simp only at hpost hshape c1 c2 dyear
        refine ⟨?_, ?_⟩
        · intro r hr
          simp only [Match.cap, c1, c2, jsString] at hr
          exact formatMonthDate_canonical h1 h2 dday dyear hr
        · intro _ _ hno
          have hpre := lastChar_none_eq_none hprev
          rw [hpre, hpost, List.nil_append, List.append_nil] at e
          rw [cleanDateText, e] at hno
          exact absurd hshape hno
      | none =>
        simp only
        cases hm2 : search m2Re (trim (replaceClass isCommaOrPeriod []
            (trim raw))) with
        | some m2 =>
          obtain ⟨e, hm⟩ := searchFrom_some m2Re _ _ _ hm2
          obtain ⟨hprev, hpost, hshape, day, mon, c1, c2, dday, dyear⟩ := mem_run_m2Re hm
          simp only at hpost hshape c1 c2 dyear
          refine ⟨?_, ?_⟩
          · intro r hr
            simp only [Match.cap, c1, c2, jsString] at hr
            exact formatMonthDate_canonical h1 h2 dday dyear hr
          · intro _ _ _ hno
            have hpre := lastChar_none_eq_none hprev
            rw [hpre, hpost, List.nil_append, List.append_nil] at e
            rw [cleanDateText, e] at hno
            exact absurd hshape hno
        | none =>
          exact ⟨fun d hd => (by cases hd), fun _ _ _ _ => rfl⟩

/-! ## Texts that have none of the shapes -/

theorem isAlpha_lowerChar (c : Char) : isAlpha (lowerChar c) = isAlpha c :=
  caseBlind_of_upper (by intro n h1 h2; interval_cases n <;> decide) c

theorem not_hasIsoDate {raw : Str} (h : '-' ∉ raw) : ¬ HasIsoDate raw := by
  rintro ⟨pre, w, post, rfl, hw⟩
  exact h (List.mem_append_right _ (List.mem_append_left _ (mem_of_isCanonicalDate hw)))

theorem not_hasSlashDate {raw : Str} (h : '/' ∉ raw) : ¬ HasSlashDate raw := by
  rintro ⟨pre, m, d, y, post, rfl, _⟩
  exact h (by simp)

/-- A month name starts with a letter. -/
theorem isMonthWord_head {w : Str} (h : IsMonthWord w) :
    ∃ c cs, w = c :: cs ∧ isAlpha c = true := by
  have names : ∀ n ∈ fullMonths ++ abbrMonths,
      (match toLowerCase n.toList with
       | x :: _ => isAlpha x
       | [] => false) = true := by decide
  have key : ∀ (u : Str) (n : String), n ∈ fullMonths ++ abbrMonths →
      toLowerCase u = toLowerCase n.toList → ∃ c cs, u = c :: cs ∧ isAlpha c = true := by
    intro u n hn e
    have hx := names n hn
    rw [← e] at hx
    cases u with
    | nil => cases hx
    | cons c cs =>
      refine ⟨c, cs, rfl, ?_⟩
      have : isAlpha (lowerChar c) = true := hx
      rwa [isAlpha_lowerChar] at this
  rcases h with ⟨n, hn, e⟩ | ⟨n, hn, u, rfl, e⟩
  · exact key w n hn e
  · obtain ⟨c, cs, rfl, hc⟩ := key u n (List.mem_append_right _ hn) e
    exact ⟨c, cs ++ ['.'], rfl, hc⟩

/-- A text of the shape `MonthName Day[, Year]` starts with a letter. -/
theorem isMonthDay_head {s : Str} (h : IsMonthDay s) :
    ∃ c cs, s = c :: cs ∧ isAlpha c = true := by
  obtain ⟨mon, sp, day, suf, tail, rfl, hmon, _⟩ := h
  obtain ⟨c, cs, rfl, hc⟩ := isMonthWord_head hmon
  exact ⟨c, _, rfl, hc⟩

/-- A text of the shape `Day MonthName[, Year]` starts with a digit, and goes on
with a digit, a letter or white space. -/
theorem isDayMonth_second {s : Str} (h : IsDayMonth s) :
    ∃ c0 c1 rest, s = c0 :: c1 :: rest ∧ isDigit c0 = true ∧
      (isDigit c1 = true ∨ isAlpha c1 = true ∨ isWs c1 = true) := by
  obtain ⟨day, suf, sp, mon, tail, rfl, hday, hsuf, hsp, _⟩ := h
  have hsp' : ∃ c cs, sp = c :: cs ∧ isWs c = true := by
    cases sp with
    | nil => exact absurd rfl hsp.1
    | cons c cs => exact ⟨c, cs, rfl, hsp.2 c (List.mem_cons_self _ _)⟩
  have hafter : ∃ c1 rest, suf ++ (sp ++ (mon ++ tail)) = c1 :: rest ∧
      (isAlpha c1 = true ∨ isWs c1 = true) := by
    rcases hsuf with rfl | hsuf
    · obtain ⟨c, cs, rfl, hc⟩ := hsp'
      exact ⟨c, _, rfl, Or.inr hc⟩
    · cases suf with
      | nil => simp [toLowerCase] at hsuf
      | cons c cs =>
        refine ⟨c, _, rfl, Or.inl ?_⟩
        have : isAlpha (lowerChar c) = true := by
          simp only [toLowerCase, List.map_cons, List.mem_cons, List.mem_singleton,
            List.not_mem_nil, or_false] at hsuf
          rcases hsuf with h | h | h | h <;>
          · have := (List.cons.inj h).1
            rw [this]
            decide
        rwa [isAlpha_lowerChar] at this
  obtain ⟨hall, hlo, hhi⟩ := hday
  match day, hall, hlo, hhi with
  | [], _, hlo, _ => simp at hlo
  | [x], hall, _, _ =>
    obtain ⟨c1, rest, e, hc⟩ := hafter
    refine ⟨x, c1, rest, ?_, hall x (by simp), Or.inr hc⟩
    rw [List.singleton_append, e]
  | x :: y :: zs, hall, _, _ =>
    exact ⟨x, y, _, rfl, hall x (by simp), Or.inl (hall y (by simp))⟩

/-! # The claims -/

/-! ## C1: the shape of what the date token parser returns -/

/-- C1 (the code at the failing input): the text `1.5 March 2026` has none of the
four shapes (it has no hyphen and no slash, it does not start with a letter, and
after its first digit comes a period), yet the parser returns a date for it,
whatever the current year: it deletes every comma and period, the inner one too,
and reads what is left, `15 March 2026`. -/
theorem normalizeDateFromMatch_inner_period :
    (∀ cy, normalizeDateFromMatch cy "1.5 March 2026".toList = some "2026-03-15".toList) ∧
    cleanDateText "1.5 March 2026".toList = "15 March 2026".toList ∧
    ¬ HasIsoDate "1.5 March 2026".toList ∧ ¬ HasSlashDate "1.5 March 2026".toList ∧
    ¬ IsMonthDay "1.5 March 2026".toList ∧ ¬ IsDayMonth "1.5 March 2026".toList := by
  refine ⟨fun cy => rfl, by decide, not_hasIsoDate (by decide), not_hasSlashDate (by decide),
    ?_, ?_⟩
  · intro h
    obtain ⟨c, cs, e, hc⟩ := isMonthDay_head h
    cases e
    exact absurd hc (by decide)
  · intro h
    obtain ⟨c0, c1, rest, e, _, hc⟩ := isDayMonth_second h
    cases e
    revert hc
    decide

/-! ## C2: two-digit years -/

/-- C2: for a month and a day of one or two digits and a year of two digits,
`normalizeDateFromMatch("M/D/YY")` is `20YY-MM-DD`, month and day padded with a
zero to two digits. -/
theorem normalizeDateFromMatch_two_digit_year (cy : Nat) (m d y : Str)
    (hm : IsDigits 1 2 m) (hd : IsDigits 1 2 d) (hy : IsDigits 2 2 y) :
    normalizeDateFromMatch cy (m ++ '/' :: (d ++ '/' :: y)) =
      some ('2' :: '0' :: (y ++ '-' :: (padStart 2 '0' m ++ '-' :: padStart 2 '0' d))) := by
  have htrim : trim (m ++ '/' :: (d ++ '/' :: y)) = m ++ '/' :: (d ++ '/' :: y) := by
    refine trim_eq_self (hm.head_not_ws _ (le_refl _)) ?_
    have := hy.last_not_ws (m ++ '/' :: (d ++ ['/'])) (by decide)
    simpa using this
  have hlen : (m ++ '/' :: (d ++ '/' :: y)).length ≤ 8 := by
    have := hm.2.2
    have := hd.2.2
    have := hy.2.2
    simp only [List.length_append, List.length_cons]
    omega
  have hiso : search isoRe (m ++ '/' :: (d ++ '/' :: y)) = none := by
    cases h : search isoRe (m ++ '/' :: (d ++ '/' :: y)) with
    | none => rfl
    | some iso =>
      obtain ⟨e, hmem⟩ := searchFrom_some isoRe _ _ _ h
      have h10 : iso.matched.length = 10 := isCanonicalDate_length (mem_run_isoRe hmem).1
      rw [e] at hlen
      simp only [List.length_append] at hlen
      omega
  have hmd := search_of_head (run_mdRe_head none hm hd (hy.mono (le_refl _) (by decide)))
  have hy2 : y.length = 2 := le_antisymm hy.2.2 hy.2.1
  have hpad : padStart 4 '0' ('2' :: '0' :: y) = '2' :: '0' :: y := by
    simp [padStart, hy2]
  unfold normalizeDateFromMatch
  simp only [htrim, hiso, hmd, Match.cap, List.lookup, jsString]
  simp [hy2, hpad]

theorem normalizeDateFromMatch_two_digit_year_witness :
    normalizeDateFromMatch 2026 "3/4/26".toList = some "2026-03-04".toList :=
  normalizeDateFromMatch_two_digit_year 2026 ['3'] ['4'] ['2', '6']
    ⟨by decide, by decide, by decide⟩ ⟨by decide, by decide, by decide⟩
    ⟨by decide, by decide, by decide⟩

/-! ## C3: day ranges -/

/-- C3 (as stated, refuted): on `March 22-20, 2026` the date is that of the second
day, `2026-03-20`, not that of the larger day. -/
theorem range_takes_second_day_not_larger :
    (extractScheduleHeuristic 2026 "March 22-20, 2026".toList).items.map (fun it => it.date) =
      ["2026-03-20".toList] ∧
    laterDay "22".toList "20".toList = "22".toList ∧
    "2026-03-20".toList ≠ "2026-03-".toList ++ padStart 2 '0' (laterDay "22".toList "20".toList) := by
  decide

/-- C3 (amended): a line `MonthName d1-d2, YYYY`, with a month name of the pattern
in any letter case, days of one or two digits and a year of four, gives exactly
one item, and its date is `YYYY-MM-DD` with the number of the month and the SECOND
day `d2`, each padded with a zero to two digits; in any text that has this line,
that item is what the line contributes. -/
theorem lineItems_day_range (cy : Nat) (M : Str) (n : Nat) (he : IsMonthName M n)
    (d1 d2 y : Str) (h1 : IsDigits 1 2 d1) (h2 : IsDigits 1 2 d2) (hy : IsDigits 4 4 y) :
    ∃ it : Item, lineItems cy (rangeLine M d1 d2 y) = [it] ∧
      it.date = y ++ '-' :: (padStart 2 '0' (toDecimal n) ++ '-' :: padStart 2 '0' d2) ∧
      ∀ text pre post, rawLines (normalizeText text) = pre ++ rangeLine M d1 d2 y :: post →
        (extractScheduleHeuristic cy text).items =
          pre.flatMap (lineItems cy) ++ it :: post.flatMap (lineItems cy) := by
  have hsearch := search_rangeSimpleRe_rangeLine he h1 h2 hy
  have hnorm := normalizeDateFromMatch_month_day cy he h2 hy
  have hd2 : d2.isEmpty = false := by
    cases d2 with
    | nil =>
      have := h2.2.1
      simp at this
    | cons _ _ => rfl
  have hyne : y.isEmpty = false := by
    cases y with
    | nil =>
      have := hy.2.1
      simp at this
    | cons _ _ => rfl
  have hcand : M ++ ' ' :: d2 ++ ',' :: ' ' :: y = M ++ ' ' :: (d2 ++ ',' :: ' ' :: y) := by
    simp only [List.append_assoc, List.cons_append]
  have hitems : lineItems cy (rangeLine M d1 d2 y) =
      [{ title := finishTitle (rangeWithoutDate (rangeLine M d1 d2 y)
           ⟨[], rangeLine M d1 d2 y, [], [(1, M), (2, d1), (3, d2), (4, y)]⟩),
         type := typeOf (rangeLine M d1 d2 y),
         date := y ++ '-' :: (padStart 2 '0' (toDecimal n) ++ '-' :: padStart 2 '0' d2),
         time := timeOf (rangeLine M d1 d2 y),
         weight := weightOf (rangeLine M d1 d2 y), notes := [] }] := by
    unfold lineItems
    rw [hsearch]
    simp only [rangeItems, Match.cap, List.lookup, jsString]
    simp [hd2, hyne, hcand, hnorm]
  refine ⟨_, hitems, rfl, ?_⟩
  intro text pre post hlines
  simp only [extractScheduleHeuristic, hlines, List.flatMap_append, List.flatMap_cons, hitems,
    List.singleton_append]

theorem lineItems_day_range_witness :
    (lineItems 2026 "March 20-22, 2026".toList).map (fun it => it.date) =
      ["2026-03-22".toList] := by
  obtain ⟨it, h1, h2, _⟩ := lineItems_day_range 2026 "March".toList 3 (by decide)
    "20".toList "22".toList "2026".toList ⟨by decide, by decide, by decide⟩
    ⟨by decide, by decide, by decide⟩ ⟨by decide, by decide, by decide⟩
  have e : rangeLine "March".toList "20".toList "22".toList "2026".toList =
      "March 20-22, 2026".toList := by decide
  rw [e] at h1
  rw [h1, List.map_cons, List.map_nil, h2]
  decide

/-! ## C4: the type of an item -/

/-- C4: every item of either strategy has the type of the first keyword row, in
the order final, midterm, quiz, lab, project, work/shift/schedule, one of whose
keywords occurs in the line with letter case ignored, and `assignment` when none
occurs; the line `Final Exam: December 10 2026 50%` gives one item of type
`final`, date `2026-12-10` and weight 50. -/
theorem extractScheduleHeuristic_type_by_keyword (cy : Nat) :
    (∀ (line : Str) (m : Match) (it : Item), it ∈ rangeItems cy line m →
      it.type = typeByKeyword line) ∧
    (∀ (line : Str) (it : Item), it ∈ genericItems cy line → it.type = typeByKeyword line) ∧
    (∀ (text : Str) (it : Item), it ∈ (extractScheduleHeuristic cy text).items →
      ∃ line ∈ rawLines (normalizeText text), it ∈ lineItems cy line ∧
        it.type = typeByKeyword line) ∧
    (extractScheduleHeuristic cy finalExamLine).items =
      [{ title := "Final Exam".toList, type := "final", date := "2026-12-10".toList,
         time := [], weight := some 50, notes := [] }] := by
  refine ⟨?_, ?_, ?_, rfl⟩
  · intro line m it h
    rw [(type_of_mem_rangeItems h).1, typeOf_eq_typeByKeyword]
  · intro line it h
    rw [(type_of_mem_genericItems h).1, typeOf_eq_typeByKeyword]
  · intro text it h
    obtain ⟨line, hl, hit⟩ := mem_items_iff.mp h
    exact ⟨line, hl, hit, by rw [(of_mem_lineItems hit).1, typeOf_eq_typeByKeyword]⟩

theorem extractScheduleHeuristic_type_by_keyword_witness :
    (∃ line ∈ rawLines (normalizeText "Midterm quiz 3/4/26".toList),
      ({ title := "Midterm quiz".toList, type := "midterm", date := "2026-03-04".toList,
         time := [], weight := none, notes := [] } : Item) ∈ lineItems 2026 line ∧
      "midterm" = typeByKeyword line) :=
  (extractScheduleHeuristic_type_by_keyword 2026).2.2.1 "Midterm quiz 3/4/26".toList
    { title := "Midterm quiz".toList, type := "midterm", date := "2026-03-04".toList,
      time := [], weight := none, notes := [] } (by decide)

/-! ## C5: the events of the upload response -/

/-- C5: the events of the upload response are a permutation of the flattened
items, each carrying the course name of its document and the title, type, date,
time, weight and notes of its item; they are non-decreasing by date in
lexicographic order, with empty dates first, and events of equal date keep their
document-then-item order, whenever every date is missing, empty or canonical and
`localeCompare` orders such strings lexicographically. -/
theorem uploadEvents_sorted_stable {W : Type} (localeCompare : Str → Str → Int)
    (perCourse : List (CourseExtraction W))
    (hlex : ∀ x y : Str, (x.isEmpty || isCanonicalDate x) = true →
      (y.isEmpty || isCanonicalDate y) = true → (localeCompare x y ≤ 0 ↔ x ≤ y))
    (hdates : ∀ ex ∈ perCourse, ∀ it ∈ ex.items, isAdmissibleDate it.date = true) :
    (uploadEvents localeCompare perCourse).Perm (taggedItems perCourse) ∧
    (∀ e ∈ uploadEvents localeCompare perCourse, ∃ extracted ∈ perCourse,
      ∃ item ∈ extracted.items, e.course = extracted.course_name ∧ e.title = item.title ∧
        e.type = item.type ∧ e.date = item.date ∧ e.time = item.time.getD [] ∧
        e.weight = item.weight ∧ e.notes = item.notes.getD []) ∧
    ((uploadEvents localeCompare perCourse).map (fun e => e.date.getD [])).Sorted (· ≤ ·) ∧
    (∀ pre e post, uploadEvents localeCompare perCourse = pre ++ e :: post →
      e.date.getD [] = [] → ∀ x ∈ pre, x.date.getD [] = []) ∧
    (∀ d : Str,
      (uploadEvents localeCompare perCourse).filter (fun e => e.date.getD [] == d) =
        (taggedItems perCourse).filter (fun e => e.date.getD [] == d)) := by
  have hkey := dateKey_admissible perCourse hdates
  have hflat := flattenEvents_eq_taggedItems perCourse
  have hrel : ∀ a ∈ taggedItems perCourse, ∀ b ∈ taggedItems perCourse,
      dateBefore localeCompare a b ↔ dateKey a ≤ dateKey b :=
    fun a ha b hb => (dateBefore_iff localeCompare a b).trans (hlex _ _ (hkey a ha) (hkey b hb))
  have hperm : (uploadEvents localeCompare perCourse).Perm (taggedItems perCourse) := by
    rw [uploadEvents, hflat]
    exact List.perm_insertionSort _ _
  have hsorted : ((uploadEvents localeCompare perCourse).map dateKey).Sorted (· ≤ ·) := by
    rw [uploadEvents, hflat,
      List.map_insertionSort (dateBefore localeCompare) (· ≤ ·) dateKey _ hrel]
    exact List.sorted_insertionSort _ _
  refine ⟨hperm, ?_, hsorted, ?_, ?_⟩
  · intro e he
    have hmem := hperm.mem_iff.mp he
    simp only [taggedItems, List.mem_flatten, List.mem_map] at hmem
    obtain ⟨l, ⟨extracted, hex, rfl⟩, hmem⟩ := hmem
    obtain ⟨item, hit, rfl⟩ := List.mem_map.mp hmem
    exact ⟨extracted, hex, item, hit, rfl, rfl, rfl, rfl, rfl, rfl, rfl⟩
  · intro pre e post hsplit he x hx
    rw [hsplit, List.map_append, List.map_cons] at hsorted
    have hpw := List.pairwise_append.mp hsorted
    have hle : dateKey x ≤ dateKey e :=
      hpw.2.2 (dateKey x) (List.mem_map_of_mem _ hx) (dateKey e) (List.mem_cons_self _ _)
    have he' : dateKey e = [] := he
    rw [he'] at hle
    exact le_antisymm hle List.nil_le
  · intro d
    have hsub : ((taggedItems perCourse).filter (fun e => dateKey e == d)).Sublist
        (uploadEvents localeCompare perCourse) := by
      rw [uploadEvents, hflat]
      refine List.sublist_insertionSort ?_ (List.filter_sublist _)
      refine List.pairwise_of_forall_mem_list ?_
      intro a ha b hb
      rw [List.mem_filter] at ha hb
      rw [hrel a ha.1 b hb.1, eq_of_beq ha.2, eq_of_beq hb.2]
    have hsub2 := hsub.filter (fun e => dateKey e == d)
    rw [List.filter_filter] at hsub2
    simp only [Bool.and_self] at hsub2
    exact (hsub2.eq_of_length ((hperm.filter _).length_eq).symm).symm

theorem uploadEvents_sorted_stable_witness :
    (∀ ex ∈ sampleBatch, ∀ it ∈ ex.items, isAdmissibleDate it.date = true) ∧
    uploadEvents lexCompare sampleBatch =
      [{ course := "MATH200".toList, title := "Quiz".toList, type := "quiz",
         date := some "2025-12-01".toList, time := "14:00".toList, weight := none,
         notes := [] },
       { course := "CS101".toList, title := "HW1".toList, type := "assignment",
         date := some "2026-01-05".toList, time := [], weight := some 10, notes := [] }] ∧
    (uploadEvents lexCompare sampleBatch).map (fun e => e.date.getD []) =
      ["2025-12-01".toList, "2026-01-05".toList] :=
  ⟨by decide, by decide,
   List.eq_of_perm_of_sorted
     (((uploadEvents_sorted_stable lexCompare sampleBatch (fun x y _ _ => lexCompare_le x y)
       (by decide)).1.map (fun e => e.date.getD [])).trans (by decide))
     (uploadEvents_sorted_stable lexCompare sampleBatch (fun x y _ _ => lexCompare_le x y)
       (by decide)).2.2.1
     (by decide)⟩

/-! ## C6: summary and description lines -/

set_option maxRecDepth 100000 in
/-- C6 (as stated, refuted): for the spec example with a weight that is present
and zero, the description line of the calendar is the empty `DESCRIPTION:` line,
not `DESCRIPTION:Weight 0%`.  (The weight is a whole number: it is truthy unless
it is zero, and the template prints its decimal digits.) -/
theorem toICS_description_zero_weight :
    toICS wholeTruthy toDecimal (fun _ => 1767225600000) [sampleEvent (some 0)] =
      ("BEGIN:VCALENDAR\nVERSION:2.0\nPRODID:-//ENTI333 Course Scheduler//EN\n" ++
        "BEGIN:VEVENT\nUID:event-0-1767225600000@enti333.local\n" ++
        "DTSTAMP:20260322T000000Z\nDTSTART;VALUE=DATE:20260322\n" ++
        "SUMMARY:CS101 - HW1\nDESCRIPTION:\nEND:VEVENT\nEND:VCALENDAR").toList ∧
    descriptionWhenPresent toDecimal (sampleEvent (some 0)) = "DESCRIPTION:Weight 0%".toList ∧
    (eventLines wholeTruthy toDecimal 1767225600000 0 (sampleEvent (some 0)))[5]? ≠
      some (descriptionWhenPresent toDecimal (sampleEvent (some 0))) := by
  decide

/-- C6 (amended): the calendar is the header, one block per event in order and the
footer; the block of the event at index `i` is made of `eventLines`, whose summary
line is `SUMMARY:` with the course, ` - ` and the title, and whose description
line is `DESCRIPTION:Weight `, the weight as the template prints it and `%` when
the weight is present and truthy, and the empty `DESCRIPTION:` line otherwise.
The weight is any JavaScript value, of which `truthy` gives the truthiness and
`render` the printed text. -/
theorem toICS_summary_description {W : Type} (truthy : W → Bool) (render : W → Str)
    (now : Nat → Nat) (events : List (Event W)) (i : Nat) (e : Event W)
    (h : events[i]? = some e) :
    toICS truthy render now events = List.intercalate ['\n']
      (["BEGIN:VCALENDAR".toList, "VERSION:2.0".toList,
        "PRODID:-//ENTI333 Course Scheduler//EN".toList] ++
       icsBody truthy render now 0 events ++ ["END:VCALENDAR".toList]) ∧
    (icsBody truthy render now 0 events).length = events.length ∧
    (icsBody truthy render now 0 events)[i]? =
      some (List.intercalate ['\n'] (eventLines truthy render (now i) i e)) ∧
    (eventLines truthy render (now i) i e)[4]? =
      some ("SUMMARY:".toList ++ e.course ++ " - ".toList ++ e.title) ∧
    (eventLines truthy render (now i) i e)[5]? =
      some (match e.weight with
        | some w => if truthy w = true then "DESCRIPTION:Weight ".toList ++ render w ++ ['%']
          else "DESCRIPTION:".toList
        | none => "DESCRIPTION:".toList) := by
  refine ⟨rfl, icsBody_length truthy render now events 0, ?_, rfl, ?_⟩
  · have := icsBody_getElem? truthy render now events 0 i e h
    rwa [Nat.zero_add] at this
  · cases hw : e.weight <;> simp [eventLines, hw]

theorem toICS_summary_description_witness :
    (icsBody wholeTruthy toDecimal (fun _ => 1767225600000) 0 [sampleEvent (some 10)])[0]? =
      some ("BEGIN:VEVENT\nUID:event-0-1767225600000@enti333.local\n" ++
        "DTSTAMP:20260322T000000Z\nDTSTART;VALUE=DATE:20260322\n" ++
        "SUMMARY:CS101 - HW1\nDESCRIPTION:Weight 10%\nEND:VEVENT").toList :=
  (toICS_summary_description wholeTruthy toDecimal (fun _ => 1767225600000)
    [sampleEvent (some 10)] 0 (sampleEvent (some 10)) rfl).2.2.1.trans (by decide)

/-! ## C7: the orchestrator and its fallback -/

/-- C7: `extractScheduleWithAI` returns what the heuristic extractor returns when
no collaborator is configured, when the call raises, and when there is no
pre-parsed field and neither the `output_text` segments joined by newlines nor
their part from the first opening brace to the last closing brace parses;
otherwise it returns the pre-parsed field if there is one, else the first
successful parse: that of the joined text, else that of its part from the first
opening brace to the last closing brace.  `hempty` records that `JSON.parse`
rejects the empty text. -/
theorem extractScheduleWithAI_cases {J : Type} (jsonParse : Str → Option J)
    (hempty : jsonParse [] = none) (cy : Nat) (text : Str) :
    extractScheduleWithAI none jsonParse cy text = .inl (extractScheduleHeuristic cy text) ∧
    (∀ create : Str → CallOutcome J, create text = .raised →
      extractScheduleWithAI (some create) jsonParse cy text =
        .inl (extractScheduleHeuristic cy text)) ∧
    (∀ (create : Str → CallOutcome J) (response : Response J),
      create text = .returned response →
      (response.output_parsed = none → jsonParse (joinedText response) = none →
        (∀ sub, IsBraceSpan (joinedText response) sub → jsonParse sub = none) →
        extractScheduleWithAI (some create) jsonParse cy text =
          .inl (extractScheduleHeuristic cy text)) ∧
      (∀ parsed, response.output_parsed = some parsed →
        extractScheduleWithAI (some create) jsonParse cy text = .inr parsed) ∧
      (∀ parsed, response.output_parsed = none →
        jsonParse (joinedText response) = some parsed →
        extractScheduleWithAI (some create) jsonParse cy text = .inr parsed) ∧
      (∀ parsed sub, response.output_parsed = none → jsonParse (joinedText response) = none →
        IsBraceSpan (joinedText response) sub → jsonParse sub = some parsed →
        extractScheduleWithAI (some create) jsonParse cy text = .inr parsed)) := by
  refine ⟨rfl, ?_, ?_⟩
  · intro create hc
    simp only [extractScheduleWithAI, hc]
  · intro create response hc
    have hnil : (textBlocks response).isEmpty = true → joinedText response = [] := by
      intro h
      rw [List.isEmpty_iff] at h
      rw [joinedText, ← textBlocks_eq_outputTexts, h]
      rfl
    have hjoin : List.intercalate ['\n'] (textBlocks response) = joinedText response := by
      rw [joinedText, textBlocks_eq_outputTexts]
    refine ⟨?_, ?_, ?_, ?_⟩
    · intro hp hj hs
      simp only [extractScheduleWithAI, hc, hp]
      split
      · rfl
      · simp only [hjoin, hj]
        cases hsub : jsonSubstring (joinedText response) with
        | none => rfl
        | some sub =>
          have := hs sub ((jsonSubstring_eq_some_iff _ _).mp hsub)
          simp only [this]
    · intro parsed hp
      simp only [extractScheduleWithAI, hc, hp]
    · intro parsed hp hj
      simp only [extractScheduleWithAI, hc, hp]
      split
      · rename_i h
        rw [hnil h, hempty] at hj
        cases hj
      · simp only [hjoin, hj]
    · intro parsed sub hp hj hspan hs
      have hsub := (jsonSubstring_eq_some_iff _ _).mpr hspan
      simp only [extractScheduleWithAI, hc, hp]
      split
      · rename_i h
        rw [hnil h, jsonSubstring_nil] at hsub
        cases hsub
      · simp only [hjoin, hj, hsub, hs]

theorem extractScheduleWithAI_cases_witness :
    extractScheduleWithAI (some (answerWith "7")) parseSeven 2026 ['x'] = .inr 7 ∧
    extractScheduleWithAI (some (answerWith "Here it is: \x7b\"n\":7\x7d. Bye")) parseSeven 2026
      ['x'] = .inr 7 ∧
    extractScheduleWithAI (some (answerWith "no")) parseSeven 2026 ['x'] =
      .inl (extractScheduleHeuristic 2026 ['x']) :=
  ⟨((extractScheduleWithAI_cases parseSeven rfl 2026 ['x']).2.2 (answerWith "7") _ rfl).2.2.1
      7 rfl rfl,
   ((extractScheduleWithAI_cases parseSeven rfl 2026 ['x']).2.2
      (answerWith "Here it is: \x7b\"n\":7\x7d. Bye") _ rfl).2.2.2
      7 "\x7b\"n\":7\x7d".toList rfl (by decide)
      ⟨"Here it is: ".toList, "\"n\":7".toList, ". Bye".toList, by decide, by decide, by decide,
        by decide⟩ (by decide),
   ((extractScheduleWithAI_cases parseSeven rfl 2026 ['x']).2.2 (answerWith "no") _ rfl).1
      rfl (by decide) (fun _ hs => absurd hs (not_isBraceSpan (by decide)))⟩

/-! ## C8: the course name -/

/-- C8 (the code at the failing input): two texts share their first forty lines,
none of which names a course, and differ in line forty-one; the course name is
taken from line forty-one. -/
theorem extractCourseName_reads_past_forty_lines :
    (rawLines (normalizeText (fortyOneLines "Course Title: Biology"))).take 40 =
      (rawLines (normalizeText (fortyOneLines "y"))).take 40 ∧
    (extractScheduleHeuristic 2026 (fortyOneLines "Course Title: Biology")).course_name =
      "Biology".toList ∧
    (extractScheduleHeuristic 2026 (fortyOneLines "y")).course_name =
      "Unknown Course".toList := by
  decide

/-! ## C9: the title of an item -/

/-- C9 (as stated, refuted): the line `Assessment 2026-03-05` gives the title
`Assessment` although stripping the date leaves the word `Assessment` and a
space, which is not white space only. -/
theorem title_assessment_not_only_when_blank :
    (extractScheduleHeuristic 2026 "Assessment 2026-03-05".toList).items.map (fun it => it.title) =
      ["Assessment".toList] ∧
    IsWithoutDate "Assessment 2026-03-05".toList "Assessment ".toList ∧
    replaceFirst dueRe [] (replaceAll fillerRe [' ']
      (replaceFirst weightStripRe [] "Assessment ".toList)) = "Assessment ".toList ∧
    ("Assessment ".toList).all isWs = false := by
  refine ⟨by decide, ?_, by decide, by decide⟩
  exact Or.inr ⟨by decide, "2026-03-05".toList, by decide, by decide⟩

/-- C9 (amended): every item has a title that is not empty, has no white space at
either end and contains no hyphen, colon or tab; the title is computed from the
line with its date removed (the line without one contiguous part), by removing
the first weight, turning every run of filler characters into a space and
removing the first due label, and it is `Assessment` when that leaves white space
only and the trimmed result otherwise. -/
theorem extractScheduleHeuristic_title (cy : Nat) (text : Str) (it : Item)
    (h : it ∈ (extractScheduleHeuristic cy text).items) :
    it.title ≠ [] ∧
    (∀ c, it.title.head? = some c → isWs c = false) ∧
    (∀ c, it.title.getLast? = some c → isWs c = false) ∧
    (∀ c ∈ it.title, c ≠ '-' ∧ c ≠ ':' ∧ c ≠ '\t') ∧
    ∃ line ∈ rawLines (normalizeText text), ∃ w stripped, IsWithoutDate line w ∧
      (∃ pre span post, line = pre ++ (span ++ post) ∧ w = pre ++ post) ∧
      stripped = replaceFirst dueRe [] (replaceAll fillerRe [' ']
        (replaceFirst weightStripRe [] w)) ∧
      (stripped.all isWs = true → it.title = "Assessment".toList) ∧
      (stripped.all isWs = false → it.title = trim stripped) := by
  obtain ⟨line, hl, hit⟩ := mem_items_iff.mp h
  obtain ⟨_, w, hw, ht⟩ := of_mem_lineItems hit
  obtain ⟨t1, t2, t3, t4, t5, t6⟩ := finishTitle_spec w
  rw [ht]
  exact ⟨t1, t2, t3, t4, line, hl, w, _, hw, isWithoutDate_split hw, rfl, t5, t6⟩

theorem extractScheduleHeuristic_title_witness :
    hw1Item ∈ (extractScheduleHeuristic 2026 "HW1 - due: 3/4/26 10%".toList).items ∧
    hw1Item.title ≠ [] ∧ (∀ c ∈ hw1Item.title, c ≠ '-' ∧ c ≠ ':' ∧ c ≠ '\t') ∧
    (extractScheduleHeuristic 2026 (septLine 'x')).items.map (fun it => it.title) =
      ["Sept. 7".toList] ∧
    (extractScheduleHeuristic 2026 (septLine (Char.ofNat 0x1F600))).items.map
      (fun it => it.title) = ["Sept".toList ++ [Char.ofNat 0x1F600, '7']] :=
  ⟨by decide,
   (extractScheduleHeuristic_title 2026 "HW1 - due: 3/4/26 10%".toList hw1Item (by decide)).1,
   (extractScheduleHeuristic_title 2026 "HW1 - due: 3/4/26 10%".toList hw1Item
      (by decide)).2.2.2.1,
   by decide, by decide⟩

/-! ## C10: text normalisation -/

/-- C10: the text normalisation at the head of `extractScheduleHeuristic` is
idempotent: normalising a normalised text changes nothing. -/
theorem normalizeText_idempotent (t : Str) :
    normalizeText (normalizeText t) = normalizeText t := by
  rw [normalizeText_eq_map (normalizeText t), normalizeText_eq_map t, List.map_map]
  refine List.map_congr_left ?_
  intro c _
  rw [Function.comp_apply]
  exact normalizeChar_idem c

/-! ## C11: day-first lines -/

/-- C11 (the code on every day-first line, the failing input among them): on a line
`D MonthName YYYY` (a day of one or two digits with an optional ordinal suffix, a
month name of the pattern in any letter case, a year of four digits) the date token
parser gives `YYYY-MM-DD` with the written day and year, but the extractor gives
exactly one item whose date has the CURRENT year and, for the day, the first two
digits of the written year; the two dates agree only when the written year is the
current one and its first two digits are the padded day.  In any text that has this
line, that item is what the line contributes. -/
theorem lineItems_day_first (cy : Nat) (h1 : 1000 ≤ cy) (h2 : cy ≤ 9999) (M : Str) (n : Nat)
    (he : IsMonthName M n) (d suf y : Str) (hd : IsDigits 1 2 d) (hs : suf ∈ ordinalSuffixes)
    (hy : IsDigits 4 4 y) :
    normalizeDateFromMatch cy (dayFirstLine d suf M y) =
      some (y ++ '-' :: (padStart 2 '0' (toDecimal n) ++ '-' :: padStart 2 '0' d)) ∧
    ∃ it : Item, lineItems cy (dayFirstLine d suf M y) = [it] ∧
      it.date = toDecimal cy ++ '-' :: (padStart 2 '0' (toDecimal n) ++ '-' :: y.take 2) ∧
      (some it.date = normalizeDateFromMatch cy (dayFirstLine d suf M y) ↔
        toDecimal cy = y ∧ y.take 2 = padStart 2 '0' d) ∧
      ∀ text pre post, rawLines (normalizeText text) = pre ++ dayFirstLine d suf M y :: post →
        (extractScheduleHeuristic cy text).items =
          pre.flatMap (lineItems cy) ++ it :: post.flatMap (lineItems cy) := by
  have hparse := normalizeDateFromMatch_day_month cy he hd hs hy
  have hcy := toDecimal_year h1 h2
  obtain ⟨a, b, c, e, rfl, ha, hb, hc, _⟩ := hy.four
  have hab : IsDigits 1 2 [a, b] := by
    refine ⟨?_, by simp, by simp⟩
    intro x hx
    simp only [List.mem_cons, List.mem_singleton, List.not_mem_nil, or_false] at hx
    rcases hx with rfl | rfl <;> assumption
  have hsearch := search_rangeSimpleRe_dayFirstLine he hd hs ha hb hc (e := e)
  have hnorm := normalizeDateFromMatch_month_day cy he hab hcy
  have hpad : padStart 2 '0' [a, b] = [a, b] := rfl
  rw [hpad] at hnorm
  have hcyne : (toDecimal cy).isEmpty = false := by
    cases h : toDecimal cy with
    | nil =>
      have := hcy.2.1
      rw [h] at this
      simp at this
    | cons _ _ => rfl
  have hnorm' : normalizeDateFromMatch cy (M ++ ' ' :: a :: b :: ',' :: ' ' :: toDecimal cy) =
      some (toDecimal cy ++ '-' :: (padStart 2 '0' (toDecimal n) ++ '-' :: [a, b])) := hnorm
  have hitems : lineItems cy (dayFirstLine d suf M [a, b, c, e]) =
      [{ title := finishTitle (rangeWithoutDate (dayFirstLine d suf M [a, b, c, e])
           ⟨d ++ (suf ++ [' ']), M ++ ' ' :: [a, b], [c, e], [(1, M), (2, [a, b])]⟩),
         type := typeOf (dayFirstLine d suf M [a, b, c, e]),
         date := toDecimal cy ++ '-' :: (padStart 2 '0' (toDecimal n) ++ '-' :: [a, b]),
         time := timeOf (dayFirstLine d suf M [a, b, c, e]),
         weight := weightOf (dayFirstLine d suf M [a, b, c, e]), notes := [] }] := by
    unfold lineItems
    rw [hsearch]
    simp only [rangeItems, Match.cap, List.lookup, jsString]
    simp [hcyne, hnorm']
  refine ⟨hparse, _, hitems, rfl, ?_, ?_⟩
  · rw [hparse]
    have hlen : (toDecimal cy).length = [a, b, c, e].length :=
      (le_antisymm hcy.2.2 hcy.2.1).trans rfl
    constructor
    · intro h
      have h' := Option.some.inj h
      obtain ⟨e1, e2⟩ := List.append_inj h' hlen
      have e3 := List.append_cancel_left (List.cons.inj e2).2
      exact ⟨e1, (List.cons.inj e3).2⟩
    · rintro ⟨e1, e2⟩
      have e2' : [a, b] = padStart 2 '0' d := e2
      simp only [e1, e2']
  · intro text pre post hlines
    simp only [extractScheduleHeuristic, hlines, List.flatMap_append, List.flatMap_cons, hitems,
      List.singleton_append]

theorem lineItems_day_first_witness :
    normalizeDateFromMatch 2026 "3 March 2026".toList = some "2026-03-03".toList ∧
    (lineItems 2026 "3 March 2026".toList).map (fun it => it.date) = ["2026-03-20".toList] ∧
    (extractScheduleHeuristic 2026 "3 March 2026".toList).items.map (fun it => it.date) =
      ["2026-03-20".toList] := by
  obtain ⟨hp, it, hl, hdate, _, htext⟩ := lineItems_day_first 2026 (by decide) (by decide)
    "March".toList 3 (by decide) "3".toList [] "2026".toList ⟨by decide, by decide, by decide⟩
    (by decide) ⟨by decide, by decide, by decide⟩
  have e : dayFirstLine "3".toList [] "March".toList "2026".toList = "3 March 2026".toList := by
    decide
  rw [e] at hp hl htext
  have ht := htext "3 March 2026".toList [] [] (by decide)
  refine ⟨?_, ?_, ?_⟩
  · rw [hp]
    decide
  · rw [hl, List.map_cons, List.map_nil, hdate]
    decide
  · rw [ht, List.flatMap_nil, List.nil_append, List.map_cons, List.map_nil, hdate]
    decide

end Schedulr
